import Mathlib

/-!
# ModularAlignment (src/jaz/tomography/motion/modular_alignment/modular_alignment.h)

A shallow embedding of the cost/gradient evaluator `ModularAlignment` and of its
parameter layout, followed by theorems about them.

Conventions of the embedding.

* C++ `int` is `Int`; loop counters that start at `0` and count upwards are `Nat`
  and are cast when they enter index arithmetic.  The counts are sizes of
  vectors held in memory, so `int` arithmetic on them is taken to be exact.
* C++ `double` is a type parameter `β` that carries the arithmetic operations the
  code uses.  Exact-arithmetic statements take `β` to be a commutative ring or a
  field; the IEEE special values are available in the instance `Dbl`.
* `std::vector` is `List`; every subscript is bounds checked and the enclosing
  function returns `none` when a subscript is out of range.
* `&v[i]` (a pointer into a vector handed to a model) is the suffix `v.drop i`.
* Code of the repository that is not among the sources (the gravis vector and
  matrix classes, `TaitBryan`, `Interpolation`, `Trajectory`, the motion and
  deformation models) is either modelled, and then marked so, or taken as a
  parameter (`Externals`, `MotionModel`, `DeformationModel2D`).
-/

namespace Relion

/-! ## gravis vectors and matrices -/

/-- Modelled from the spec: `gravis::d2Vector`, a pair of doubles. -/
structure V2 (β : Type) where
  x : β
  y : β
deriving DecidableEq

/-- Modelled from the spec: `gravis::d3Vector`, a triple of doubles. -/
structure V3 (β : Type) where
  x : β
  y : β
  z : β
deriving DecidableEq

/-- Modelled from the spec: `gravis::d4Vector`, a homogeneous 4-vector. -/
structure V4 (β : Type) where
  x : β
  y : β
  z : β
  w : β
deriving DecidableEq

/-- Modelled from the spec: `gravis::d3Matrix`, entry `(row, column)`. -/
abbrev M3 (β : Type) := Fin 3 → Fin 3 → β

/-- Modelled from the spec: `gravis::d4Matrix`, entry `(row, column)`. -/
abbrev M4 (β : Type) := Fin 4 → Fin 4 → β

section Ops

variable {β : Type} [Zero β] [One β] [Add β] [Sub β] [Mul β] [Neg β]

/-- The vector `gravis::d3Vector(0.0, 0.0, 0.0)`. -/
def V3.zero : V3 β := ⟨0, 0, 0⟩

/-- Componentwise sum of two 3-vectors (`operator+`). -/
def V3.add (a b : V3 β) : V3 β := ⟨a.x + b.x, a.y + b.y, a.z + b.z⟩

/-- Scalar times 3-vector (`double * d3Vector`). -/
def V3.smul (s : β) (a : V3 β) : V3 β := ⟨s * a.x, s * a.y, s * a.z⟩

/-- The first two components of a 3-vector (`.xy()`). -/
def V3.xy (a : V3 β) : V2 β := ⟨a.x, a.y⟩

/-- Componentwise sum of two 2-vectors. -/
def V2.add (a b : V2 β) : V2 β := ⟨a.x + b.x, a.y + b.y⟩

/-- Componentwise difference of two 2-vectors. -/
def V2.sub (a b : V2 β) : V2 β := ⟨a.x - b.x, a.y - b.y⟩

/-- Modelled from the spec: the conversion `gravis::d4Vector(d3Vector)`, which
appends the homogeneous coordinate `1`. -/
def V4.ofV3 (a : V3 β) : V4 β := ⟨a.x, a.y, a.z, 1⟩

/-- The first two components of a 4-vector (`.xy()`). -/
def V4.xy (a : V4 β) : V2 β := ⟨a.x, a.y⟩

/-- Modelled from the spec: the product of two 4x4 matrices. -/
def M4.mul (a b : M4 β) : M4 β := fun i j =>
  a i 0 * b 0 j + a i 1 * b 1 j + a i 2 * b 2 j + a i 3 * b 3 j

/-- Modelled from the spec: the product of a 4x4 matrix and a 4-vector. -/
def M4.mulVec (a : M4 β) (v : V4 β) : V4 β :=
  ⟨a 0 0 * v.x + a 0 1 * v.y + a 0 2 * v.z + a 0 3 * v.w,
   a 1 0 * v.x + a 1 1 * v.y + a 1 2 * v.z + a 1 3 * v.w,
   a 2 0 * v.x + a 2 1 * v.y + a 2 2 * v.z + a 2 3 * v.w,
   a 3 0 * v.x + a 3 1 * v.y + a 3 2 * v.z + a 3 3 * v.w⟩

/-- Modelled from the spec: the default-constructed `gravis::d4Matrix`, the
identity. -/
def M4.identity : M4 β := fun i j => if i = j then 1 else 0

/-- Modelled from the spec: the conversion `gravis::d4Matrix(d3Matrix)`, which
places the 3x3 block in the upper left corner of the identity. -/
def M4.ofM3 (m : M3 β) : M4 β := fun i j =>
  if h : i.val < 3 ∧ j.val < 3 then m ⟨i.val, h.1⟩ ⟨j.val, h.2⟩
  else if i = j then 1 else 0

/-- The assignment `A(r,c) = v` to one entry of a matrix. -/
def M4.setEntry (a : M4 β) (r c : Fin 4) (v : β) : M4 β := fun i j =>
  if i = r ∧ j = c then v else a i j

/-- The translation matrix the constructor stores in `minusCentre` (with `-c`)
and in `plusCentre` (with `c`). -/
def M4.translation (c : V3 β) : M4 β := fun i j =>
  if i = j then 1
  else if j = 3 then (if i = 0 then c.x else if i = 1 then c.y else c.z)
  else 0

end Ops

/-! ## Vector access -/

/-- The subscript `v[i]` of a `std::vector` with an `int` index: `none` when
the index is negative or past the end. -/
def getI {α : Type} (v : List α) (i : Int) : Option α :=
  if i < 0 then none else v[i.toNat]?

/-- The assignment `v[i] = a` with an `int` index: `none` when out of range. -/
def setI {α : Type} (v : List α) (i : Int) (a : α) : Option (List α) :=
  if i < 0 ∨ (v.length : Int) ≤ i then none else some (v.set i.toNat a)

/-- The pointer `&v[i]`: the part of the vector that starts at index `i`. -/
def ptrI {α : Type} (v : List α) (i : Int) : List α := v.drop i.toNat

/-! ## Collaborators that are not among the sources -/

/-- A `BufferedImage<double>`: its three dimensions and its voxels. -/
structure BufferedImage (β : Type) where
  xdim : Int
  ydim : Int
  zdim : Int
  data : List β

/-- Library functions the evaluator calls and whose source is not part of the
repository excerpt; they are parameters of the embedding.
`anglesToMatrixAndDerivatives` returns the three matrices `dQ[0]`, `dQ[1]`,
`dQ[2]` the evaluator uses.  `cubicXYGradAndValue_clip` returns a 3-vector
whose `x`, `y` are the image gradient and whose `z` is the value. -/
structure Externals (β : Type) where
  anglesToMatrix4 : β → β → β → M4 β
  anglesToMatrixAndDerivatives : β → β → β → M3 β × M3 β × M3 β
  cubicXYGradAndValue_clip : BufferedImage β → β → β → Int → V3 β

/-- The `MotionModel` template parameter.  `updatePosition` receives the pointer
`&x[mot_block + f*mpc]`, the particle and the running shift and returns the new
shift.  The two gradient accumulators receive a target pointer in the source;
here they return the list of increments they add at that pointer, entry `k` of
the list being added to `target[k]`. -/
structure MotionModel (β : Type) where
  getParameterCount : Int
  updatePosition : List β → Nat → V3 β → V3 β
  updateCostGradient : List (V3 β) → Nat → Int → List β
  computePriorCostAndGradient : List β → Int → β × List β

/-- The `DeformationModel2D` template parameter.  `computeShiftAndGradient`
returns `(def, def_x, def_y)`; `updateCostGradient` returns the list of
increments it adds at its target pointer. -/
structure DeformationModel2D (β : Type) where
  getParameterCount : Int
  computeShiftAndGradient : V2 β → List β → V2 β × V2 β × V2 β
  transformImageGradient : V2 β → V2 β → V2 β → V2 β
  updateCostGradient : V2 β → V2 β → List β → List β

/-- A `Trajectory`: one shift per frame, in Angstrom. -/
structure Trajectory (β : Type) where
  shifts_Ang : List (V3 β)
deriving DecidableEq

/-- Modelled from the spec: the constructor `Trajectory(fc)`, which holds `fc`
zero shifts. -/
def Trajectory.ofLength {β : Type} [Zero β] (fc : Int) : Trajectory β :=
  ⟨List.replicate fc.toNat V3.zero⟩

/-- Modelled from the spec: `Trajectory::operator+`, the frame-wise sum of the
shifts of two trajectories. -/
def Trajectory.add {β : Type} [Add β] (a b : Trajectory β) : Trajectory β :=
  ⟨List.zipWith V3.add a.shifts_Ang b.shifts_Ang⟩

/-- The part of a `ParticleSet` the exporters read. -/
structure ParticleSet (β : Type) where
  motionTrajectories : List (Trajectory β)

/-! ## The class -/

/-- The configuration flags (`struct ModularAlignmentSettings`). -/
structure ModularAlignmentSettings where
  constParticles : Bool
  constAngles : Bool
  constShifts : Bool
  perFrame2DDeformation : Bool
deriving DecidableEq

/-- The data members of `ModularAlignment<MotionModel, DeformationModel2D>` the
evaluator and the exporters read.  `partIndices` holds the `value` of each
`ParticleIndex`. -/
structure ModularAlignment (β : Type) where
  motionModel : MotionModel β
  deformationModel2D : DeformationModel2D β
  CCs : List (BufferedImage β)
  frameProj : List (M4 β)
  partIndices : List Int
  settings : ModularAlignmentSettings
  pixelSize : β
  paddingFactor : β
  num_threads : Int
  fc : Int
  pc : Int
  mpc : Int
  dc : Int
  maxRange : Int
  initialPos : List (V3 β)
  minusCentre : M4 β
  plusCentre : M4 β

namespace ModularAlignment

variable {β : Type}

/-- `getFrameStride()`. -/
def getFrameStride (M : ModularAlignment β) : Int :=
  let out : Int := 0
  let out := if !M.settings.constAngles then out + 3 else out
  let out := if !M.settings.constShifts then out + 2 else out
  out

/-- `getParamCount()`. -/
def getParamCount (M : ModularAlignment β) : Int :=
  let fs := getFrameStride M
  let ds := if M.settings.perFrame2DDeformation then M.dc * M.fc else M.dc
  fs * (M.fc - 1) + 3 * M.pc + M.mpc * (M.fc - 1) + ds

/-- `getAlignmentBlockOffset()`. -/
def getAlignmentBlockOffset (_M : ModularAlignment β) : Int := 0

/-- `getPositionsBlockOffset(fs)`. -/
def getPositionsBlockOffset (M : ModularAlignment β) (fs : Int) : Int :=
  fs * (M.fc - 1)

/-- `getMotionBlockOffset(fs)`. -/
def getMotionBlockOffset (M : ModularAlignment β) (fs : Int) : Int :=
  fs * (M.fc - 1) + 3 * M.pc

/-- `get2DDeformationsBlockOffset(fs)`. -/
def get2DDeformationsBlockOffset (M : ModularAlignment β) (fs : Int) : Int :=
  fs * (M.fc - 1) + 3 * M.pc + M.mpc * (M.fc - 1)

/-- The five outputs of `readViewParams`. -/
structure ViewParams (β : Type) where
  phi : β
  theta : β
  psi : β
  dx : β
  dy : β
deriving DecidableEq

/-- `readViewParams(x, f, phi, theta, psi, dx, dy)`; the five reference
parameters are returned as a record. -/
def readViewParams [Zero β] (M : ModularAlignment β) (x : List β) (f : Int) :
    Option (ViewParams β) := do
  let fs := getFrameStride M
  let offset : Int := (f - 1) * fs
  let (phi, theta, psi, offset) ←
    if M.settings.constAngles then
      (some ((0 : β), (0 : β), (0 : β), offset) : Option (β × β × β × Int))
    else do
      let phi ← getI x offset
      let theta ← getI x (offset + 1)
      let psi ← getI x (offset + 2)
      some (phi, theta, psi, offset + 3)
  let (dx, dy) ←
    if M.settings.constShifts then
      (some ((0 : β), (0 : β)) : Option (β × β))
    else do
      let dx ← getI x offset
      let dy ← getI x (offset + 1)
      some (dx, dy)
  some ⟨phi, theta, psi, dx, dy⟩


/-! ### Buffer updates -/

/-- The statement `v[i] += d`. -/
def addI [Add β] (v : List β) (i : Int) (d : β) : Option (List β) := do
  let a ← getI v i
  setI v i (a + d)

/-- What a model's gradient accumulator does with its target pointer
`&v[off]`: `v[off + k] += ds[k]` for every entry of its list of increments. -/
def addPtr [Add β] (v : List β) (off : Int) : List β → Option (List β)
  | [] => some v
  | d :: ds => do
    let v ← addI v off d
    addPtr v (off + 1) ds

/-! ### gradAndValue -/

section Evaluator

variable [Zero β] [One β] [Add β] [Sub β] [Mul β] [Neg β] [NatCast β] [IntCast β]

/-- The constant `std::numeric_limits<double>::max()`,
`(2^53 - 1) * 2^971`. -/
def dblMax : β := (((2 ^ 53 - 1) * 2 ^ 971 : Nat) : β)

/-- The guard loop of `gradAndValue`: is there an `i < xs` with
`!(x[i] == x[i])`? -/
def nanGuard [BEq β] (x : List β) : Bool :=
  x.any (fun v => !(v == v))

/-- Entry `f` of the four vectors `P`, `P_phi`, `P_theta`, `P_psi`. -/
structure FrameProjections (β : Type) where
  P : M4 β
  P_phi : M4 β
  P_theta : M4 β
  P_psi : M4 β

/-- One iteration of the loop of `gradAndValue` that fills `P[f]`, `P_phi[f]`,
`P_theta[f]` and `P_psi[f]`. -/
def frameProjections (E : Externals β) (M : ModularAlignment β) (x : List β)
    (f : Nat) : Option (FrameProjections β) := do
  let v ←
    if f > 0 then readViewParams M x f
    else some ⟨0, 0, 0, 0, 0⟩
  let Q := E.anglesToMatrix4 v.phi v.theta v.psi
  let dQ := E.anglesToMatrixAndDerivatives v.phi v.theta v.psi
  let Q_phi := (M4.ofM3 dQ.1).setEntry 3 3 0
  let Q_theta := (M4.ofM3 dQ.2.1).setEntry 3 3 0
  let Q_psi := (M4.ofM3 dQ.2.2).setEntry 3 3 0
  let fp ← getI M.frameProj f
  let centProj := M.minusCentre.mul fp
  let P := (M.plusCentre.mul Q).mul centProj
  let P_phi := (M.plusCentre.mul Q_phi).mul centProj
  let P_theta := (M.plusCentre.mul Q_theta).mul centProj
  let P_psi := (M.plusCentre.mul Q_psi).mul centProj
  let P := P.setEntry 0 3 (P 0 3 + v.dx)
  let P := P.setEntry 1 3 (P 1 3 + v.dy)
  some ⟨P, P_phi, P_theta, P_psi⟩

/-- The loop `for (int f = 0; f < fc; f++)` of `gradAndValue` that builds the
projections of all frames. -/
def buildProjections (E : Externals β) (M : ModularAlignment β) (x : List β) :
    Option (List (FrameProjections β)) :=
  (List.range M.fc.toNat).mapM (frameProjections E M x)

/-- The three scratch vectors `grad_par`, `val_par` and `dC_dPos`, each holding
one padded row per thread. -/
structure Buffers (β : Type) where
  grad_par : List β
  val_par : List β
  dC_dPos : List (V3 β)

/-- The locals one iteration of the frame loop computes before it writes. -/
structure FrameLocals (β : Type) where
  def_block_f : Int
  pl : V2 β
  dx_img : β
  dy_img : β
  pl_phi : V2 β
  pl_theta : V2 β
  pl_psi : V2 β
  g0 : V3 β
  g : V2 β
  P : M4 β

/-- The `const` locals of one iteration of the frame loop of `gradAndValue`
(particle `p`, frame `f`, running `shift`), in source order. -/
def frameLocals (E : Externals β) (M : ModularAlignment β) (x : List β)
    (Ps : List (FrameProjections β)) (p f : Nat) (shift : V3 β) :
    Option (FrameLocals β) := do
  let fs := getFrameStride M
  let def_block := get2DDeformationsBlockOffset M fs
  let ip ← getI M.initialPos p
  let pos4 := V4.ofV3 (ip.add shift)
  let fp ← getI M.frameProj f
  let p0 := (fp.mulVec (V4.ofV3 ip)).xy
  let Pf ← getI Ps f
  let pl := (Pf.P.mulVec pos4).xy
  let def_block_f := def_block +
    (if M.settings.perFrame2DDeformation then (f : Int) * M.dc else 0)
  let d := M.deformationModel2D.computeShiftAndGradient pl (ptrI x def_block_f)
  let p1 := pl.add d.1
  let dp := p1.sub p0
  let dx_img := (dp.x + (M.maxRange : β)) * M.paddingFactor
  let dy_img := (dp.y + (M.maxRange : β)) * M.paddingFactor
  let pl_phi := (Pf.P_phi.mulVec pos4).xy
  let pl_theta := (Pf.P_theta.mulVec pos4).xy
  let pl_psi := (Pf.P_psi.mulVec pos4).xy
  let cc ← getI M.CCs p
  let g0 := V3.smul (-M.paddingFactor)
    (E.cubicXYGradAndValue_clip cc dx_img dy_img f)
  let g := M.deformationModel2D.transformImageGradient g0.xy d.2.1 d.2.2
  some ⟨def_block_f, pl, dx_img, dy_img, pl_phi, pl_theta, pl_psi, g0, g, Pf.P⟩

/-- The block `if (f > 0) { ... }` of the frame loop: the accumulation into the
pose entries of frame `f` in row `th` of `grad_par`; `row` is
`th*step_grad`. -/
def poseWrites (M : ModularAlignment β) (row : Int) (f : Nat) (L : FrameLocals β)
    (grad_par : List β) : Option (List β) :=
  let fs := getFrameStride M
  if f > 0 then
    if M.settings.constAngles then
      if !M.settings.constShifts then do
        let gp ← addI grad_par (row + fs * ((f : Int) - 1)) L.g.x
        let gp ← addI gp (row + fs * ((f : Int) - 1) + 1) L.g.y
        some gp
      else some grad_par
    else
      if M.settings.constShifts then do
        let gp ← addI grad_par (row + fs * ((f : Int) - 1))
          (L.pl_phi.x * L.g.x + L.pl_phi.y * L.g.y)
        let gp ← addI gp (row + fs * ((f : Int) - 1) + 1)
          (L.pl_theta.x * L.g.x + L.pl_theta.y * L.g.y)
        let gp ← addI gp (row + fs * ((f : Int) - 1) + 2)
          (L.pl_psi.x * L.g.x + L.pl_psi.y * L.g.y)
        some gp
      else do
        let gp ← addI grad_par (row + fs * ((f : Int) - 1))
          (L.pl_phi.x * L.g.x + L.pl_phi.y * L.g.y)
        let gp ← addI gp (row + fs * ((f : Int) - 1) + 1)
          (L.pl_theta.x * L.g.x + L.pl_theta.y * L.g.y)
        let gp ← addI gp (row + fs * ((f : Int) - 1) + 2)
          (L.pl_psi.x * L.g.x + L.pl_psi.y * L.g.y)
        let gp ← addI gp (row + fs * ((f : Int) - 1) + 3) L.g.x
        let gp ← addI gp (row + fs * ((f : Int) - 1) + 4) L.g.y
        some gp
  else some grad_par

/-- The local `dC_dPos_f` of the frame loop. -/
def dC_dPos_f (L : FrameLocals β) : V3 β :=
  ⟨L.P 0 0 * L.g.x + L.P 1 0 * L.g.y,
   L.P 0 1 * L.g.x + L.P 1 1 * L.g.y,
   L.P 0 2 * L.g.x + L.P 1 2 * L.g.y⟩

/-- One iteration of the frame loop `for (int f = 0; f < fc; f++)` inside the
particle loop of `gradAndValue`, for particle `p` on thread `th`: the locals,
then the writes in source order.  `xs` is `x.size()`.  The state is the running
`shift` and the three scratch vectors. -/
def frameBody (E : Externals β) (M : ModularAlignment β) (x : List β)
    (Ps : List (FrameProjections β)) (p th : Nat) (s : V3 β × Buffers β) (f : Nat) :
    Option (V3 β × Buffers β) := do
  let fs := getFrameStride M
  let xs : Int := x.length
  let data_pad : Int := 512
  let step_grad := xs + data_pad
  let step_frame := M.fc + data_pad
  let pos_block := getPositionsBlockOffset M fs
  let mot_block := getMotionBlockOffset M fs
  let shift := s.1
  let B := s.2
  let L ← frameLocals E M x Ps p f shift
  let val_par ← addI B.val_par ((th : Int) * data_pad) L.g0.z
  let grad_par ← addPtr B.grad_par ((th : Int) * step_grad + L.def_block_f)
    (M.deformationModel2D.updateCostGradient L.pl L.g0.xy (ptrI x L.def_block_f))
  let grad_par ← poseWrites M ((th : Int) * step_grad) f L grad_par
  if !M.settings.constParticles then do
    let dC_dPos ← setI B.dC_dPos ((th : Int) * step_frame + f) (dC_dPos_f L)
    let grad_par ← addI grad_par ((th : Int) * step_grad + pos_block + 3 * p)
      (dC_dPos_f L).x
    let grad_par ← addI grad_par ((th : Int) * step_grad + pos_block + 3 * p + 1)
      (dC_dPos_f L).y
    let grad_par ← addI grad_par ((th : Int) * step_grad + pos_block + 3 * p + 2)
      (dC_dPos_f L).z
    let shift :=
      if (f : Int) < M.fc - 1 then
        M.motionModel.updatePosition (ptrI x (mot_block + (f : Int) * M.mpc)) p shift
      else shift
    some (shift, ⟨grad_par, val_par, dC_dPos⟩)
  else
    some (shift, ⟨grad_par, val_par, B.dC_dPos⟩)

/-- The initialisation of the local `shift` of the particle loop of
`gradAndValue`: zero when particles are constant, the position entries of
particle `p` otherwise. -/
def initialShift (M : ModularAlignment β) (x : List β) (p : Nat) : Option (V3 β) :=
  let pos_block := getPositionsBlockOffset M (getFrameStride M)
  if M.settings.constParticles then some V3.zero
  else do
    let a ← getI x (pos_block + 3 * p)
    let b ← getI x (pos_block + 3 * p + 1)
    let c ← getI x (pos_block + 3 * p + 2)
    some (⟨a, b, c⟩ : V3 β)

/-- The body of the particle loop `for (int p = 0; p < pc; p++)` of
`gradAndValue`, run by thread `th`. -/
def particleBody (E : Externals β) (M : ModularAlignment β) (x : List β)
    (Ps : List (FrameProjections β)) (B : Buffers β) (pt : Nat × Nat) :
    Option (Buffers β) := do
  let p := pt.1
  let th := pt.2
  let fs := getFrameStride M
  let xs : Int := x.length
  let data_pad : Int := 512
  let step_grad := xs + data_pad
  let step_frame := M.fc + data_pad
  let mot_block := getMotionBlockOffset M fs
  let shift ← initialShift M x p
  let s ← (List.range M.fc.toNat).foldlM (frameBody E M x Ps p th) (shift, B)
  let B := s.2
  if !M.settings.constParticles then do
    let grad_par ← addPtr B.grad_par ((th : Int) * step_grad + mot_block)
      (M.motionModel.updateCostGradient
        ((ptrI B.dC_dPos ((th : Int) * step_frame)).take M.fc.toNat) p M.fc)
    some ⟨grad_par, B.val_par, B.dC_dPos⟩
  else some B

/-- The reduction loops at the end of `gradAndValue`: `gradDest[i] = 0.0` for
`i < xs`, then `gradDest[i] += grad_par[th*step_grad + i]` for every thread
and every `i < xs`. -/
def mergeGrad (xs num_threads : Nat) (step_grad : Int) (grad_par gradDest : List β) :
    Option (List β) := do
  let gd ← (List.range xs).foldlM (fun g (i : Nat) => setI g (i : Int) (0 : β)) gradDest
  (List.range num_threads).foldlM (fun g (th : Nat) =>
    (List.range xs).foldlM (fun g (i : Nat) => do
      let v ← getI grad_par ((th : Int) * step_grad + i)
      addI g (i : Int) v) g) gd

/-- The loop `for th: cost += val_par[th*data_pad]`, started at `cost = 0.0`. -/
def mergeCost (num_threads : Nat) (data_pad : Int) (val_par : List β) : Option β :=
  (List.range num_threads).foldlM (fun c (th : Nat) => do
    let v ← getI val_par ((th : Int) * data_pad)
    some (c + v)) (0 : β)

/-- `gradAndValue(x, gradDest)`.  The result is the returned cost and the
contents of `gradDest` after the call, or `none` when the call indexes a vector
out of range.  `sched` is the execution of the `omp parallel for`: the pairs
(particle, thread that runs it), in the order in which the iterations
happen. -/
def gradAndValue [BEq β] (E : Externals β) (M : ModularAlignment β)
    (sched : List (Nat × Nat)) (x gradDest : List β) : Option (β × List β) :=
  let fs := getFrameStride M
  let xs : Int := x.length
  let data_pad : Int := 512
  let step_grad := xs + data_pad
  let step_frame := M.fc + data_pad
  let mot_block := getMotionBlockOffset M fs
  if nanGuard x then some (dblMax, gradDest)
  else do
    let Ps ← buildProjections E M x
    let B0 : Buffers β :=
      ⟨List.replicate (step_grad * M.num_threads).toNat 0,
       List.replicate (data_pad * M.num_threads).toNat 0,
       List.replicate (step_frame * M.num_threads).toNat V3.zero⟩
    let B ← sched.foldlM (particleBody E M x Ps) B0
    let gd ← mergeGrad x.length M.num_threads.toNat step_grad B.grad_par gradDest
    let cost ← mergeCost M.num_threads.toNat data_pad B.val_par
    if !M.settings.constParticles then do
      let pr := M.motionModel.computePriorCostAndGradient (ptrI x mot_block) M.fc
      let gd ← addPtr gd mot_block pr.2
      some (cost + pr.1, gd)
    else some (cost, gd)

/-- The schedule of a run with one thread: particles `0 .. pc-1` in order, all
on thread `0`. -/
def sequentialSchedule (M : ModularAlignment β) : List (Nat × Nat) :=
  (List.range M.pc.toNat).map (fun p => (p, 0))

/-! ### A functional description of the particle loop

The definitions of this section are not translations of source functions: they
name what the loops of `gradAndValue` compute, so that theorems can speak about
it.  A *write* is a pair (column of `gradDest`, increment). -/

/-- The value a `double` vector holds at index `i`, and `0` outside it. -/
def getDI (v : List β) (i : Int) : β := (getI v i).getD 0

/-- The sum of the increments a list of writes makes to column `i`. -/
def colOf (ws : List (Int × β)) (i : Int) : β :=
  ((ws.filter (fun w => decide (w.1 = i))).map Prod.snd).sum

/-- The vector `G'` is `G` after the writes `ws` have been made to the row
that starts at index `row`. -/
def Adds [Add β] [Zero β] (G G' : List β) (row : Int) (ws : List (Int × β)) : Prop :=
  G'.length = G.length ∧ ∀ j : Int, getDI G' j = getDI G j + colOf ws (j - row)

/-- The writes a model's accumulator makes through the pointer to column
`off`: increment `k` goes to column `off + k`. -/
def window (off : Int) : List β → List (Int × β)
  | [] => []
  | d :: ds => (off, d) :: window (off + 1) ds

/-- The writes of the block `if (f > 0) { ... }` of the frame loop. -/
def poseList (M : ModularAlignment β) (f : Nat) (L : FrameLocals β) : List (Int × β) :=
  let fs := getFrameStride M
  let o := fs * ((f : Int) - 1)
  if f > 0 then
    if M.settings.constAngles then
      if !M.settings.constShifts then [(o, L.g.x), (o + 1, L.g.y)] else []
    else
      if M.settings.constShifts then
        [(o, L.pl_phi.x * L.g.x + L.pl_phi.y * L.g.y),
         (o + 1, L.pl_theta.x * L.g.x + L.pl_theta.y * L.g.y),
         (o + 2, L.pl_psi.x * L.g.x + L.pl_psi.y * L.g.y)]
      else
        [(o, L.pl_phi.x * L.g.x + L.pl_phi.y * L.g.y),
         (o + 1, L.pl_theta.x * L.g.x + L.pl_theta.y * L.g.y),
         (o + 2, L.pl_psi.x * L.g.x + L.pl_psi.y * L.g.y),
         (o + 3, L.g.x), (o + 4, L.g.y)]
  else []

/-- The writes of the block `if (!settings.constParticles) { ... }` of the frame
loop into the position entries of particle `p`. -/
def positionList (M : ModularAlignment β) (p : Nat) (L : FrameLocals β) :
    List (Int × β) :=
  let pos_block := getPositionsBlockOffset M (getFrameStride M)
  if !M.settings.constParticles then
    [(pos_block + 3 * p, (dC_dPos_f L).x), (pos_block + 3 * p + 1, (dC_dPos_f L).y),
     (pos_block + 3 * p + 2, (dC_dPos_f L).z)]
  else []

/-- All writes one iteration of the frame loop makes to `grad_par`, in order. -/
def frameWriteList (M : ModularAlignment β) (x : List β) (p f : Nat)
    (L : FrameLocals β) : List (Int × β) :=
  window L.def_block_f
      (M.deformationModel2D.updateCostGradient L.pl L.g0.xy (ptrI x L.def_block_f))
    ++ poseList M f L ++ positionList M p L

/-- The running shift after frame `f`. -/
def nextShift (M : ModularAlignment β) (x : List β) (p f : Nat) (shift : V3 β) : V3 β :=
  if !M.settings.constParticles then
    if (f : Int) < M.fc - 1 then
      M.motionModel.updatePosition
        (ptrI x (getMotionBlockOffset M (getFrameStride M) + (f : Int) * M.mpc)) p shift
    else shift
  else shift

/-- The locals of the frames `frames` of particle `p`, the running shift being
threaded from one frame to the next. -/
def localsFrom (E : Externals β) (M : ModularAlignment β) (x : List β)
    (Ps : List (FrameProjections β)) (p : Nat) :
    V3 β → List Nat → Option (List (FrameLocals β))
  | _, [] => some []
  | shift, f :: frames => do
    let L ← frameLocals E M x Ps p f shift
    let rest ← localsFrom E M x Ps p (nextShift M x p f shift) frames
    some (L :: rest)

/-- The writes of the frames `frames`, given their locals. -/
def framesWriteList (M : ModularAlignment β) (x : List β) (p : Nat) :
    List Nat → List (FrameLocals β) → List (Int × β)
  | f :: frames, L :: Ls => frameWriteList M x p f L ++ framesWriteList M x p frames Ls
  | _, _ => []

/-- All writes the body of the particle loop makes to `grad_par` for particle
`p`, given the locals of its frames. -/
def particleWriteList (M : ModularAlignment β) (x : List β) (p : Nat)
    (Ls : List (FrameLocals β)) : List (Int × β) :=
  framesWriteList M x p (List.range M.fc.toNat) Ls
    ++ (if !M.settings.constParticles then
          window (getMotionBlockOffset M (getFrameStride M))
            (M.motionModel.updateCostGradient (Ls.map dC_dPos_f) p M.fc)
        else [])

/-- The locals of all frames of particle `p`. -/
def particleLocals (E : Externals β) (M : ModularAlignment β) (x : List β)
    (Ps : List (FrameProjections β)) (p : Nat) : Option (List (FrameLocals β)) := do
  let shift ← initialShift M x p
  localsFrom E M x Ps p shift (List.range M.fc.toNat)

/-- The writes of particle `p` to `grad_par`. -/
def particleWrites (E : Externals β) (M : ModularAlignment β) (x : List β)
    (Ps : List (FrameProjections β)) (p : Nat) : List (Int × β) :=
  match particleLocals E M x Ps p with
  | some Ls => particleWriteList M x p Ls
  | none => []

/-- The sum of the values `g0.z` particle `p` adds to `val_par`, as writes to
column `0`. -/
def particleValues (E : Externals β) (M : ModularAlignment β) (x : List β)
    (Ps : List (FrameProjections β)) (p : Nat) : List (Int × β) :=
  match particleLocals E M x Ps p with
  | some Ls => Ls.map (fun L => ((0 : Int), L.g0.z))
  | none => []

/-- The cost the loops of `gradAndValue` add up: the values of all particles
and, with free particles, the prior of the motion model. -/
def costOf (E : Externals β) (M : ModularAlignment β) (x : List β)
    (Ps : List (FrameProjections β)) : β :=
  let values := ((List.range M.pc.toNat).map
    (fun p => colOf (particleValues E M x Ps p) 0)).sum
  if !M.settings.constParticles then
    values + (M.motionModel.computePriorCostAndGradient
      (ptrI x (getMotionBlockOffset M (getFrameStride M))) M.fc).1
  else values

/-- The gradient the loops of `gradAndValue` add up: entry `j` is the sum of the
writes of all particles to column `j` and, with free particles, of the write of
the prior of the motion model. -/
def gradOf (E : Externals β) (M : ModularAlignment β) (x : List β)
    (Ps : List (FrameProjections β)) : List β :=
  (List.range x.length).map (fun (j : Nat) =>
    ((List.range M.pc.toNat).map
      (fun p => colOf (particleWrites E M x Ps p) (j : Int))).sum
    + colOf (if !M.settings.constParticles then
        window (getMotionBlockOffset M (getFrameStride M))
          (M.motionModel.computePriorCostAndGradient
            (ptrI x (getMotionBlockOffset M (getFrameStride M))) M.fc).2
      else []) (j : Int))

/-- The result of `gradAndValue` on a NaN-free vector, without threads and
scratch vectors. -/
def gradAndValueSpec (E : Externals β) (M : ModularAlignment β) (x : List β) :
    Option (β × List β) := do
  let Ps ← buildProjections E M x
  some (costOf E M x Ps, gradOf E M x Ps)

/-- An execution of the parallel particle loop: every particle `0 .. pc-1` runs
once, on a thread `0 .. num_threads-1`. -/
def ValidSchedule (M : ModularAlignment β) (sched : List (Nat × Nat)) : Prop :=
  (sched.map Prod.fst).Perm (List.range M.pc.toNat)
  ∧ ∀ pt ∈ sched, (pt.2 : Int) < M.num_threads

/-- The correlation value the sampler returns at the pixel
`(maxRange * paddingFactor, maxRange * paddingFactor, f)` of `CCs[p]`: the
third component of `cubicXYGradAndValue_clip` there (zero when `CCs` has no
entry `p`). -/
def centreValue (E : Externals β) (M : ModularAlignment β) (p f : Nat) : β :=
  match getI M.CCs (p : Int) with
  | some cc =>
    (E.cubicXYGradAndValue_clip cc ((M.maxRange : β) * M.paddingFactor)
      ((M.maxRange : β) * M.paddingFactor) (f : Int)).z
  | none => 0

/-- What the constructor and the contract of the models guarantee about an
object and a parameter vector handed to `gradAndValue`: the counts are those of
the stored vectors, there is one correlation stack per particle, there is at
least one frame and one thread, `x` has `getParamCount()` entries, and the
gradient accumulators of the two models write only inside their own block. -/
structure Valid (M : ModularAlignment β) (x : List β) : Prop where
  fc_pos : 1 ≤ M.fc
  mpc_nonneg : 0 ≤ M.mpc
  dc_nonneg : 0 ≤ M.dc
  fc_eq : M.fc = M.frameProj.length
  pc_eq : M.pc = M.initialPos.length
  ccs_eq : M.pc = M.CCs.length
  threads_pos : 1 ≤ M.num_threads
  x_len : (x.length : Int) = getParamCount M
  def_len : ∀ pl g c,
    ((M.deformationModel2D.updateCostGradient pl g c).length : Int) ≤ M.dc
  mot_len : ∀ d p n,
    ((M.motionModel.updateCostGradient d p n).length : Int) ≤ M.mpc * (M.fc - 1)
  prior_len : ∀ c n,
    ((M.motionModel.computePriorCostAndGradient c n).2.length : Int)
      ≤ M.mpc * (M.fc - 1)

/-- The contract of `Valid`, for a parameter vector that has at least
`getParamCount()` entries. -/
structure Fits (M : ModularAlignment β) (x : List β) : Prop where
  fc_pos : 1 ≤ M.fc
  mpc_nonneg : 0 ≤ M.mpc
  dc_nonneg : 0 ≤ M.dc
  fc_eq : M.fc = M.frameProj.length
  pc_eq : M.pc = M.initialPos.length
  ccs_eq : M.pc = M.CCs.length
  threads_pos : 1 ≤ M.num_threads
  x_len : getParamCount M ≤ (x.length : Int)
  def_len : ∀ pl g c,
    ((M.deformationModel2D.updateCostGradient pl g c).length : Int) ≤ M.dc
  mot_len : ∀ d p n,
    ((M.motionModel.updateCostGradient d p n).length : Int) ≤ M.mpc * (M.fc - 1)
  prior_len : ∀ c n,
    ((M.motionModel.computePriorCostAndGradient c n).2.length : Int)
      ≤ M.mpc * (M.fc - 1)

/-! ### Exporters -/

/-- `getProjections(x, frameSequence)`.  The statement
`out[fa] = plusCentre * Q * minusCentre * frameProj[f]` and the two updates
`out[fa](0,3) += dx`, `out[fa](1,3) += dy` that follow it are one assignment
here. -/
def getProjections (E : Externals β) (M : ModularAlignment β) (x : List β)
    (frameSequence : List Int) : Option (List (M4 β)) := do
  let out : List (M4 β) := List.replicate M.fc.toNat M4.identity
  let fa0 ← getI frameSequence 0
  let fp0 ← getI M.frameProj 0
  let out ← setI out fa0 fp0
  (List.range' 1 (M.fc.toNat - 1)).foldlM (fun out (f : Nat) => do
    let v ← readViewParams M x f
    let Q := E.anglesToMatrix4 v.phi v.theta v.psi
    let fa ← getI frameSequence f
    let fp ← getI M.frameProj f
    let m := ((M.plusCentre.mul Q).mul M.minusCentre).mul fp
    let m := m.setEntry 0 3 (m 0 3 + v.dx)
    let m := m.setEntry 1 3 (m 1 3 + v.dy)
    setI out fa m) out

/-- `getParticlePositions(x)`. -/
def getParticlePositions (M : ModularAlignment β) (x : List β) :
    Option (List (V3 β)) :=
  let fs := getFrameStride M
  let pos_block := getPositionsBlockOffset M fs
  (List.range M.pc.toNat).mapM (fun (p : Nat) => do
    let ip ← getI M.initialPos p
    let a ← getI x (pos_block + 3 * p)
    let b ← getI x (pos_block + 3 * p + 1)
    let c ← getI x (pos_block + 3 * p + 2)
    some (ip.add ⟨a, b, c⟩))

/-- `getTrajectory(x, p, frameSequence)`. -/
def getTrajectory (M : ModularAlignment β) (x : List β) (p : Nat)
    (frameSequence : List Int) : Option (Trajectory β) :=
  let out : Trajectory β := Trajectory.ofLength M.fc
  if M.settings.constParticles then some out
  else do
    let fs := getFrameStride M
    let mot_block := getMotionBlockOffset M fs
    let s ← (List.range M.fc.toNat).foldlM
      (fun (s : V3 β × List (V3 β)) (f : Nat) => do
        let fa ← getI frameSequence f
        let shifts ← setI s.2 fa (V3.smul M.pixelSize s.1)
        let shift :=
          if (f : Int) < M.fc - 1 then
            M.motionModel.updatePosition (ptrI x (mot_block + (f : Int) * M.mpc)) p s.1
          else s.1
        some (shift, shifts))
      (V3.zero, out.shifts_Ang)
    some ⟨s.2⟩

/-- `exportTrajectories(x, dataSet, frameSequence)`. -/
def exportTrajectories (M : ModularAlignment β) (x : List β)
    (dataSet : ParticleSet β) (frameSequence : List Int) :
    Option (List (Trajectory β)) :=
  (List.range M.pc.toNat).mapM (fun (p : Nat) => do
    let pp ← getI M.partIndices p
    let stored ← getI dataSet.motionTrajectories pp
    let t ← getTrajectory M x p frameSequence
    some (stored.add t))

end Evaluator

end ModularAlignment

/-! ## IEEE special values -/

/-- A double with its special values: the finite values are exact
rationals. -/
inductive Dbl where
  | nan
  | posInf
  | negInf
  | fin (q : ℚ)
deriving DecidableEq

namespace Dbl

/-- The comparison `a == b` of two doubles: a NaN equals nothing. -/
def eq : Dbl → Dbl → Bool
  | posInf, posInf => true
  | negInf, negInf => true
  | fin a, fin b => decide (a = b)
  | _, _ => false

/-- The negation of a double. -/
def neg : Dbl → Dbl
  | nan => nan
  | posInf => negInf
  | negInf => posInf
  | fin a => fin (-a)

/-- The sum of two doubles (finite sums are exact). -/
def add : Dbl → Dbl → Dbl
  | nan, _ => nan
  | _, nan => nan
  | posInf, negInf => nan
  | negInf, posInf => nan
  | posInf, _ => posInf
  | _, posInf => posInf
  | negInf, _ => negInf
  | _, negInf => negInf
  | fin a, fin b => fin (a + b)

/-- The product of an infinity of sign `pos` and a finite value `a`. -/
def infMul (pos : Bool) (a : ℚ) : Dbl :=
  if a = 0 then nan
  else if (0 < a) = pos then posInf else negInf

/-- The product of two doubles (finite products are exact). -/
def mul : Dbl → Dbl → Dbl
  | nan, _ => nan
  | _, nan => nan
  | posInf, posInf => posInf
  | negInf, negInf => posInf
  | posInf, negInf => negInf
  | negInf, posInf => negInf
  | posInf, fin a => infMul true a
  | fin a, posInf => infMul true a
  | negInf, fin a => infMul false a
  | fin a, negInf => infMul false a
  | fin a, fin b => fin (a * b)

instance : BEq Dbl := ⟨eq⟩
instance : Zero Dbl := ⟨fin 0⟩
instance : One Dbl := ⟨fin 1⟩
instance : Neg Dbl := ⟨neg⟩
instance : Add Dbl := ⟨add⟩
instance : Sub Dbl := ⟨fun a b => add a (neg b)⟩
instance : Mul Dbl := ⟨mul⟩
instance : NatCast Dbl := ⟨fun n => fin n⟩
instance : IntCast Dbl := ⟨fun n => fin n⟩

end Dbl

/-! ## Rounding to double -/

namespace Dbl

/-- The spacing of the doubles around a positive value `a`: `2^(e-52)`, where
`2^e ≤ a < 2^(e+1)`, and `2^(-1074)` in the subnormal range. -/
def ulp (a : ℚ) : ℚ :=
  (2 : ℚ) ^ (max (Int.log 2 a) (-1022) - 52)

/-- The integer nearest to `m`; a tie goes to the even neighbour. -/
def roundEven (m : ℚ) : Int :=
  let f := ⌊m⌋
  if m - f < 1 / 2 then f
  else if 1 / 2 < m - f then f + 1
  else if f % 2 = 0 then f else f + 1

/-- The multiple of `ulp a` nearest to `a` (ties to even), for `a > 0`. -/
def nearest (a : ℚ) : ℚ :=
  (roundEven (a / ulp a) : ℚ) * ulp a

/-- The double a real result is rounded to: round to nearest, ties to even, with
53 significant bits; results of magnitude `2^1024` and more become infinite.
The model has one zero. -/
def ofRat (q : ℚ) : Dbl :=
  if q = 0 then fin 0
  else if 0 < q then
    (if (2 : ℚ) ^ (1024 : Nat) ≤ nearest q then posInf else fin (nearest q))
  else
    (if (2 : ℚ) ^ (1024 : Nat) ≤ nearest (-q) then negInf else fin (-nearest (-q)))

/-- The rational `q` is the value of a finite double. -/
def IsDouble (q : ℚ) : Prop := ofRat q = fin q

instance (q : ℚ) : Decidable (IsDouble q) :=
  inferInstanceAs (Decidable (ofRat q = fin q))

/-- The quotient `a / b` of two doubles, correctly rounded.  A zero divisor
counts as `+0`. -/
def div : Dbl → Dbl → Dbl
  | nan, _ => nan
  | _, nan => nan
  | posInf, posInf => nan
  | posInf, negInf => nan
  | negInf, posInf => nan
  | negInf, negInf => nan
  | posInf, fin b => if 0 ≤ b then posInf else negInf
  | negInf, fin b => if 0 ≤ b then negInf else posInf
  | fin _, posInf => fin 0
  | fin _, negInf => fin 0
  | fin a, fin b =>
    if b = 0 then (if a = 0 then nan else if 0 < a then posInf else negInf)
    else ofRat (a / b)

/-- The conversion of a `double` to `int`: the fractional part is discarded;
`none` when the result is not an `int` (the conversion is then undefined). -/
def toInt : Dbl → Option Int
  | fin q =>
    let t : Int := if 0 ≤ q then ⌊q⌋ else ⌈q⌉
    if -2 ^ 31 ≤ t ∧ t < 2 ^ 31 then some t else none
  | _ => none

end Dbl

/-! ## The constructor -/

/-- The part of a `Tomogram` the constructor reads: `optics.pixelSize` and
`centre`. -/
structure Tomogram where
  pixelSize : ℚ
  centre : V3 ℚ

namespace ModularAlignment

/-- The constructor `ModularAlignment(CCs, frameProj, dataSet, partIndices,
motionModel, deformationModel2D, settings, tomogram, paddingFactor,
progressBarOffset, num_threads, verbose)`.  The members are stored as the
rational values of the doubles passed in; `maxRange` is computed as line 197
does: `CCs[0].xdim` is converted to double, `2 * paddingFactor` and the
quotient are rounded to double, and the quotient is converted to `int`.  The
member function `dataSet.getPosition` is the parameter `getPosition`; the
arguments `progressBarOffset` and `verbose` initialise members the evaluator
does not read.  The result is `none` when `CCs[0]` does not exist or the
conversion to `int` is undefined. -/
def construct (CCs : List (BufferedImage ℚ)) (frameProj : List (M4 ℚ))
    (getPosition : Int → V3 ℚ) (partIndices : List Int)
    (motionModel : MotionModel ℚ) (deformationModel2D : DeformationModel2D ℚ)
    (settings : ModularAlignmentSettings) (tomogram : Tomogram)
    (paddingFactor : ℚ) (num_threads : Int) : Option (ModularAlignment ℚ) := do
  let cc0 ← getI CCs 0
  let maxRange ← Dbl.toInt
    (Dbl.div (Dbl.ofRat (cc0.xdim : ℚ)) (Dbl.ofRat (2 * paddingFactor)))
  let tomoCentre := tomogram.centre
  some
    { motionModel := motionModel
      deformationModel2D := deformationModel2D
      CCs := CCs
      frameProj := frameProj
      partIndices := partIndices
      settings := settings
      pixelSize := tomogram.pixelSize
      paddingFactor := paddingFactor
      num_threads := num_threads
      fc := frameProj.length
      pc := partIndices.length
      mpc := motionModel.getParameterCount
      dc := deformationModel2D.getParameterCount
      maxRange := maxRange
      initialPos := partIndices.map getPosition
      minusCentre := M4.translation ⟨-tomoCentre.x, -tomoCentre.y, -tomoCentre.z⟩
      plusCentre := M4.translation tomoCentre }

end ModularAlignment

/-! ## Concrete scenarios -/

namespace Scenario

open ModularAlignment

/-- Library functions of a scenario: the rotation is always the identity, its
derivatives vanish, and the sampled correlation is the plane `value = px` with
image gradient `(1, 0)`. -/
def externals : Externals ℤ where
  anglesToMatrix4 := fun _ _ _ => M4.identity
  anglesToMatrixAndDerivatives := fun _ _ _ =>
    (fun _ _ => 0, fun _ _ => 0, fun _ _ => 0)
  cubicXYGradAndValue_clip := fun _ px _ _ => ⟨1, 0, px⟩

/-- A motion model without parameters: no motion, no prior. -/
def noMotion : MotionModel ℤ where
  getParameterCount := 0
  updatePosition := fun _ _ s => s
  updateCostGradient := fun _ _ _ => []
  computePriorCostAndGradient := fun _ _ => (0, [])

/-- The disabled deformation model: no parameters, no shift. -/
def noDeformation : DeformationModel2D ℤ where
  getParameterCount := 0
  computeShiftAndGradient := fun _ _ => (⟨0, 0⟩, ⟨0, 0⟩, ⟨0, 0⟩)
  transformImageGradient := fun g _ _ => g
  updateCostGradient := fun _ _ _ => []

/-- The scenario of the specification: `fc = 3`, `pc = 2`, `mpc = 0`, `dc = 0`,
angles and shifts free, projections that are translations, padding factor
`1`. -/
def threeFrames : ModularAlignment ℤ where
  motionModel := noMotion
  deformationModel2D := noDeformation
  CCs := [⟨8, 8, 3, []⟩, ⟨8, 8, 3, []⟩]
  frameProj := [M4.translation ⟨1, 2, 0⟩, M4.identity, M4.translation ⟨0, 3, 1⟩]
  partIndices := [1, 0]
  settings := ⟨false, false, false, false⟩
  pixelSize := 1
  paddingFactor := 1
  num_threads := 1
  fc := 3
  pc := 2
  mpc := 0
  dc := 0
  maxRange := 4
  initialPos := [⟨1, 2, 3⟩, ⟨4, 5, 6⟩]
  minusCentre := M4.translation ⟨-5, -5, -5⟩
  plusCentre := M4.translation ⟨5, 5, 5⟩

/-- A parameter vector of the right length for `threeFrames`. -/
def x16 : List ℤ := [1, 2, 3, 4, 5, 6, 7, 8, 9, 10, 11, 12, 13, 14, 15, 16]

/-- Library functions over doubles with special values: identity rotation,
vanishing derivatives, a correlation that is zero everywhere. -/
def externalsDbl : Externals Dbl where
  anglesToMatrix4 := fun _ _ _ => M4.identity
  anglesToMatrixAndDerivatives := fun _ _ _ =>
    (fun _ _ => 0, fun _ _ => 0, fun _ _ => 0)
  cubicXYGradAndValue_clip := fun _ _ _ _ => ⟨0, 0, 0⟩

/-- A configuration over doubles with special values: one frame, no particle,
no motion parameter and one deformation coefficient, so that the parameter
vector has one entry; particles are constant. -/
def oneFrame : ModularAlignment Dbl where
  motionModel := ⟨0, fun _ _ s => s, fun _ _ _ => [], fun _ _ => (0, [])⟩
  deformationModel2D :=
    ⟨1, fun _ _ => (⟨0, 0⟩, ⟨0, 0⟩, ⟨0, 0⟩), fun g _ _ => g, fun _ _ _ => [0]⟩
  CCs := []
  frameProj := [M4.identity]
  partIndices := []
  settings := ⟨true, true, true, false⟩
  pixelSize := 1
  paddingFactor := 1
  num_threads := 1
  fc := 1
  pc := 0
  mpc := 0
  dc := 1
  maxRange := 4
  initialPos := []
  minusCentre := M4.identity
  plusCentre := M4.identity

/-- A data set whose stored trajectory of particle `1` has a non-zero shift in
frame 0. -/
def storedSet : ParticleSet ℤ where
  motionTrajectories :=
    [⟨[⟨0, 0, 0⟩, ⟨0, 0, 0⟩, ⟨0, 0, 0⟩]⟩, ⟨[⟨1, 0, 0⟩, ⟨0, 0, 0⟩, ⟨0, 0, 0⟩]⟩]

/-- The scenario `threeFrames`, run by two threads. -/
def twoThreads : ModularAlignment ℤ :=
  { threeFrames with num_threads := 2 }

/-- The all-zero parameter vector of `threeFrames`. -/
def zero16 : List ℤ := [0, 0, 0, 0, 0, 0, 0, 0, 0, 0, 0, 0, 0, 0, 0, 0]

/-- The simplest instance of the gradient: two frames, one particle, constant
angles and particles, free shifts, no motion parameter, no deformation, identity
projections, padding factor `2`, `maxRange = 3`.  The parameter vector is
`(dx, dy)` of frame 1 followed by the three (unused) position entries. -/
def padded : ModularAlignment ℤ where
  motionModel := noMotion
  deformationModel2D := noDeformation
  CCs := [⟨12, 12, 2, []⟩]
  frameProj := [M4.identity, M4.identity]
  partIndices := [0]
  settings := ⟨true, true, false, false⟩
  pixelSize := 1
  paddingFactor := 2
  num_threads := 1
  fc := 2
  pc := 1
  mpc := 0
  dc := 0
  maxRange := 3
  initialPos := [⟨0, 0, 0⟩]
  minusCentre := M4.translation ⟨-5, -5, -5⟩
  plusCentre := M4.translation ⟨5, 5, 5⟩

/-- A motion model without parameters, over the rationals. -/
def noMotionQ : MotionModel ℚ where
  getParameterCount := 0
  updatePosition := fun _ _ s => s
  updateCostGradient := fun _ _ _ => []
  computePriorCostAndGradient := fun _ _ => (0, [])

/-- The disabled deformation model, over the rationals. -/
def noDeformationQ : DeformationModel2D ℚ where
  getParameterCount := 0
  computeShiftAndGradient := fun _ _ => (⟨0, 0⟩, ⟨0, 0⟩, ⟨0, 0⟩)
  transformImageGradient := fun g _ _ => g
  updateCostGradient := fun _ _ _ => []

/-- The object the constructor builds from one correlation stack of width
`xdim`, one frame and one particle, with padding factor `paddingFactor`. -/
def built (xdim : Int) (paddingFactor : ℚ) : Option (ModularAlignment ℚ) :=
  ModularAlignment.construct [⟨xdim, xdim, 1, []⟩] [M4.identity] (fun _ => ⟨0, 0, 0⟩)
    [0] noMotionQ noDeformationQ ⟨false, false, false, false⟩ ⟨1, ⟨0, 0, 0⟩⟩
    paddingFactor 1

/-- The double nearest to `1.05`. -/
def pf105 : ℚ := 4728779608739021 / 2 ^ 52

end Scenario

end Relion

/-! # Theorems -/

namespace Relion

namespace ModularAlignment

variable {β : Type}

/-! ## Vector access -/

theorem getI_eq_getElem? {α : Type} (v : List α) (i : Int) (h : 0 ≤ i) :
    getI v i = v[i.toNat]? := by
  unfold getI
  rw [if_neg (by omega)]

theorem getI_natCast {α : Type} (v : List α) (n : Nat) :
    getI v (n : Int) = v[n]? := by
  rw [getI_eq_getElem? v _ (by omega)]
  simp

theorem getI_take {α : Type} (v : List α) (n i : Int) (h0 : 0 ≤ i) (h : i < n) :
    getI (v.take n.toNat) i = getI v i := by
  rw [getI_eq_getElem? _ _ h0, getI_eq_getElem? _ _ h0, List.getElem?_take]
  rw [if_pos (by omega)]

theorem getI_isSome {α : Type} (v : List α) (i : Int) (h0 : 0 ≤ i)
    (h : i < v.length) : ∃ a, getI v i = some a := by
  rw [getI_eq_getElem? _ _ h0]
  have : i.toNat < v.length := by omega
  exact ⟨v[i.toNat], List.getElem?_eq_getElem this⟩

theorem setI_eq_some {α : Type} (v : List α) (i : Int) (a : α) (h0 : 0 ≤ i)
    (h : i < v.length) : setI v i a = some (v.set i.toNat a) := by
  unfold setI
  rw [if_neg (by omega)]

theorem setI_some_iff {α : Type} (v w : List α) (i : Int) (a : α) :
    setI v i a = some w ↔ (0 ≤ i ∧ i < v.length) ∧ w = v.set i.toNat a := by
  unfold setI
  split
  · constructor
    · intro h; cases h
    · intro h; omega
  · constructor
    · intro h
      exact ⟨by omega, (Option.some.inj h).symm⟩
    · intro h
      rw [h.2]

/-! ## Loops in the `Option` monad -/

theorem mapM_option_forall₂ {α γ : Type} (f : α → Option γ) :
    ∀ l : List α, (∀ a ∈ l, ∃ b, f a = some b) →
      ∃ r, l.mapM f = some r ∧ List.Forall₂ (fun a b => f a = some b) l r
  | [], _ => ⟨[], by rw [List.mapM_nil]; rfl, List.Forall₂.nil⟩
  | a :: l, h => by
    obtain ⟨b, hb⟩ := h a (List.mem_cons_self a l)
    obtain ⟨r, hr, hf⟩ := mapM_option_forall₂ f l
      (fun a' ha' => h a' (List.mem_cons_of_mem a ha'))
    exact ⟨b :: r, by rw [List.mapM_cons, hb, hr]; rfl, List.Forall₂.cons hb hf⟩

theorem mapM_option_eq_some {α γ : Type} (f : α → Option γ) :
    ∀ (l : List α) (r : List γ), l.mapM f = some r →
      List.Forall₂ (fun a b => f a = some b) l r
  | [], r, h => by
    rw [List.mapM_nil] at h
    cases h
    exact List.Forall₂.nil
  | a :: l, r, h => by
    rw [List.mapM_cons] at h
    cases hb : f a with
    | none => rw [hb] at h; cases h
    | some b =>
      cases hr : l.mapM f with
      | none => rw [hb, hr] at h; cases h
      | some r' =>
        rw [hb, hr] at h
        cases h
        exact List.Forall₂.cons hb (mapM_option_eq_some f l r' hr)

theorem foldlM_option_inv {σ α : Type} (f : σ → α → Option σ) (I : σ → Prop) :
    ∀ (l : List α) (s : σ), I s →
      (∀ s a, a ∈ l → I s → ∃ s', f s a = some s' ∧ I s') →
      ∃ s', l.foldlM f s = some s' ∧ I s'
  | [], s, hs, _ => ⟨s, by simp, hs⟩
  | a :: l, s, hs, h => by
    obtain ⟨s1, h1, hI1⟩ := h s a (List.mem_cons_self a l) hs
    obtain ⟨s2, h2, hI2⟩ := foldlM_option_inv f I l s1 hI1
      (fun s a' ha' => h s a' (List.mem_cons_of_mem a ha'))
    exact ⟨s2, by simp [List.foldlM_cons, h1, h2], hI2⟩

theorem foldlM_option_preserves {σ α : Type} (f : σ → α → Option σ) (I : σ → Prop) :
    ∀ (l : List α) (s s' : σ), I s →
      (∀ s a s', a ∈ l → I s → f s a = some s' → I s') →
      l.foldlM f s = some s' → I s'
  | [], s, s', hs, _, h => by
    simp at h
    rw [← h]; exact hs
  | a :: l, s, s', hs, hstep, h => by
    rw [List.foldlM_cons] at h
    cases h1 : f s a with
    | none => rw [h1] at h; cases h
    | some s1 =>
      rw [h1] at h
      exact foldlM_option_preserves f I l s1 s'
        (hstep s a s1 (List.mem_cons_self a l) hs h1)
        (fun s a' s' ha' => hstep s a' s' (List.mem_cons_of_mem a ha')) h

/-! ## Parameter layout -/

theorem getFrameStride_cases (M : ModularAlignment β) :
    getFrameStride M
      = (if M.settings.constAngles then 0 else 3)
        + (if M.settings.constShifts then 0 else 2) := by
  unfold getFrameStride
  cases M.settings.constAngles <;> cases M.settings.constShifts <;> simp

theorem getFrameStride_nonneg (M : ModularAlignment β) : 0 ≤ getFrameStride M := by
  rw [getFrameStride_cases]
  cases M.settings.constAngles <;> cases M.settings.constShifts <;> simp

/-- C2: `getParamCount()` equals
`getFrameStride()*(fc-1) + 3*pc + mpc*(fc-1) + dc*(perFrame2DDeformation ? fc : 1)`,
where `getFrameStride()` is 3 if the angles are free plus 2 if the shifts are
free; with `fc = 3`, `pc = 2`, `mpc = 0`, `dc = 0` and angles and shifts free the
count is 16. -/
theorem getParamCount_formula (M : ModularAlignment β) :
    getParamCount M
        = getFrameStride M * (M.fc - 1) + 3 * M.pc + M.mpc * (M.fc - 1)
          + M.dc * (if M.settings.perFrame2DDeformation then M.fc else 1)
    ∧ getFrameStride M
        = (if M.settings.constAngles then 0 else 3)
          + (if M.settings.constShifts then 0 else 2)
    ∧ (M.fc = 3 → M.pc = 2 → M.mpc = 0 → M.dc = 0 →
        M.settings.constAngles = false → M.settings.constShifts = false →
        getParamCount M = 16) := by
  refine ⟨?_, getFrameStride_cases M, ?_⟩
  · unfold getParamCount
    cases M.settings.perFrame2DDeformation <;> simp
  · intro h1 h2 h3 h4 h5 h6
    simp [getParamCount, getFrameStride, h1, h2, h3, h4, h5, h6]

/-- Witness of C2 on the specification's scenario. -/
theorem getParamCount_formula_witness :
    getParamCount Scenario.threeFrames = 16 :=
  (getParamCount_formula Scenario.threeFrames).2.2 rfl rfl rfl rfl rfl rfl

/-- C3: the four parameter blocks (frame pose, particle positions, motion,
deformation) are contiguous in this order, the first begins at 0, the last ends
at `getParamCount()`, and no index lies in two of them. -/
theorem blocks_contiguous_disjoint (M : ModularAlignment β)
    (hfc : 1 ≤ M.fc) (hpc : 0 ≤ M.pc) (hmpc : 0 ≤ M.mpc) (hdc : 0 ≤ M.dc) :
    let fs := getFrameStride M
    let a := getAlignmentBlockOffset M
    let p := getPositionsBlockOffset M fs
    let m := getMotionBlockOffset M fs
    let d := get2DDeformationsBlockOffset M fs
    let la := fs * (M.fc - 1)
    let lp := 3 * M.pc
    let lm := M.mpc * (M.fc - 1)
    let ld := if M.settings.perFrame2DDeformation then M.dc * M.fc else M.dc
    a = 0 ∧ p = a + la ∧ m = p + lp ∧ d = m + lm ∧ getParamCount M = d + ld
    ∧ 0 ≤ la ∧ 0 ≤ lp ∧ 0 ≤ lm ∧ 0 ≤ ld
    ∧ ∀ i : Int,
        ¬ ((a ≤ i ∧ i < a + la) ∧ (p ≤ i ∧ i < p + lp))
        ∧ ¬ ((a ≤ i ∧ i < a + la) ∧ (m ≤ i ∧ i < m + lm))
        ∧ ¬ ((a ≤ i ∧ i < a + la) ∧ (d ≤ i ∧ i < d + ld))
        ∧ ¬ ((p ≤ i ∧ i < p + lp) ∧ (m ≤ i ∧ i < m + lm))
        ∧ ¬ ((p ≤ i ∧ i < p + lp) ∧ (d ≤ i ∧ i < d + ld))
        ∧ ¬ ((m ≤ i ∧ i < m + lm) ∧ (d ≤ i ∧ i < d + ld)) := by
  intro fs a p m d la lp lm ld
  have hfs : 0 ≤ fs := getFrameStride_nonneg M
  have hla : 0 ≤ la := mul_nonneg hfs (by omega)
  have hlp : 0 ≤ lp := by simp only [lp]; omega
  have hlm : 0 ≤ lm := mul_nonneg hmpc (by omega)
  have hld : 0 ≤ ld := by
    simp only [ld]
    split
    · exact mul_nonneg hdc (by omega)
    · exact hdc
  have ha : a = 0 := rfl
  have hp : p = a + la := by
    simp only [p, a, la, getPositionsBlockOffset, getAlignmentBlockOffset]; ring
  have hm : m = p + lp := by
    simp only [m, p, lp, getPositionsBlockOffset, getMotionBlockOffset]
  have hd : d = m + lm := by
    simp only [d, m, lm, get2DDeformationsBlockOffset, getMotionBlockOffset]
  have hn : getParamCount M = d + ld := by
    simp only [d, ld, get2DDeformationsBlockOffset, getParamCount, fs]
  refine ⟨ha, hp, hm, hd, hn, hla, hlp, hlm, hld, ?_⟩
  intro i
  refine ⟨?_, ?_, ?_, ?_, ?_, ?_⟩ <;> omega

/-- Witness of C3 on the specification's scenario. -/
theorem blocks_contiguous_disjoint_witness :
    (1 ≤ Scenario.threeFrames.fc ∧ 0 ≤ Scenario.threeFrames.pc
      ∧ 0 ≤ Scenario.threeFrames.mpc ∧ 0 ≤ Scenario.threeFrames.dc)
    ∧ getPositionsBlockOffset Scenario.threeFrames 5 = 10
    ∧ getMotionBlockOffset Scenario.threeFrames 5 = 16
    ∧ getParamCount Scenario.threeFrames
      = get2DDeformationsBlockOffset Scenario.threeFrames
          (getFrameStride Scenario.threeFrames) + 0 :=
  ⟨by decide, by decide, by decide,
   (blocks_contiguous_disjoint Scenario.threeFrames (by decide) (by decide)
    (by decide) (by decide)).2.2.2.2.1⟩

theorem readViewParams_describe [Zero β] (M : ModularAlignment β) (x : List β) (f : Int)
    (hf1 : 1 ≤ f) (hf2 : f ≤ M.fc - 1)
    (hpc : 0 ≤ M.pc) (hmpc : 0 ≤ M.mpc) (hdc : 0 ≤ M.dc)
    (hx : getParamCount M ≤ (x.length : Int)) :
    let fs := getFrameStride M
    let o := (f - 1) * fs
    let o' := if M.settings.constAngles then o else o + 3
    ∃ v : ViewParams β,
      readViewParams M x f = some v
      ∧ (M.settings.constAngles = true → v.phi = 0 ∧ v.theta = 0 ∧ v.psi = 0)
      ∧ (M.settings.constAngles = false →
          getI x o = some v.phi ∧ getI x (o + 1) = some v.theta
          ∧ getI x (o + 2) = some v.psi)
      ∧ (M.settings.constShifts = true → v.dx = 0 ∧ v.dy = 0)
      ∧ (M.settings.constShifts = false →
          getI x o' = some v.dx ∧ getI x (o' + 1) = some v.dy)
      ∧ readViewParams M (x.take (getPositionsBlockOffset M fs).toNat) f = some v := by
  intro fs o o'
  have hlm : 0 ≤ M.mpc * (M.fc - 1) := mul_nonneg hmpc (by omega)
  have hld : 0 ≤ (if M.settings.perFrame2DDeformation then M.dc * M.fc else M.dc) := by
    split
    · exact mul_nonneg hdc (by omega)
    · exact hdc
  have hlen : getPositionsBlockOffset M fs ≤ (x.length : Int) := by
    refine le_trans ?_ hx
    simp only [getParamCount, getPositionsBlockOffset, fs]
    omega
  have hstep : o + fs ≤ getPositionsBlockOffset M fs := by
    have h : (f - 1 + 1) * fs ≤ (M.fc - 1) * fs :=
      mul_le_mul_of_nonneg_right (by omega) (getFrameStride_nonneg M)
    simp only [getPositionsBlockOffset, o]
    linarith
  have ho : 0 ≤ o := mul_nonneg (by omega) (getFrameStride_nonneg M)
  have hfs : fs = (if M.settings.constAngles then 0 else 3)
        + (if M.settings.constShifts then 0 else 2) := getFrameStride_cases M
  have rd : ∀ k : Int, 0 ≤ k → k < fs →
      ∃ a, getI x (o + k) = some a
        ∧ getI (x.take (getPositionsBlockOffset M fs).toNat) (o + k) = some a := by
    intro k hk0 hk
    obtain ⟨a, ha⟩ := getI_isSome x (o + k) (by omega) (by omega)
    refine ⟨a, ha, ?_⟩
    rw [getI_take _ _ _ (by omega) (by omega), ha]
  cases hA : M.settings.constAngles <;> cases hS : M.settings.constShifts
  · simp only [hA, hS, Bool.false_eq_true, if_false] at hfs
    obtain ⟨a0, h0, t0⟩ := rd 0 (by omega) (by omega)
    obtain ⟨a1, h1, t1⟩ := rd 1 (by omega) (by omega)
    obtain ⟨a2, h2, t2⟩ := rd 2 (by omega) (by omega)
    obtain ⟨a3, h3, t3⟩ := rd 3 (by omega) (by omega)
    obtain ⟨a4, h4, t4⟩ := rd 4 (by omega) (by omega)
    simp only [add_zero] at h0 t0
    refine ⟨⟨a0, a1, a2, a3, a4⟩, ?_⟩
    have e4 : o + 3 + 1 = o + 4 := by ring
    simp [readViewParams, hA, hS, h0, h1, h2, h3, h4, t0, t1, t2, t3, t4, o', e4, fs, o]
  · simp only [hA, hS, Bool.false_eq_true, if_false, if_true] at hfs
    obtain ⟨a0, h0, t0⟩ := rd 0 (by omega) (by omega)
    obtain ⟨a1, h1, t1⟩ := rd 1 (by omega) (by omega)
    obtain ⟨a2, h2, t2⟩ := rd 2 (by omega) (by omega)
    simp only [add_zero] at h0 t0
    refine ⟨⟨a0, a1, a2, 0, 0⟩, ?_⟩
    simp [readViewParams, hA, hS, h0, h1, h2, t0, t1, t2, o', fs, o]
  · simp only [hA, hS, Bool.false_eq_true, if_false, if_true] at hfs
    obtain ⟨a0, h0, t0⟩ := rd 0 (by omega) (by omega)
    obtain ⟨a1, h1, t1⟩ := rd 1 (by omega) (by omega)
    simp only [add_zero] at h0 t0
    refine ⟨⟨0, 0, 0, a0, a1⟩, ?_⟩
    simp [readViewParams, hA, hS, h0, h1, t0, t1, o', fs, o]
  · refine ⟨⟨0, 0, 0, 0, 0⟩, ?_⟩
    simp [readViewParams, hA, hS, o', fs, o]

/-- C4: for a frame `1 ≤ f ≤ fc-1` and `x` of length `getParamCount()`,
`readViewParams(x, f)` returns the angles `x[o], x[o+1], x[o+2]` with
`o = (f-1)*getFrameStride()` when the angles are free and zeros when they are
constant, and the shifts `x[o'], x[o'+1]` with `o' = o+3` or `o' = o` when the
shifts are free and zeros when they are constant; it reads only below
`getPositionsBlockOffset(fs)`: the prefix of `x` that ends there gives the same
result. -/
theorem readViewParams_spec [Zero β] (M : ModularAlignment β) (x : List β) (f : Int)
    (hf1 : 1 ≤ f) (hf2 : f ≤ M.fc - 1)
    (hpc : 0 ≤ M.pc) (hmpc : 0 ≤ M.mpc) (hdc : 0 ≤ M.dc)
    (hx : (x.length : Int) = getParamCount M) :
    let fs := getFrameStride M
    let o := (f - 1) * fs
    let o' := if M.settings.constAngles then o else o + 3
    ∃ v : ViewParams β,
      readViewParams M x f = some v
      ∧ (M.settings.constAngles = true → v.phi = 0 ∧ v.theta = 0 ∧ v.psi = 0)
      ∧ (M.settings.constAngles = false →
          getI x o = some v.phi ∧ getI x (o + 1) = some v.theta
          ∧ getI x (o + 2) = some v.psi)
      ∧ (M.settings.constShifts = true → v.dx = 0 ∧ v.dy = 0)
      ∧ (M.settings.constShifts = false →
          getI x o' = some v.dx ∧ getI x (o' + 1) = some v.dy)
      ∧ readViewParams M (x.take (getPositionsBlockOffset M fs).toNat) f = some v :=
  readViewParams_describe M x f hf1 hf2 hpc hmpc hdc (le_of_eq hx.symm)

/-- Witness of C4: frame 2 of the specification's scenario reads the entries
5 .. 9 of the parameter vector. -/
theorem readViewParams_spec_witness :
    ((1 : Int) ≤ 2 ∧ (2 : Int) ≤ Scenario.threeFrames.fc - 1
      ∧ (Scenario.x16.length : Int) = getParamCount Scenario.threeFrames)
    ∧ ∃ v : ViewParams ℤ,
      readViewParams Scenario.threeFrames Scenario.x16 2 = some v
      ∧ v = ⟨6, 7, 8, 9, 10⟩ := by
  refine ⟨by decide, ?_⟩
  obtain ⟨v, hv, -, -, -, -, -⟩ :=
    readViewParams_spec Scenario.threeFrames Scenario.x16 2 (by decide) (by decide)
      (by decide) (by decide) (by decide) (by decide)
  refine ⟨v, hv, ?_⟩
  have h : readViewParams Scenario.threeFrames Scenario.x16 2 = some ⟨6, 7, 8, 9, 10⟩ := by
    decide
  rw [h] at hv
  exact (Option.some.inj hv).symm

/-! ## The guard of gradAndValue -/

/-- C5: when a coordinate of `x` is NaN, `gradAndValue` returns
`std::numeric_limits<double>::max()`, the largest finite double
`(2^53 - 1) * 2^971`, whatever the other coordinates and the configuration are
(and leaves `gradDest` as it was). -/
theorem gradAndValue_nan (E : Externals Dbl) (M : ModularAlignment Dbl)
    (sched : List (Nat × Nat)) (x gradDest : List Dbl) (h : Dbl.nan ∈ x) :
    gradAndValue E M sched x gradDest
      = some (Dbl.fin ((2 ^ 53 - 1) * 2 ^ 971), gradDest) := by
  have hg : nanGuard x = true := by
    unfold nanGuard
    rw [List.any_eq_true]
    exact ⟨Dbl.nan, h, rfl⟩
  have hm : (dblMax : Dbl) = Dbl.fin ((2 ^ 53 - 1) * 2 ^ 971) := by
    show Dbl.fin _ = Dbl.fin _
    congr 1
    norm_num
  unfold gradAndValue
  simp only [hg, if_true, hm]

/-- Witness of C5: a NaN in the only coordinate. -/
theorem gradAndValue_nan_witness :
    Dbl.nan ∈ [Dbl.nan]
    ∧ gradAndValue Scenario.externalsDbl Scenario.oneFrame [] [Dbl.nan] [Dbl.fin 7]
      = some (Dbl.fin ((2 ^ 53 - 1) * 2 ^ 971), [Dbl.fin 7]) :=
  ⟨by simp, gradAndValue_nan _ _ _ _ _ (by simp)⟩

/-! ## Frame 0 -/

/-- With the identity as rotation and the two centring translations of the
constructor, the product `plusCentre * Q * (minusCentre * F)` followed by the
two additions of a zero shift gives `F` back. -/
theorem centred_identity_projection [CommRing β] (c : V3 β) (F : M4 β) :
    let P := ((M4.translation c).mul M4.identity).mul
      ((M4.translation ⟨-c.x, -c.y, -c.z⟩).mul F)
    let P1 := P.setEntry 0 3 (P 0 3 + 0)
    P1.setEntry 1 3 (P1 1 3 + 0) = F := by
  intro P P1
  funext i j
  fin_cases i <;> fin_cases j <;>
    simp [P1, P, M4.mul, M4.identity, M4.translation, M4.setEntry]

theorem frameProjections_zero [CommRing β] (E : Externals β) (M : ModularAlignment β)
    (x : List β) (c : V3 β) (F0 : M4 β)
    (hQ : E.anglesToMatrix4 0 0 0 = M4.identity)
    (hplus : M.plusCentre = M4.translation c)
    (hminus : M.minusCentre = M4.translation ⟨-c.x, -c.y, -c.z⟩)
    (hF0 : getI M.frameProj 0 = some F0) :
    ∃ fp, frameProjections E M x 0 = some fp ∧ fp.P = F0 := by
  have hF0' : getI M.frameProj ((0 : Nat) : Int) = some F0 := hF0
  simp only [frameProjections, hQ, hplus, hminus, hF0', gt_iff_lt, lt_irrefl, if_false,
    Option.bind_eq_bind, Option.some_bind, Option.pure_def]
  exact ⟨_, rfl, centred_identity_projection c F0⟩

theorem getI_set_ne {α : Type} (v : List α) (i j : Int) (a : α)
    (hi : 0 ≤ i) (hj : 0 ≤ j) (hne : i ≠ j) :
    getI (v.set i.toNat a) j = getI v j := by
  rw [getI_eq_getElem? _ _ hj, getI_eq_getElem? _ _ hj, List.getElem?_set_ne]
  omega

theorem getI_set_self {α : Type} (v : List α) (i : Int) (a : α)
    (hi : 0 ≤ i) (h : i < v.length) :
    getI (v.set i.toNat a) i = some a := by
  rw [getI_eq_getElem? _ _ hi, List.getElem?_set_self]
  omega

theorem getI_some_bounds {α : Type} (v : List α) (i : Int) (a : α)
    (h : getI v i = some a) : 0 ≤ i ∧ i < v.length := by
  unfold getI at h
  split at h
  · cases h
  · rename_i h0
    have := (List.getElem?_eq_some.mp h).1
    omega

/-- A frame ordering: a permutation of `0 .. fc-1`. -/
theorem frameSequence_facts (fc : Int) (frameSequence : List Int)
    (hseq : frameSequence.Perm ((List.range fc.toNat).map Int.ofNat)) :
    frameSequence.length = fc.toNat ∧ frameSequence.Nodup
    ∧ ∀ a ∈ frameSequence, 0 ≤ a ∧ a < fc := by
  refine ⟨?_, ?_, ?_⟩
  · rw [hseq.length_eq]; simp
  · rw [hseq.nodup_iff]
    exact (List.nodup_range _).map (fun a b h => by simpa using h)
  · intro a ha
    rw [hseq.mem_iff] at ha
    simp only [List.mem_map, List.mem_range] at ha
    obtain ⟨n, hn, rfl⟩ := ha
    constructor
    · exact Int.ofNat_nonneg n
    · show (n : Int) < fc
      omega

theorem frameProjections_isSome [CommRing β] (E : Externals β) (M : ModularAlignment β)
    (x : List β) (f : Nat) (hf : (f : Int) < M.fc)
    (hpc : 0 ≤ M.pc) (hmpc : 0 ≤ M.mpc) (hdc : 0 ≤ M.dc)
    (hx : getParamCount M ≤ (x.length : Int))
    (hfc : M.fc = M.frameProj.length) :
    ∃ fp, frameProjections E M x f = some fp := by
  obtain ⟨F, hF⟩ := getI_isSome M.frameProj (f : Int) (by omega) (by omega)
  by_cases h0 : f > 0
  · obtain ⟨v, hv, -⟩ := readViewParams_describe M x (f : Int) (by omega) (by omega)
      hpc hmpc hdc hx
    simp only [frameProjections, h0, if_true, hv, hF, Option.bind_eq_bind,
      Option.some_bind, Option.pure_def]
    exact ⟨_, rfl⟩
  · simp only [frameProjections, h0, if_false, hF, Option.bind_eq_bind,
      Option.some_bind, Option.pure_def]
    exact ⟨_, rfl⟩

theorem buildProjections_isSome [CommRing β] (E : Externals β) (M : ModularAlignment β)
    (x : List β)
    (hpc : 0 ≤ M.pc) (hmpc : 0 ≤ M.mpc) (hdc : 0 ≤ M.dc)
    (hx : getParamCount M ≤ (x.length : Int))
    (hfc : M.fc = M.frameProj.length) :
    ∃ Ps, buildProjections E M x = some Ps
      ∧ List.Forall₂ (fun f fp => frameProjections E M x f = some fp)
          (List.range M.fc.toNat) Ps := by
  unfold buildProjections
  apply mapM_option_forall₂
  intro f hf
  rw [List.mem_range] at hf
  exact frameProjections_isSome E M x f (by omega) hpc hmpc hdc hx hfc

theorem buildProjections_getI [CommRing β] (E : Externals β) (M : ModularAlignment β)
    (x : List β) (Ps : List (FrameProjections β))
    (h : buildProjections E M x = some Ps) (f : Nat) (hf : (f : Int) < M.fc) :
    Ps.length = M.fc.toNat
    ∧ ∃ fp, getI Ps (f : Int) = some fp ∧ frameProjections E M x f = some fp := by
  have h2 := mapM_option_eq_some _ _ _ h
  have hlen := h2.length_eq
  rw [List.length_range] at hlen
  have hf1 : f < (List.range M.fc.toNat).length := by rw [List.length_range]; omega
  have hf2 : f < Ps.length := by omega
  have h3 := h2.get hf1 hf2
  simp only [List.get_eq_getElem, List.getElem_range] at h3
  refine ⟨hlen.symm, Ps[f], ?_, h3⟩
  rw [getI_natCast]
  exact List.getElem?_eq_getElem hf2

/-- Whenever `getProjections` returns, the entry at index `frameSequence[0]` is
`frameProj[0]`. -/
theorem getProjections_frame0 [CommRing β] (E : Externals β) (M : ModularAlignment β)
    (x : List β) (frameSequence : List Int) (F0 : M4 β)
    (hF0 : getI M.frameProj 0 = some F0)
    (hseq : frameSequence.Perm ((List.range M.fc.toNat).map Int.ofNat))
    (out : List (M4 β)) (h : getProjections E M x frameSequence = some out) :
    ∃ fa0, getI frameSequence 0 = some fa0 ∧ getI out fa0 = some F0 := by
  obtain ⟨hlen, hnd, hrange⟩ := frameSequence_facts M.fc frameSequence hseq
  simp only [getProjections, hF0, Option.bind_eq_bind, Option.bind_eq_some,
    Option.some_bind] at h
  obtain ⟨fa0, hfa0, out1, hout1, hfold⟩ := h
  refine ⟨fa0, hfa0, ?_⟩
  rw [setI_some_iff] at hout1
  obtain ⟨⟨h0, h1⟩, rfl⟩ := hout1
  refine foldlM_option_preserves _ (fun o => getI o fa0 = some F0) _ _ _
    (getI_set_self _ _ _ h0 h1) ?_ hfold
  intro s f s' hf hs hstep
  rw [List.mem_range'_1] at hf
  simp only [Option.bind_eq_bind, Option.bind_eq_some] at hstep
  obtain ⟨v, -, fa, hfa, fp, -, hset⟩ := hstep
  rw [setI_some_iff] at hset
  obtain ⟨⟨hfa0', -⟩, rfl⟩ := hset
  have hbf := getI_some_bounds _ _ _ hfa
  have hne : fa ≠ fa0 := by
    intro heq
    rw [getI_natCast] at hfa
    have hfa0' : frameSequence[0]? = some fa0 := by
      have := hfa0
      rw [getI_eq_getElem? _ _ (le_refl 0)] at this
      simpa using this
    obtain ⟨hl1, e1⟩ := List.getElem?_eq_some.mp hfa
    obtain ⟨hl0, e0⟩ := List.getElem?_eq_some.mp hfa0'
    have hget : frameSequence[f] = frameSequence[0] := by rw [e1, e0, heq]
    have := (List.Nodup.getElem_inj_iff hnd).mp hget
    omega
  rw [getI_set_ne _ _ _ _ hfa0' h0 hne]
  exact hs

theorem getProjections_isSome [CommRing β] (E : Externals β) (M : ModularAlignment β)
    (x : List β) (frameSequence : List Int)
    (hseq : frameSequence.Perm ((List.range M.fc.toNat).map Int.ofNat))
    (hfc1 : 1 ≤ M.fc)
    (hpc : 0 ≤ M.pc) (hmpc : 0 ≤ M.mpc) (hdc : 0 ≤ M.dc)
    (hx : getParamCount M ≤ (x.length : Int))
    (hfc : M.fc = M.frameProj.length) :
    ∃ out, getProjections E M x frameSequence = some out := by
  obtain ⟨hlen, hnd, hrange⟩ := frameSequence_facts M.fc frameSequence hseq
  have rdseq : ∀ f : Nat, (f : Int) < M.fc →
      ∃ fa, getI frameSequence (f : Int) = some fa ∧ 0 ≤ fa ∧ fa < M.fc := by
    intro f hf
    obtain ⟨fa, hfa⟩ := getI_isSome frameSequence (f : Int) (by omega) (by omega)
    refine ⟨fa, hfa, hrange fa ?_⟩
    rw [getI_natCast] at hfa
    exact List.mem_iff_getElem?.mpr ⟨f, hfa⟩
  obtain ⟨fa0, hfa0, hfa0b⟩ := rdseq 0 (by omega)
  obtain ⟨F0, hF0⟩ := getI_isSome M.frameProj 0 (by omega) (by omega)
  have hset0 := setI_eq_some (List.replicate M.fc.toNat (M4.identity : M4 β)) fa0 F0
    hfa0b.1 (by rw [List.length_replicate]; omega)
  have hfa0' : getI frameSequence 0 = some fa0 := hfa0
  simp only [getProjections, hF0, hfa0', hset0, Option.bind_eq_bind, Option.some_bind]
  refine Exists.imp (fun _ h => h.1) (foldlM_option_inv _
    (fun o : List (M4 β) => o.length = M.fc.toNat) _ _ (by simp) ?_)
  · intro s f hf hs
    rw [List.mem_range'_1] at hf
    obtain ⟨v, hv, -⟩ := readViewParams_describe M x (f : Int) (by omega) (by omega)
      hpc hmpc hdc hx
    obtain ⟨fa, hfa, hfab⟩ := rdseq f (by omega)
    obtain ⟨F, hF⟩ := getI_isSome M.frameProj (f : Int) (by omega) (by omega)
    simp only [hv, hfa, hF, Option.bind_eq_bind, Option.some_bind]
    rw [setI_eq_some _ _ _ hfab.1 (by omega)]
    exact ⟨_, rfl, by rw [List.length_set]; exact hs⟩

/-- C6: frame 0's corrected projection is the initial projection `frameProj[0]`,
for every parameter vector `x`: the first iteration of the projection loop of
`gradAndValue` yields it as `P[0]`, every run of the loop stores it at index 0,
and `getProjections` stores it at index `frameSequence[0]`.  Assumed: the
rotation of zero angles is the identity, `plusCentre` and `minusCentre` are the
translations by the tomogram centre and its negative, `frameSequence` is a
permutation of `0 .. fc-1`, and exact arithmetic.  For a parameter vector of
length `getParamCount()` both functions return. -/
theorem frame0_projection_invariant [CommRing β] (E : Externals β)
    (M : ModularAlignment β) (x : List β) (frameSequence : List Int)
    (c : V3 β) (F0 : M4 β)
    (hQ : E.anglesToMatrix4 0 0 0 = M4.identity)
    (hplus : M.plusCentre = M4.translation c)
    (hminus : M.minusCentre = M4.translation ⟨-c.x, -c.y, -c.z⟩)
    (hF0 : getI M.frameProj 0 = some F0)
    (hfc1 : 1 ≤ M.fc)
    (hseq : frameSequence.Perm ((List.range M.fc.toNat).map Int.ofNat)) :
    (∃ fp, frameProjections E M x 0 = some fp ∧ fp.P = F0)
    ∧ (∀ Ps, buildProjections E M x = some Ps →
        ∃ fp, getI Ps 0 = some fp ∧ fp.P = F0)
    ∧ (∀ out, getProjections E M x frameSequence = some out →
        ∃ fa0, getI frameSequence 0 = some fa0 ∧ getI out fa0 = some F0)
    ∧ ((x.length : Int) = getParamCount M → 0 ≤ M.pc → 0 ≤ M.mpc → 0 ≤ M.dc →
        M.fc = M.frameProj.length →
        (∃ Ps, buildProjections E M x = some Ps)
        ∧ (∃ out, getProjections E M x frameSequence = some out)) := by
  have h0 := frameProjections_zero E M x c F0 hQ hplus hminus hF0
  refine ⟨h0, ?_, ?_, ?_⟩
  · intro Ps hPs
    obtain ⟨-, fp, hfp, hfp'⟩ := buildProjections_getI E M x Ps hPs 0 (by omega)
    obtain ⟨fp0, hfp0, hP⟩ := h0
    rw [hfp0] at hfp'
    have e := Option.some.inj hfp'
    subst e
    exact ⟨_, hfp, hP⟩
  · intro out hout
    exact getProjections_frame0 E M x frameSequence F0 hF0 hseq out hout
  · intro hx hpc hmpc hdc hfc
    obtain ⟨Ps, hPs, -⟩ := buildProjections_isSome E M x hpc hmpc hdc (le_of_eq hx.symm)
      hfc
    exact ⟨⟨Ps, hPs⟩,
      getProjections_isSome E M x frameSequence hseq hfc1 hpc hmpc hdc
        (le_of_eq hx.symm) hfc⟩

/-- Witness of C6 on the specification's scenario, with the frame ordering
`2, 0, 1`. -/
theorem frame0_projection_invariant_witness :
    (Scenario.externals.anglesToMatrix4 0 0 0 = M4.identity
      ∧ Scenario.threeFrames.plusCentre = M4.translation ⟨5, 5, 5⟩
      ∧ Scenario.threeFrames.minusCentre = M4.translation ⟨-5, -5, -5⟩
      ∧ getI Scenario.threeFrames.frameProj 0 = some (M4.translation ⟨1, 2, 0⟩)
      ∧ 1 ≤ Scenario.threeFrames.fc
      ∧ List.Perm [2, 0, 1]
          ((List.range Scenario.threeFrames.fc.toNat).map Int.ofNat))
    ∧ ∃ fp, frameProjections Scenario.externals Scenario.threeFrames Scenario.x16 0
          = some fp ∧ fp.P = M4.translation ⟨1, 2, 0⟩ :=
  ⟨⟨rfl, rfl, rfl, rfl, by decide, by decide⟩,
   (frame0_projection_invariant Scenario.externals Scenario.threeFrames Scenario.x16
      [2, 0, 1] ⟨5, 5, 5⟩ (M4.translation ⟨1, 2, 0⟩) rfl rfl rfl rfl (by decide)
      (by decide)).1⟩

/-! ## Exporters -/

theorem set_replicate_self {α : Type} (a : α) :
    ∀ (n i : Nat), (List.replicate n a).set i a = List.replicate n a
  | 0, _ => rfl
  | n + 1, 0 => rfl
  | n + 1, i + 1 => by
    rw [List.replicate_succ, List.set_cons_succ, set_replicate_self a n i]

theorem V3.smul_zero [CommRing β] (s : β) : V3.smul s (V3.zero : V3 β) = V3.zero := by
  simp [V3.smul, V3.zero]

theorem V3.add_zero [CommRing β] (a : V3 β) : a.add V3.zero = a := by
  simp [V3.add, V3.zero]

theorem zipWith_add_zero [CommRing β] :
    ∀ (l : List (V3 β)) (n : Nat), l.length = n →
      List.zipWith V3.add l (List.replicate n V3.zero) = l
  | [], n, _ => by simp
  | a :: l, 0, h => by simp at h
  | a :: l, n + 1, h => by
    rw [List.replicate_succ, List.zipWith_cons_cons, V3.add_zero,
      zipWith_add_zero l n (by simpa using h)]

/-- With a motion model that never moves the running shift, `getTrajectory`
returns `fc` zero shifts. -/
theorem getTrajectory_zero_motion [CommRing β] (M : ModularAlignment β) (x : List β)
    (p : Nat) (frameSequence : List Int)
    (hzero : ∀ c q s, M.motionModel.updatePosition c q s = s)
    (hseq : frameSequence.Perm ((List.range M.fc.toNat).map Int.ofNat)) :
    getTrajectory M x p frameSequence = some (Trajectory.ofLength M.fc) := by
  obtain ⟨hlen, hnd, hrange⟩ := frameSequence_facts M.fc frameSequence hseq
  unfold getTrajectory
  by_cases hc : M.settings.constParticles = true
  · simp [hc]
  · simp only [hc, if_false, Bool.false_eq_true]
    obtain ⟨s', hs', hI⟩ := foldlM_option_inv
      (fun (s : V3 β × List (V3 β)) (f : Nat) =>
        (getI frameSequence (f : Int)).bind fun fa =>
          (setI s.2 fa (V3.smul M.pixelSize s.1)).bind fun shifts =>
            some (if (f : Int) < M.fc - 1 then
              M.motionModel.updatePosition
                (ptrI x (getMotionBlockOffset M (getFrameStride M) + (f : Int) * M.mpc))
                p s.1
              else s.1, shifts))
      (fun s => s = ((V3.zero : V3 β), List.replicate M.fc.toNat (V3.zero : V3 β)))
      (List.range M.fc.toNat) (V3.zero, List.replicate M.fc.toNat V3.zero) rfl
      (by
        intro s f hf hs
        rw [List.mem_range] at hf
        subst hs
        obtain ⟨fa, hfa⟩ := getI_isSome frameSequence (f : Int) (by omega) (by omega)
        have hfab := hrange fa (by
          rw [getI_natCast] at hfa
          exact List.mem_iff_getElem?.mpr ⟨f, hfa⟩)
        simp only [hfa, Option.some_bind, hzero, ite_self, V3.smul_zero]
        rw [setI_eq_some _ _ _ hfab.1 (by rw [List.length_replicate]; omega),
          set_replicate_self]
        exact ⟨_, rfl, rfl⟩)
    simp only [Option.bind_eq_bind, Trajectory.ofLength] at hs' ⊢
    rw [hs', hI]
    rfl

theorem forall₂_getI {γ : Type} (R : Nat → γ → Prop) (n : Nat) (r : List γ)
    (h : List.Forall₂ R (List.range n) r) :
    r.length = n ∧ ∀ p : Nat, p < n → ∃ b, getI r (p : Int) = some b ∧ R p b := by
  have hlen := h.length_eq
  rw [List.length_range] at hlen
  refine ⟨hlen.symm, ?_⟩
  intro p hp
  have hp1 : p < (List.range n).length := by rw [List.length_range]; exact hp
  have hp2 : p < r.length := by omega
  have h3 := h.get hp1 hp2
  simp only [List.get_eq_getElem, List.getElem_range] at h3
  refine ⟨r[p], ?_, h3⟩
  rw [getI_natCast]
  exact List.getElem?_eq_getElem hp2

/-- C7 (as amended): with a motion model whose `updatePosition` leaves the running
shift unchanged, for every parameter vector `x` and every frame ordering,
`getTrajectory` returns `fc` zero shifts for every particle, and the trajectory
`exportTrajectories` returns for particle `p` is the trajectory stored in the
data set for that particle plus this zero trajectory; it is the stored
trajectory itself when that has `fc` frames. -/
theorem exportTrajectories_zero_motion [CommRing β] (M : ModularAlignment β)
    (x : List β) (dataSet : ParticleSet β) (frameSequence : List Int)
    (hzero : ∀ c q s, M.motionModel.updatePosition c q s = s)
    (hseq : frameSequence.Perm ((List.range M.fc.toNat).map Int.ofNat))
    (hstored : ∀ p : Nat, (p : Int) < M.pc →
      ∃ pp stored, getI M.partIndices (p : Int) = some pp
        ∧ getI dataSet.motionTrajectories pp = some stored) :
    ∃ ts, exportTrajectories M x dataSet frameSequence = some ts
      ∧ ts.length = M.pc.toNat
      ∧ ∀ p : Nat, (p : Int) < M.pc →
          getTrajectory M x p frameSequence = some (Trajectory.ofLength M.fc)
          ∧ ∃ pp stored, getI M.partIndices (p : Int) = some pp
            ∧ getI dataSet.motionTrajectories pp = some stored
            ∧ getI ts (p : Int) = some (stored.add (Trajectory.ofLength M.fc))
            ∧ (stored.shifts_Ang.length = M.fc.toNat →
                getI ts (p : Int) = some stored) := by
  have hT := fun p => getTrajectory_zero_motion M x p frameSequence hzero hseq
  obtain ⟨ts, hts, hf⟩ := mapM_option_forall₂
    (fun (p : Nat) =>
      (getI M.partIndices (p : Int)).bind fun pp =>
        (getI dataSet.motionTrajectories pp).bind fun stored =>
          (getTrajectory M x p frameSequence).bind fun t => some (stored.add t))
    (List.range M.pc.toNat)
    (by
      intro p hp
      rw [List.mem_range] at hp
      obtain ⟨pp, stored, h1, h2⟩ := hstored p (by omega)
      simp only [h1, h2, hT, Option.some_bind]
      exact ⟨_, rfl⟩)
  obtain ⟨hlen, hget⟩ := forall₂_getI _ _ _ hf
  refine ⟨ts, hts, hlen, ?_⟩
  intro p hp
  refine ⟨hT p, ?_⟩
  obtain ⟨pp, stored, h1, h2⟩ := hstored p hp
  obtain ⟨t, ht, hR⟩ := hget p (by omega)
  simp only [h1, h2, hT, Option.some_bind] at hR
  have e := Option.some.inj hR
  subst e
  refine ⟨pp, stored, h1, h2, ht, ?_⟩
  intro hl
  rw [ht]
  congr 1
  cases stored with
  | mk sh =>
    simp only [Trajectory.add, Trajectory.ofLength]
    rw [zipWith_add_zero sh _ hl]

/-- Witness of C7 (as amended) on the specification's scenario. -/
theorem exportTrajectories_zero_motion_witness :
    ((∀ c q s, Scenario.threeFrames.motionModel.updatePosition c q s = s)
      ∧ List.Perm [2, 0, 1]
          ((List.range Scenario.threeFrames.fc.toNat).map Int.ofNat))
    ∧ ∃ ts, exportTrajectories Scenario.threeFrames Scenario.x16 Scenario.storedSet
          [2, 0, 1] = some ts ∧ ts.length = 2 :=
  ⟨⟨fun _ _ _ => rfl, by decide⟩,
   (exportTrajectories_zero_motion Scenario.threeFrames Scenario.x16
      Scenario.storedSet [2, 0, 1] (fun _ _ _ => rfl) (by decide)
      (by
        intro p hp
        have hp2 : p < 2 := by
          have : Scenario.threeFrames.pc = 2 := rfl
          omega
        interval_cases p
        · exact ⟨1, _, rfl, rfl⟩
        · exact ⟨0, _, rfl, rfl⟩)).imp (fun _ h => ⟨h.1, h.2.1⟩)⟩

/-- Counterexample to C7 as stated: the motion model of the scenario never moves
the shift, yet the trajectory exported for particle 0 has the shift `(1, 0, 0)`
in frame 0, the shift stored for it in the data set. -/
theorem exportTrajectories_not_zero :
    (∀ c q s, Scenario.threeFrames.motionModel.updatePosition c q s = s)
    ∧ exportTrajectories Scenario.threeFrames Scenario.x16 Scenario.storedSet [0, 1, 2]
        = some [⟨[⟨1, 0, 0⟩, ⟨0, 0, 0⟩, ⟨0, 0, 0⟩]⟩,
                ⟨[⟨0, 0, 0⟩, ⟨0, 0, 0⟩, ⟨0, 0, 0⟩]⟩]
    ∧ (⟨1, 0, 0⟩ : V3 ℤ) ≠ V3.zero :=
  ⟨fun _ _ _ => rfl, by decide, by decide⟩

/-- The three reads `x[pos_block + 3*p + k]` are in range for a particle
`p < pc` when `x` has `getParamCount()` entries. -/
theorem position_reads [Zero β] (M : ModularAlignment β) (x : List β) (p : Nat)
    (hp : (p : Int) < M.pc) (hfc1 : 1 ≤ M.fc) (hmpc : 0 ≤ M.mpc) (hdc : 0 ≤ M.dc)
    (hx : getParamCount M ≤ (x.length : Int)) :
    let pos_block := getPositionsBlockOffset M (getFrameStride M)
    0 ≤ pos_block ∧ pos_block + 3 * M.pc ≤ x.length
    ∧ ∃ a b c, getI x (pos_block + 3 * p) = some a
        ∧ getI x (pos_block + 3 * p + 1) = some b
        ∧ getI x (pos_block + 3 * p + 2) = some c := by
  intro pos_block
  have hpb : 0 ≤ pos_block := mul_nonneg (getFrameStride_nonneg M) (by omega)
  have hlm : 0 ≤ M.mpc * (M.fc - 1) := mul_nonneg hmpc (by omega)
  have hld : 0 ≤ (if M.settings.perFrame2DDeformation then M.dc * M.fc else M.dc) := by
    split
    · exact mul_nonneg hdc (by omega)
    · exact hdc
  have hlen : pos_block + 3 * M.pc ≤ (x.length : Int) := by
    refine le_trans ?_ hx
    simp only [getParamCount, getPositionsBlockOffset, pos_block]
    omega
  obtain ⟨a, ha⟩ := getI_isSome x (pos_block + 3 * p) (by omega) (by omega)
  obtain ⟨b, hb⟩ := getI_isSome x (pos_block + 3 * p + 1) (by omega) (by omega)
  obtain ⟨c, hc⟩ := getI_isSome x (pos_block + 3 * p + 2) (by omega) (by omega)
  exact ⟨hpb, hlen, a, b, c, ha, hb, hc⟩

/-- C8 (as amended): for every parameter vector `x` of length `getParamCount()`
and every particle `p`, whatever the motion model, `getParticlePositions(x)[p]`
is `initialPos[p]` plus the offset
`(x[pos_block + 3p], x[pos_block + 3p + 1], x[pos_block + 3p + 2])`; it equals
`initialPos[p]` when these three coordinates of `x` are zero. -/
theorem getParticlePositions_spec [CommRing β] (M : ModularAlignment β) (x : List β)
    (hfc1 : 1 ≤ M.fc) (hmpc : 0 ≤ M.mpc) (hdc : 0 ≤ M.dc)
    (hx : (x.length : Int) = getParamCount M)
    (hip : (M.initialPos.length : Int) = M.pc) :
    let pos_block := getPositionsBlockOffset M (getFrameStride M)
    ∃ out, getParticlePositions M x = some out
      ∧ out.length = M.pc.toNat
      ∧ ∀ p : Nat, (p : Int) < M.pc →
          ∃ ip a b c, getI M.initialPos (p : Int) = some ip
            ∧ getI x (pos_block + 3 * p) = some a
            ∧ getI x (pos_block + 3 * p + 1) = some b
            ∧ getI x (pos_block + 3 * p + 2) = some c
            ∧ getI out (p : Int) = some (ip.add ⟨a, b, c⟩)
            ∧ (a = 0 → b = 0 → c = 0 → getI out (p : Int) = some ip) := by
  intro pos_block
  have rd : ∀ p : Nat, (p : Int) < M.pc →
      ∃ ip a b c, getI M.initialPos (p : Int) = some ip
        ∧ getI x (pos_block + 3 * p) = some a
        ∧ getI x (pos_block + 3 * p + 1) = some b
        ∧ getI x (pos_block + 3 * p + 2) = some c := by
    intro p hp
    obtain ⟨ip, hip'⟩ := getI_isSome M.initialPos (p : Int) (by omega) (by omega)
    obtain ⟨-, -, a, b, c, ha, hb, hc⟩ := position_reads M x p hp hfc1 hmpc hdc
      (le_of_eq hx.symm)
    exact ⟨ip, a, b, c, hip', ha, hb, hc⟩
  obtain ⟨out, hout, hf⟩ := mapM_option_forall₂
    (fun (p : Nat) =>
      (getI M.initialPos (p : Int)).bind fun ip =>
        (getI x (pos_block + 3 * p)).bind fun a =>
          (getI x (pos_block + 3 * p + 1)).bind fun b =>
            (getI x (pos_block + 3 * p + 2)).bind fun c =>
              some (ip.add ⟨a, b, c⟩))
    (List.range M.pc.toNat)
    (by
      intro p hp
      rw [List.mem_range] at hp
      obtain ⟨ip, a, b, c, h1, h2, h3, h4⟩ := rd p (by omega)
      simp only [h1, h2, h3, h4, Option.some_bind]
      exact ⟨_, rfl⟩)
  obtain ⟨hlen, hget⟩ := forall₂_getI _ _ _ hf
  refine ⟨out, hout, hlen, ?_⟩
  intro p hp
  obtain ⟨ip, a, b, c, h1, h2, h3, h4⟩ := rd p hp
  obtain ⟨t, ht, hR⟩ := hget p (by omega)
  simp only [h1, h2, h3, h4, Option.some_bind] at hR
  have e := Option.some.inj hR
  subst e
  refine ⟨ip, a, b, c, h1, h2, h3, h4, ht, ?_⟩
  intro ha hb hc
  rw [ht, ha, hb, hc]
  exact congrArg some (V3.add_zero ip)

/-- Witness of C8 (as amended) on the specification's scenario. -/
theorem getParticlePositions_spec_witness :
    (1 ≤ Scenario.threeFrames.fc ∧ 0 ≤ Scenario.threeFrames.mpc
      ∧ 0 ≤ Scenario.threeFrames.dc
      ∧ (Scenario.x16.length : Int) = getParamCount Scenario.threeFrames
      ∧ (Scenario.threeFrames.initialPos.length : Int) = Scenario.threeFrames.pc)
    ∧ ∃ out, getParticlePositions Scenario.threeFrames Scenario.x16 = some out
        ∧ out.length = 2 :=
  ⟨by decide,
   (getParticlePositions_spec Scenario.threeFrames Scenario.x16 (by decide) (by decide)
      (by decide) (by decide) (by decide)).imp (fun _ h => ⟨h.1, h.2.1⟩)⟩

/-- Counterexample to C8 as stated: the motion model of the scenario never moves
the shift and `x16` has `getParamCount()` entries, yet the exported position of
particle 0 is `(12, 14, 16)`, not its initial position `(1, 2, 3)`. -/
theorem getParticlePositions_not_initial :
    (∀ c q s, Scenario.threeFrames.motionModel.updatePosition c q s = s)
    ∧ (Scenario.x16.length : Int) = getParamCount Scenario.threeFrames
    ∧ getParticlePositions Scenario.threeFrames Scenario.x16
        = some [⟨12, 14, 16⟩, ⟨18, 20, 22⟩]
    ∧ getI Scenario.threeFrames.initialPos 0 = some ⟨1, 2, 3⟩
    ∧ (⟨12, 14, 16⟩ : V3 ℤ) ≠ ⟨1, 2, 3⟩ :=
  ⟨fun _ _ _ => rfl, by decide, by decide, by decide, by decide⟩

/-! ## Writes into the scratch vectors -/

section Writes

variable [CommRing β]

theorem colOf_nil (i : Int) : colOf ([] : List (Int × β)) i = 0 := rfl

theorem colOf_cons (c : Int) (d : β) (ws : List (Int × β)) (i : Int) :
    colOf ((c, d) :: ws) i = (if c = i then d else 0) + colOf ws i := by
  unfold colOf
  by_cases h : c = i
  · simp [List.filter_cons, h]
  · simp [List.filter_cons, h]

theorem colOf_append (ws ws' : List (Int × β)) (i : Int) :
    colOf (ws ++ ws') i = colOf ws i + colOf ws' i := by
  unfold colOf
  simp [List.filter_append]

theorem getDI_set (v : List β) (i j : Int) (a : β) (h0 : 0 ≤ i) (h : i < v.length) :
    getDI (v.set i.toNat a) j = if i = j then a else getDI v j := by
  unfold getDI
  by_cases hij : i = j
  · subst hij
    rw [getI_set_self v i a h0 h, if_pos rfl]
    rfl
  · rw [if_neg hij]
    by_cases hj : 0 ≤ j
    · rw [getI_set_ne v i j a h0 hj hij]
    · unfold getI
      rw [if_pos (by omega), if_pos (by omega)]

theorem getDI_of_getI (v : List β) (i : Int) (a : β) (h : getI v i = some a) :
    getDI v i = a := by
  unfold getDI
  rw [h]
  rfl

theorem Adds.refl (G : List β) (row : Int) : Adds G G row [] :=
  ⟨rfl, fun j => by rw [colOf_nil, add_zero]⟩

theorem Adds.trans {G G1 G2 : List β} {row : Int} {ws1 ws2 : List (Int × β)}
    (h1 : Adds G G1 row ws1) (h2 : Adds G1 G2 row ws2) :
    Adds G G2 row (ws1 ++ ws2) :=
  ⟨h2.1.trans h1.1, fun j => by rw [h2.2 j, h1.2 j, colOf_append, add_assoc]⟩

theorem addI_adds (G : List β) (row c : Int) (d : β)
    (h0 : 0 ≤ row + c) (h : row + c < G.length) :
    ∃ G', addI G (row + c) d = some G' ∧ Adds G G' row [(c, d)] := by
  obtain ⟨a, ha⟩ := getI_isSome G (row + c) h0 h
  refine ⟨G.set (row + c).toNat (a + d), ?_, ?_, ?_⟩
  · simp only [addI, ha, Option.bind_eq_bind, Option.some_bind]
    exact setI_eq_some _ _ _ h0 h
  · rw [List.length_set]
  · intro j
    rw [getDI_set _ _ _ _ h0 h, colOf_cons, colOf_nil, add_zero]
    by_cases hj : row + c = j
    · rw [if_pos hj, if_pos (by omega), ← hj, getDI_of_getI _ _ _ ha]
    · rw [if_neg hj, if_neg (by omega), add_zero]

theorem addPtr_adds (row : Int) :
    ∀ (ds : List β) (G : List β) (off : Int),
      0 ≤ row + off → row + off + ds.length ≤ G.length →
      ∃ G', addPtr G (row + off) ds = some G' ∧ Adds G G' row (window off ds)
  | [], G, off, _, _ => ⟨G, rfl, Adds.refl G row⟩
  | d :: ds, G, off, h0, h => by
    simp only [List.length_cons, Nat.cast_add, Nat.cast_one] at h
    obtain ⟨G1, hG1, hA1⟩ := addI_adds G row off d h0 (by omega)
    obtain ⟨G2, hG2, hA2⟩ := addPtr_adds row ds G1 (off + 1) (by omega)
      (by rw [hA1.1]; omega)
    refine ⟨G2, ?_, hA1.trans hA2⟩
    simp only [addPtr, hG1, Option.bind_eq_bind, Option.some_bind]
    rw [← hG2]
    congr 1
    ring

theorem addI_adds_at (G : List β) (row i c : Int) (d : β) (hi : i = row + c)
    (h0 : 0 ≤ i) (h : i < G.length) :
    ∃ G', addI G i d = some G' ∧ Adds G G' row [(c, d)] := by
  subst hi
  exact addI_adds G row c d h0 h

theorem poseWrites_adds (M : ModularAlignment β) (row : Int) (f : Nat)
    (L : FrameLocals β) (G : List β) (h0 : 0 ≤ row)
    (h : row + getFrameStride M * f ≤ G.length) :
    ∃ G', poseWrites M row f L G = some G' ∧ Adds G G' row (poseList M f L) := by
  unfold poseWrites poseList
  by_cases hf : f > 0
  · have hf1 : (1 : Int) ≤ f := by omega
    simp only [hf, if_true]
    cases hA : M.settings.constAngles <;> cases hS : M.settings.constShifts <;>
      simp only [hA, hS, Bool.false_eq_true, if_false, if_true, Bool.not_true,
        Bool.not_false]
    · have hfs : getFrameStride M = 5 := by simp [getFrameStride, hA, hS]
      rw [hfs] at h ⊢
      obtain ⟨G1, e1, A1⟩ := addI_adds_at G row (row + 5 * ((f : Int) - 1))
        (5 * ((f : Int) - 1)) (L.pl_phi.x * L.g.x + L.pl_phi.y * L.g.y) rfl
        (by omega) (by omega)
      obtain ⟨G2, e2, A2⟩ := addI_adds_at G1 row (row + 5 * ((f : Int) - 1) + 1)
        (5 * ((f : Int) - 1) + 1) (L.pl_theta.x * L.g.x + L.pl_theta.y * L.g.y)
        (by ring) (by omega) (by rw [A1.1]; omega)
      obtain ⟨G3, e3, A3⟩ := addI_adds_at G2 row (row + 5 * ((f : Int) - 1) + 2)
        (5 * ((f : Int) - 1) + 2) (L.pl_psi.x * L.g.x + L.pl_psi.y * L.g.y)
        (by ring) (by omega) (by rw [A2.1, A1.1]; omega)
      obtain ⟨G4, e4, A4⟩ := addI_adds_at G3 row (row + 5 * ((f : Int) - 1) + 3)
        (5 * ((f : Int) - 1) + 3) L.g.x
        (by ring) (by omega) (by rw [A3.1, A2.1, A1.1]; omega)
      obtain ⟨G5, e5, A5⟩ := addI_adds_at G4 row (row + 5 * ((f : Int) - 1) + 4)
        (5 * ((f : Int) - 1) + 4) L.g.y
        (by ring) (by omega) (by rw [A4.1, A3.1, A2.1, A1.1]; omega)
      simp only [e1, e2, e3, e4, e5, Option.bind_eq_bind, Option.some_bind]
      exact ⟨G5, rfl, (((A1.trans A2).trans A3).trans A4).trans A5⟩
    · have hfs : getFrameStride M = 3 := by simp [getFrameStride, hA, hS]
      rw [hfs] at h ⊢
      obtain ⟨G1, e1, A1⟩ := addI_adds_at G row (row + 3 * ((f : Int) - 1))
        (3 * ((f : Int) - 1)) (L.pl_phi.x * L.g.x + L.pl_phi.y * L.g.y) rfl
        (by omega) (by omega)
      obtain ⟨G2, e2, A2⟩ := addI_adds_at G1 row (row + 3 * ((f : Int) - 1) + 1)
        (3 * ((f : Int) - 1) + 1) (L.pl_theta.x * L.g.x + L.pl_theta.y * L.g.y)
        (by ring) (by omega) (by rw [A1.1]; omega)
      obtain ⟨G3, e3, A3⟩ := addI_adds_at G2 row (row + 3 * ((f : Int) - 1) + 2)
        (3 * ((f : Int) - 1) + 2) (L.pl_psi.x * L.g.x + L.pl_psi.y * L.g.y)
        (by ring) (by omega) (by rw [A2.1, A1.1]; omega)
      simp only [e1, e2, e3, Option.bind_eq_bind, Option.some_bind]
      exact ⟨G3, rfl, (A1.trans A2).trans A3⟩
    · have hfs : getFrameStride M = 2 := by simp [getFrameStride, hA, hS]
      rw [hfs] at h ⊢
      obtain ⟨G1, e1, A1⟩ := addI_adds_at G row (row + 2 * ((f : Int) - 1))
        (2 * ((f : Int) - 1)) L.g.x rfl (by omega) (by omega)
      obtain ⟨G2, e2, A2⟩ := addI_adds_at G1 row (row + 2 * ((f : Int) - 1) + 1)
        (2 * ((f : Int) - 1) + 1) L.g.y
        (by ring) (by omega) (by rw [A1.1]; omega)
      simp only [e1, e2, Option.bind_eq_bind, Option.some_bind]
      exact ⟨G2, rfl, A1.trans A2⟩
    · exact ⟨G, rfl, Adds.refl G row⟩
  · simp only [hf, if_false]
    exact ⟨G, rfl, Adds.refl G row⟩

end Writes

/-! ## The frame loop -/

/-- A vector of exactly `getParamCount()` entries has at least that many. -/
theorem Valid.fits {M : ModularAlignment β} {x : List β} (V : Valid M x) : Fits M x :=
  ⟨V.fc_pos, V.mpc_nonneg, V.dc_nonneg, V.fc_eq, V.pc_eq, V.ccs_eq, V.threads_pos,
    le_of_eq V.x_len.symm, V.def_len, V.mot_len, V.prior_len⟩

theorem Fits.pc_nonneg {M : ModularAlignment β} {x : List β} (V : Fits M x) :
    0 ≤ M.pc := by
  rw [V.pc_eq]; omega

/-- The block offsets are ordered and the deformation block of each frame ends
inside the parameter vector. -/
theorem Fits.layout {M : ModularAlignment β} {x : List β} (V : Fits M x) :
    0 ≤ getFrameStride M
    ∧ 0 ≤ getPositionsBlockOffset M (getFrameStride M)
    ∧ getMotionBlockOffset M (getFrameStride M)
        = getPositionsBlockOffset M (getFrameStride M) + 3 * M.pc
    ∧ get2DDeformationsBlockOffset M (getFrameStride M)
        = getMotionBlockOffset M (getFrameStride M) + M.mpc * (M.fc - 1)
    ∧ 0 ≤ M.mpc * (M.fc - 1)
    ∧ get2DDeformationsBlockOffset M (getFrameStride M) ≤ x.length
    ∧ (∀ f : Nat, (f : Int) < M.fc →
        getFrameStride M * f ≤ getPositionsBlockOffset M (getFrameStride M))
    ∧ (∀ f : Nat, (f : Int) < M.fc →
        get2DDeformationsBlockOffset M (getFrameStride M)
          + (if M.settings.perFrame2DDeformation then (f : Int) * M.dc else 0) + M.dc
          ≤ x.length) := by
  have hfs : 0 ≤ getFrameStride M := getFrameStride_nonneg M
  have hfc := V.fc_pos
  have hpc := V.pc_nonneg
  have hdc := V.dc_nonneg
  have hlm : 0 ≤ M.mpc * (M.fc - 1) := mul_nonneg V.mpc_nonneg (by omega)
  have hx : get2DDeformationsBlockOffset M (getFrameStride M)
      + (if M.settings.perFrame2DDeformation then M.dc * M.fc else M.dc)
      ≤ (x.length : Int) := by
    refine le_trans (le_of_eq ?_) V.x_len
    simp only [getParamCount, get2DDeformationsBlockOffset]
  refine ⟨hfs, mul_nonneg hfs (by omega), rfl, rfl, hlm, ?_, ?_, ?_⟩
  · have : 0 ≤ (if M.settings.perFrame2DDeformation then M.dc * M.fc else M.dc) := by
      split
      · exact mul_nonneg V.dc_nonneg (by omega)
      · exact V.dc_nonneg
    omega
  · intro f hf
    exact mul_le_mul_of_nonneg_left (by omega) hfs
  · intro f hf
    refine le_trans ?_ hx
    cases M.settings.perFrame2DDeformation
    · simp
    · have h1 : ((f : Int) + 1) * M.dc ≤ M.fc * M.dc :=
        mul_le_mul_of_nonneg_right (by omega) V.dc_nonneg
      have e1 : ((f : Int) + 1) * M.dc = (f : Int) * M.dc + M.dc := by ring
      have e2 : M.fc * M.dc = M.dc * M.fc := by ring
      simp only [if_true]
      omega

section FrameLoop

variable [CommRing β]

theorem frameLocals_def_block (E : Externals β) (M : ModularAlignment β) (x : List β)
    (Ps : List (FrameProjections β)) (p f : Nat) (s : V3 β) (L : FrameLocals β)
    (hL : frameLocals E M x Ps p f s = some L) :
    L.def_block_f = get2DDeformationsBlockOffset M (getFrameStride M)
      + (if M.settings.perFrame2DDeformation then (f : Int) * M.dc else 0) := by
  simp only [frameLocals, Option.bind_eq_bind, Option.bind_eq_some] at hL
  obtain ⟨ip, -, fp, -, Pf, -, cc, -, h⟩ := hL
  rw [← Option.some.inj h]

theorem frameBody_step (E : Externals β) (M : ModularAlignment β) (x : List β)
    (Ps : List (FrameProjections β)) (p th f : Nat) (s : V3 β) (B : Buffers β)
    (L : FrameLocals β) (V : Fits M x)
    (hp : (p : Int) < M.pc) (hf : (f : Int) < M.fc)
    (hL : frameLocals E M x Ps p f s = some L)
    (hG : (th : Int) * ((x.length : Int) + 512) + ((x.length : Int) + 512)
      ≤ B.grad_par.length)
    (hV : (th : Int) * 512 < B.val_par.length)
    (hD : (th : Int) * (M.fc + 512) + (M.fc + 512) ≤ B.dC_dPos.length) :
    ∃ B', frameBody E M x Ps p th (s, B) f = some (nextShift M x p f s, B')
      ∧ Adds B.grad_par B'.grad_par ((th : Int) * ((x.length : Int) + 512))
          (frameWriteList M x p f L)
      ∧ Adds B.val_par B'.val_par ((th : Int) * 512) [(0, L.g0.z)]
      ∧ B'.dC_dPos.length = B.dC_dPos.length
      ∧ (∀ j : Int, getI B'.dC_dPos j =
          if M.settings.constParticles = false ∧ j = (th : Int) * (M.fc + 512) + f
          then some (dC_dPos_f L) else getI B.dC_dPos j) := by
  obtain ⟨hfs, hpos, hmot, hdef, hlm, hdefx, hpose, hdefw⟩ := V.layout
  have hpc := V.pc_nonneg
  have hrow : (0 : Int) ≤ (th : Int) * ((x.length : Int) + 512) :=
    mul_nonneg (by omega) (by omega)
  have hdrow : (0 : Int) ≤ (th : Int) * (M.fc + 512) :=
    mul_nonneg (by omega) (by have := V.fc_pos; omega)
  have hdb := frameLocals_def_block E M x Ps p f s L hL
  have hdw := hdefw f hf
  rw [← hdb] at hdw
  have hdl := V.def_len L.pl L.g0.xy (ptrI x L.def_block_f)
  have hdb0 : 0 ≤ L.def_block_f := by
    rw [hdb]
    have : 0 ≤ (if M.settings.perFrame2DDeformation then (f : Int) * M.dc else 0) := by
      split
      · exact mul_nonneg (by omega) V.dc_nonneg
      · exact le_refl 0
    omega
  -- the value
  obtain ⟨V1, eV, AV⟩ := addI_adds_at B.val_par ((th : Int) * 512) ((th : Int) * 512) 0
    L.g0.z (by ring) (by omega) hV
  -- the deformation coefficients
  obtain ⟨G1, e1, A1⟩ := addPtr_adds ((th : Int) * ((x.length : Int) + 512))
    (M.deformationModel2D.updateCostGradient L.pl L.g0.xy (ptrI x L.def_block_f))
    B.grad_par L.def_block_f (by omega) (by omega)
  -- the pose
  obtain ⟨G2, e2, A2⟩ := poseWrites_adds M ((th : Int) * ((x.length : Int) + 512)) f L G1
    hrow (by rw [A1.1]; have := hpose f hf; omega)
  unfold frameBody
  simp only [hL, eV, e1, e2, Option.bind_eq_bind, Option.some_bind]
  cases hc : M.settings.constParticles
  · -- particles are free
    obtain ⟨D1, eD⟩ : ∃ D1, setI B.dC_dPos ((th : Int) * (M.fc + 512) + f) (dC_dPos_f L)
        = some D1 := ⟨_, setI_eq_some _ _ _ (by omega) (by omega)⟩
    have eD' := (setI_some_iff _ _ _ _).mp eD
    obtain ⟨G3, e3, A3⟩ := addI_adds_at G2 ((th : Int) * ((x.length : Int) + 512))
      ((th : Int) * ((x.length : Int) + 512)
        + getPositionsBlockOffset M (getFrameStride M) + 3 * p)
      (getPositionsBlockOffset M (getFrameStride M) + 3 * p) (dC_dPos_f L).x
      (by ring) (by omega) (by rw [A2.1, A1.1]; omega)
    obtain ⟨G4, e4, A4⟩ := addI_adds_at G3 ((th : Int) * ((x.length : Int) + 512))
      ((th : Int) * ((x.length : Int) + 512)
        + getPositionsBlockOffset M (getFrameStride M) + 3 * p + 1)
      (getPositionsBlockOffset M (getFrameStride M) + 3 * p + 1) (dC_dPos_f L).y
      (by ring) (by omega) (by rw [A3.1, A2.1, A1.1]; omega)
    obtain ⟨G5, e5, A5⟩ := addI_adds_at G4 ((th : Int) * ((x.length : Int) + 512))
      ((th : Int) * ((x.length : Int) + 512)
        + getPositionsBlockOffset M (getFrameStride M) + 3 * p + 2)
      (getPositionsBlockOffset M (getFrameStride M) + 3 * p + 2) (dC_dPos_f L).z
      (by ring) (by omega) (by rw [A4.1, A3.1, A2.1, A1.1]; omega)
    simp only [Bool.not_false, if_true, eD, e3, e4, e5, Option.bind_eq_bind,
      Option.some_bind]
    refine ⟨⟨G5, V1, D1⟩, ?_, ?_, AV, ?_, ?_⟩
    · simp only [nextShift, hc, Bool.not_false, if_true]
    · have hw : frameWriteList M x p f L
          = (window L.def_block_f
              (M.deformationModel2D.updateCostGradient L.pl L.g0.xy
                (ptrI x L.def_block_f)) ++ poseList M f L)
            ++ (([(getPositionsBlockOffset M (getFrameStride M) + 3 * p, (dC_dPos_f L).x)]
              ++ [(getPositionsBlockOffset M (getFrameStride M) + 3 * p + 1,
                    (dC_dPos_f L).y)])
              ++ [(getPositionsBlockOffset M (getFrameStride M) + 3 * p + 2,
                    (dC_dPos_f L).z)]) := by
        simp only [frameWriteList, positionList, hc, Bool.not_false, if_true]
        rfl
      rw [hw]
      exact (A1.trans A2).trans ((A3.trans A4).trans A5)
    · rw [eD'.2, List.length_set]
    · intro j
      rw [eD'.2]
      by_cases hj : j = (th : Int) * (M.fc + 512) + f
      · rw [if_pos (And.intro (by simp) hj), hj]
        exact getI_set_self _ _ _ (by omega) (by omega)
      · rw [if_neg (fun h => hj h.2)]
        by_cases hj0 : 0 ≤ j
        · exact getI_set_ne _ _ _ _ (by omega) hj0 (fun h => hj h.symm)
        · unfold getI
          rw [if_pos (by omega), if_pos (by omega)]
  · -- particles are constant
    simp only [Bool.not_true, Bool.false_eq_true, if_false]
    refine ⟨⟨G2, V1, B.dC_dPos⟩, ?_, ?_, AV, rfl, ?_⟩
    · simp only [nextShift, hc, Bool.not_true, Bool.false_eq_true, if_false]
    · have hw : frameWriteList M x p f L
          = (window L.def_block_f
              (M.deformationModel2D.updateCostGradient L.pl L.g0.xy
                (ptrI x L.def_block_f)) ++ poseList M f L) := by
        simp only [frameWriteList, positionList, hc, Bool.not_true, Bool.false_eq_true,
          if_false, List.append_nil]
      rw [hw]
      exact A1.trans A2
    · intro j
      rw [if_neg (fun h => by simp at h)]

theorem localsFrom_length (E : Externals β) (M : ModularAlignment β) (x : List β)
    (Ps : List (FrameProjections β)) (p : Nat) :
    ∀ (frames : List Nat) (s : V3 β) (Ls : List (FrameLocals β)),
      localsFrom E M x Ps p s frames = some Ls → Ls.length = frames.length
  | [], s, Ls, h => by
    simp only [localsFrom] at h
    rw [← Option.some.inj h]
    rfl
  | f :: frames, s, Ls, h => by
    simp only [localsFrom, Option.bind_eq_bind, Option.bind_eq_some] at h
    obtain ⟨L, -, rest, hrest, h⟩ := h
    rw [← Option.some.inj h, List.length_cons, List.length_cons,
      localsFrom_length E M x Ps p frames _ rest hrest]

theorem frames_loop (E : Externals β) (M : ModularAlignment β) (x : List β)
    (Ps : List (FrameProjections β)) (p th : Nat) (V : Fits M x)
    (hp : (p : Int) < M.pc) :
    ∀ (k a : Nat) (s : V3 β) (B : Buffers β) (Ls : List (FrameLocals β)),
      ((a + k : Nat) : Int) ≤ M.fc →
      localsFrom E M x Ps p s (List.range' a k) = some Ls →
      (th : Int) * ((x.length : Int) + 512) + ((x.length : Int) + 512)
        ≤ B.grad_par.length →
      (th : Int) * 512 < B.val_par.length →
      (th : Int) * (M.fc + 512) + (M.fc + 512) ≤ B.dC_dPos.length →
      ∃ s' B', (List.range' a k).foldlM (frameBody E M x Ps p th) (s, B) = some (s', B')
        ∧ Adds B.grad_par B'.grad_par ((th : Int) * ((x.length : Int) + 512))
            (framesWriteList M x p (List.range' a k) Ls)
        ∧ Adds B.val_par B'.val_par ((th : Int) * 512)
            (Ls.map (fun L => ((0 : Int), L.g0.z)))
        ∧ B'.dC_dPos.length = B.dC_dPos.length
        ∧ (∀ j : Int, getI B'.dC_dPos j =
            if M.settings.constParticles = false
                ∧ (th : Int) * (M.fc + 512) + a ≤ j
                ∧ j < (th : Int) * (M.fc + 512) + a + k
            then (Ls.map dC_dPos_f)[(j - (th : Int) * (M.fc + 512) - a).toNat]?
            else getI B.dC_dPos j)
  | 0, a, s, B, Ls, _, hLs, _, _, _ => by
    simp only [List.range'_zero, localsFrom] at hLs
    rw [← Option.some.inj hLs]
    refine ⟨s, B, rfl, Adds.refl _ _, Adds.refl _ _, rfl, ?_⟩
    intro j
    rw [if_neg (by omega)]
  | k + 1, a, s, B, Ls, hak, hLs, hG, hV, hD => by
    rw [List.range'_succ] at hLs ⊢
    simp only [localsFrom, Option.bind_eq_bind, Option.bind_eq_some] at hLs
    obtain ⟨L, hL, rest, hrest, hLs⟩ := hLs
    have hLs' := (Option.some.inj hLs).symm
    subst hLs'
    obtain ⟨B1, e1, AG1, AV1, hD1, hd1⟩ := frameBody_step E M x Ps p th a s B L V hp
      (by omega) hL hG hV hD
    obtain ⟨s', B', e2, AG2, AV2, hD2, hd2⟩ := frames_loop E M x Ps p th V hp k (a + 1)
      (nextShift M x p a s) B1 rest (by omega) hrest (by rw [AG1.1]; exact hG)
      (by rw [AV1.1]; exact hV) (by rw [hD1]; exact hD)
    refine ⟨s', B', ?_, ?_, ?_, hD2.trans hD1, ?_⟩
    · rw [List.foldlM_cons, e1]
      exact e2
    · simp only [framesWriteList]
      exact AG1.trans AG2
    · exact AV1.trans AV2
    · intro j
      rw [hd2 j, hd1 j]
      cases hc : M.settings.constParticles
      · by_cases h1 : (th : Int) * (M.fc + 512) + ((a + 1 : Nat) : Int) ≤ j
            ∧ j < (th : Int) * (M.fc + 512) + ((a + 1 : Nat) : Int) + (k : Int)
        · rw [if_pos ⟨rfl, h1⟩, if_pos ⟨rfl, by omega, by push_cast; omega⟩]
          have e : (j - (th : Int) * (M.fc + 512) - (a : Int)).toNat
              = (j - (th : Int) * (M.fc + 512) - ((a + 1 : Nat) : Int)).toNat + 1 := by
            omega
          rw [e, List.map_cons, List.getElem?_cons_succ]
        · rw [if_neg (fun h => h1 h.2)]
          by_cases h2 : j = (th : Int) * (M.fc + 512) + (a : Int)
          · rw [if_pos ⟨rfl, h2⟩, if_pos ⟨rfl, by omega, by push_cast; omega⟩]
            have e : (j - (th : Int) * (M.fc + 512) - (a : Int)).toNat = 0 := by omega
            rw [e, List.map_cons, List.getElem?_cons_zero]
          · rw [if_neg (fun h => h2 h.2), if_neg (fun h => by
              have := h.2
              push_cast at this h1
              omega)]
      · simp

end FrameLoop

/-! ## The particle loop -/

section ParticleLoop

variable [CommRing β]

omit [CommRing β] in
theorem scratch_row (D : List (V3 β)) (o : Int) (n : Nat) (l : List (V3 β))
    (ho : 0 ≤ o) (hl : l.length = n)
    (h : ∀ i : Nat, i < n → getI D (o + i) = l[i]?) :
    (ptrI D o).take n = l := by
  apply List.ext_getElem?
  intro i
  rw [List.getElem?_take]
  by_cases hi : i < n
  · rw [if_pos hi, ← h i hi, getI_eq_getElem? _ _ (by omega)]
    unfold ptrI
    rw [List.getElem?_drop]
    congr 1
    omega
  · rw [if_neg hi]
    symm
    rw [List.getElem?_eq_none_iff]
    omega

theorem particleBody_step (E : Externals β) (M : ModularAlignment β) (x : List β)
    (Ps : List (FrameProjections β)) (p th : Nat) (B : Buffers β)
    (Ls : List (FrameLocals β)) (V : Fits M x)
    (hp : (p : Int) < M.pc)
    (hLs : particleLocals E M x Ps p = some Ls)
    (hG : (th : Int) * ((x.length : Int) + 512) + ((x.length : Int) + 512)
      ≤ B.grad_par.length)
    (hV : (th : Int) * 512 < B.val_par.length)
    (hD : (th : Int) * (M.fc + 512) + (M.fc + 512) ≤ B.dC_dPos.length) :
    ∃ B', particleBody E M x Ps B (p, th) = some B'
      ∧ Adds B.grad_par B'.grad_par ((th : Int) * ((x.length : Int) + 512))
          (particleWriteList M x p Ls)
      ∧ Adds B.val_par B'.val_par ((th : Int) * 512)
          (Ls.map (fun L => ((0 : Int), L.g0.z)))
      ∧ B'.dC_dPos.length = B.dC_dPos.length := by
  obtain ⟨hfs, hpos, hmot, hdef, hlm, hdefx, hpose, hdefw⟩ := V.layout
  have hpc := V.pc_nonneg
  have hfc := V.fc_pos
  have hrow : (0 : Int) ≤ (th : Int) * ((x.length : Int) + 512) :=
    mul_nonneg (by omega) (by omega)
  have hdrow : (0 : Int) ≤ (th : Int) * (M.fc + 512) :=
    mul_nonneg (by omega) (by omega)
  simp only [particleLocals, Option.bind_eq_bind, Option.bind_eq_some] at hLs
  obtain ⟨shift, hshift, hLs⟩ := hLs
  rw [List.range_eq_range'] at hLs
  have hlen := localsFrom_length E M x Ps p _ _ _ hLs
  rw [List.length_range'] at hlen
  obtain ⟨s', B1, e1, AG1, AV1, hD1, hd1⟩ := frames_loop E M x Ps p th V hp M.fc.toNat 0
    shift B Ls (by omega) hLs hG hV hD
  unfold particleBody
  simp only [Option.bind_eq_bind, hshift, List.range_eq_range', Option.some_bind, e1]
  cases hc : M.settings.constParticles
  · have hrowD : (ptrI B1.dC_dPos ((th : Int) * (M.fc + 512))).take M.fc.toNat
        = Ls.map dC_dPos_f := by
      apply scratch_row _ _ _ _ hdrow (by rw [List.length_map]; exact hlen)
      intro i hi
      rw [hd1, if_pos ⟨hc, by push_cast; omega, by push_cast; omega⟩]
      congr 1
      push_cast
      omega
    have hml := V.mot_len (Ls.map dC_dPos_f) p M.fc
    obtain ⟨G2, e2, A2⟩ := addPtr_adds ((th : Int) * ((x.length : Int) + 512))
      (M.motionModel.updateCostGradient (Ls.map dC_dPos_f) p M.fc)
      B1.grad_par (getMotionBlockOffset M (getFrameStride M)) (by omega)
      (by rw [AG1.1]; omega)
    simp only [Bool.not_false, if_true, hrowD, e2, Option.some_bind]
    refine ⟨⟨G2, B1.val_par, B1.dC_dPos⟩, rfl, ?_, AV1, hD1⟩
    simp only [particleWriteList, hc, Bool.not_false, if_true, ← List.range_eq_range']
    rw [List.range_eq_range']
    exact AG1.trans A2
  · simp only [Bool.not_true, Bool.false_eq_true, if_false]
    refine ⟨B1, rfl, ?_, AV1, hD1⟩
    simp only [particleWriteList, hc, Bool.not_true, Bool.false_eq_true, if_false,
      List.append_nil]
    rw [List.range_eq_range']
    exact AG1

theorem frameLocals_isSome (E : Externals β) (M : ModularAlignment β) (x : List β)
    (Ps : List (FrameProjections β)) (p f : Nat) (s : V3 β) (V : Fits M x)
    (hPs : Ps.length = M.fc.toNat) (hp : (p : Int) < M.pc) (hf : (f : Int) < M.fc) :
    ∃ L, frameLocals E M x Ps p f s = some L := by
  have h1 := V.pc_eq
  have h2 := V.ccs_eq
  have h3 := V.fc_eq
  obtain ⟨ip, hip⟩ := getI_isSome M.initialPos (p : Int) (by omega) (by omega)
  obtain ⟨fp, hfp⟩ := getI_isSome M.frameProj (f : Int) (by omega) (by omega)
  obtain ⟨Pf, hPf⟩ := getI_isSome Ps (f : Int) (by omega) (by omega)
  obtain ⟨cc, hcc⟩ := getI_isSome M.CCs (p : Int) (by omega) (by omega)
  simp only [frameLocals, hip, hfp, hPf, hcc, Option.bind_eq_bind, Option.some_bind]
  exact ⟨_, rfl⟩

theorem localsFrom_isSome (E : Externals β) (M : ModularAlignment β) (x : List β)
    (Ps : List (FrameProjections β)) (p : Nat) (V : Fits M x)
    (hPs : Ps.length = M.fc.toNat) (hp : (p : Int) < M.pc) :
    ∀ (frames : List Nat) (s : V3 β), (∀ f ∈ frames, (f : Int) < M.fc) →
      ∃ Ls, localsFrom E M x Ps p s frames = some Ls
  | [], s, _ => ⟨[], rfl⟩
  | f :: frames, s, h => by
    obtain ⟨L, hL⟩ := frameLocals_isSome E M x Ps p f s V hPs hp
      (h f (List.mem_cons_self f frames))
    obtain ⟨rest, hrest⟩ := localsFrom_isSome E M x Ps p V hPs hp frames
      (nextShift M x p f s) (fun f' hf' => h f' (List.mem_cons_of_mem f hf'))
    exact ⟨L :: rest, by
      simp only [localsFrom, hL, hrest, Option.bind_eq_bind, Option.some_bind]⟩

theorem particleLocals_isSome (E : Externals β) (M : ModularAlignment β) (x : List β)
    (Ps : List (FrameProjections β)) (p : Nat) (V : Fits M x)
    (hPs : Ps.length = M.fc.toNat) (hp : (p : Int) < M.pc) :
    ∃ Ls, particleLocals E M x Ps p = some Ls := by
  have hs : ∃ s, initialShift M x p = some s := by
    unfold initialShift
    cases hc : M.settings.constParticles
    · obtain ⟨-, -, a, b, c, ha, hb, hc'⟩ := position_reads M x p hp V.fc_pos
        V.mpc_nonneg V.dc_nonneg V.x_len
      simp only [ha, hb, hc', Option.bind_eq_bind, Option.some_bind]
      exact ⟨_, rfl⟩
    · exact ⟨_, rfl⟩
  obtain ⟨s, hs⟩ := hs
  obtain ⟨Ls, hLs⟩ := localsFrom_isSome E M x Ps p V hPs hp (List.range M.fc.toNat) s
    (by intro f hf; rw [List.mem_range] at hf; omega)
  exact ⟨Ls, by
    simp only [particleLocals, hs, hLs, Option.bind_eq_bind, Option.some_bind]⟩

/-- The particle loop, run in the order and on the threads of `sched`: every
entry of `grad_par` and of `val_par` ends as its initial value plus the writes of
the particles that ran on the row of that entry. -/
theorem sched_loop (E : Externals β) (M : ModularAlignment β) (x : List β)
    (Ps : List (FrameProjections β)) (V : Fits M x) (hPs : Ps.length = M.fc.toNat) :
    ∀ (sched : List (Nat × Nat)) (B : Buffers β),
      (∀ pt ∈ sched, (pt.1 : Int) < M.pc ∧ (pt.2 : Int) < M.num_threads) →
      (∀ th : Nat, (th : Int) < M.num_threads →
        (th : Int) * ((x.length : Int) + 512) + ((x.length : Int) + 512)
          ≤ B.grad_par.length) →
      (∀ th : Nat, (th : Int) < M.num_threads → (th : Int) * 512 < B.val_par.length) →
      (∀ th : Nat, (th : Int) < M.num_threads →
        (th : Int) * (M.fc + 512) + (M.fc + 512) ≤ B.dC_dPos.length) →
      ∃ B', sched.foldlM (particleBody E M x Ps) B = some B'
        ∧ B'.grad_par.length = B.grad_par.length
        ∧ B'.val_par.length = B.val_par.length
        ∧ (∀ j : Int, getDI B'.grad_par j = getDI B.grad_par j
            + (sched.map (fun pt => colOf (particleWrites E M x Ps pt.1)
                (j - (pt.2 : Int) * ((x.length : Int) + 512)))).sum)
        ∧ (∀ j : Int, getDI B'.val_par j = getDI B.val_par j
            + (sched.map (fun pt => colOf (particleValues E M x Ps pt.1)
                (j - (pt.2 : Int) * 512))).sum)
  | [], B, _, _, _, _ => ⟨B, rfl, rfl, rfl, by simp, by simp⟩
  | pt :: sched, B, hs, hG, hV, hD => by
    obtain ⟨hp, hth⟩ := hs pt (List.mem_cons_self pt sched)
    obtain ⟨Ls, hLs⟩ := particleLocals_isSome E M x Ps pt.1 V hPs hp
    obtain ⟨B1, e1, AG, AV, hD1⟩ := particleBody_step E M x Ps pt.1 pt.2 B Ls V hp hLs
      (hG pt.2 hth) (hV pt.2 hth) (hD pt.2 hth)
    obtain ⟨B', e2, lG, lV, hg, hv⟩ := sched_loop E M x Ps V hPs sched B1
      (fun q hq => hs q (List.mem_cons_of_mem pt hq))
      (by rw [AG.1]; exact hG) (by rw [AV.1]; exact hV) (by rw [hD1]; exact hD)
    refine ⟨B', ?_, lG.trans AG.1, lV.trans AV.1, ?_, ?_⟩
    · rw [List.foldlM_cons]
      have : particleBody E M x Ps B pt = some B1 := e1
      rw [this]
      exact e2
    · intro j
      rw [hg j, AG.2 j, List.map_cons, List.sum_cons, add_assoc]
      simp only [particleWrites, hLs]
    · intro j
      rw [hv j, AV.2 j, List.map_cons, List.sum_cons, add_assoc]
      simp only [particleValues, hLs]

end ParticleLoop

/-! ## The reduction -/

section Reduction

variable [CommRing β]

theorem mergeCost_loop (data_pad : Int) (Vp : List β) :
    ∀ (l : List Nat) (c : β),
      (∀ th ∈ l, 0 ≤ (th : Int) * data_pad ∧ (th : Int) * data_pad < Vp.length) →
      l.foldlM (fun c (th : Nat) =>
          (getI Vp ((th : Int) * data_pad)).bind fun v => some (c + v)) c
        = some (c + (l.map (fun (th : Nat) => getDI Vp ((th : Int) * data_pad))).sum)
  | [], c, _ => by simp
  | th :: l, c, h => by
    obtain ⟨h0, h1⟩ := h th (List.mem_cons_self th l)
    obtain ⟨v, hv⟩ := getI_isSome Vp _ h0 h1
    rw [List.foldlM_cons, hv]
    simp only [Option.bind_eq_bind, Option.some_bind]
    rw [mergeCost_loop data_pad Vp l (c + v)
      (fun t ht => h t (List.mem_cons_of_mem th ht)),
      List.map_cons, List.sum_cons, getDI_of_getI _ _ _ hv, add_assoc]

theorem zero_loop :
    ∀ (l : List Nat) (g : List β), (∀ i ∈ l, i < g.length) →
      ∃ g', l.foldlM (fun g (i : Nat) => setI g (i : Int) (0 : β)) g = some g'
        ∧ g'.length = g.length
        ∧ ∀ j : Nat, g'[j]? = if j ∈ l ∧ j < g.length then some 0 else g[j]?
  | [], g, _ => ⟨g, rfl, rfl, by simp⟩
  | i :: l, g, h => by
    have hi := h i (List.mem_cons_self i l)
    have e1 := setI_eq_some g (i : Int) (0 : β) (by omega) (by omega)
    obtain ⟨g', e2, hl, hg⟩ := zero_loop l (g.set i 0)
      (by intro k hk; rw [List.length_set]; exact h k (List.mem_cons_of_mem i hk))
    refine ⟨g', ?_, by rw [hl, List.length_set], ?_⟩
    · rw [List.foldlM_cons, e1]
      simpa using e2
    · intro j
      rw [hg j, List.length_set, List.getElem?_set]
      by_cases hj : j < g.length
      · by_cases hjl : j ∈ l
        · simp [hjl, hj]
        · by_cases hji : i = j
          · subst hji
            simp [hj]
          · have : j ≠ i := fun h => hji h.symm
            simp [hjl, hji, this]
      · have hn : g[j]? = none := by
          rw [List.getElem?_eq_none_iff]; omega
        by_cases hji : i = j
        · omega
        · simp [hj, hji]

theorem zero_loop_range (g : List β) :
    (List.range g.length).foldlM (fun g (i : Nat) => setI g (i : Int) (0 : β)) g
      = some (List.replicate g.length 0) := by
  obtain ⟨g', e, hl, hg⟩ := zero_loop (List.range g.length) g
    (by intro i hi; exact List.mem_range.mp hi)
  rw [e]
  congr 1
  apply List.ext_getElem?
  intro j
  rw [hg j, List.getElem?_replicate]
  by_cases hj : j < g.length
  · simp [hj]
  · have hn : g[j]? = none := by
      rw [List.getElem?_eq_none_iff]; omega
    simp [hj, hn]

theorem add_row_loop (G : List β) (row : Int) :
    ∀ (l : List Nat) (g : List β),
      (∀ i ∈ l, i < g.length ∧ 0 ≤ row + i ∧ row + i < G.length) →
      ∃ g', l.foldlM (fun g (i : Nat) =>
            (getI G (row + i)).bind fun v => addI g (i : Int) v) g = some g'
        ∧ Adds g g' 0 (l.map (fun (i : Nat) => ((i : Int), getDI G (row + i))))
  | [], g, _ => ⟨g, rfl, Adds.refl g 0⟩
  | i :: l, g, h => by
    obtain ⟨hi, h0, h1⟩ := h i (List.mem_cons_self i l)
    obtain ⟨v, hv⟩ := getI_isSome G _ h0 h1
    obtain ⟨g1, e1, A1⟩ := addI_adds_at g 0 (i : Int) (i : Int) v (by ring) (by omega)
      (by omega)
    obtain ⟨g', e2, A2⟩ := add_row_loop G row l g1
      (by intro k hk; rw [A1.1]; exact h k (List.mem_cons_of_mem i hk))
    refine ⟨g', ?_, ?_⟩
    · rw [List.foldlM_cons, hv]
      simp only [Option.bind_eq_bind, Option.some_bind, e1]
      exact e2
    · rw [List.map_cons, getDI_of_getI _ _ _ hv]
      exact A1.trans A2

theorem colOf_range (F : Nat → β) :
    ∀ (n : Nat) (j : Int),
      colOf ((List.range n).map (fun (i : Nat) => ((i : Int), F i))) j
        = if 0 ≤ j ∧ j < n then F j.toNat else 0
  | 0, j => by
    rw [List.range_zero, List.map_nil, colOf_nil, if_neg (by omega)]
  | n + 1, j => by
    rw [List.range_succ, List.map_append, colOf_append, colOf_range F n j,
      List.map_singleton, colOf_cons, colOf_nil, add_zero]
    by_cases h1 : 0 ≤ j ∧ j < n
    · rw [if_pos h1, if_neg (by omega), if_pos ⟨h1.1, by push_cast; omega⟩, add_zero]
    · rw [if_neg h1]
      by_cases h2 : (n : Int) = j
      · rw [if_pos h2, if_pos ⟨by omega, by push_cast; omega⟩, zero_add]
        congr 1
        omega
      · rw [if_neg h2, if_neg (by push_cast; omega), add_zero]

theorem merge_rows_loop (G : List β) (sg : Int) (xs : Nat) :
    ∀ (ths : List Nat) (g : List β), g.length = xs →
      (∀ th ∈ ths, ∀ i : Nat, i < xs →
        0 ≤ (th : Int) * sg + i ∧ (th : Int) * sg + i < G.length) →
      ∃ g', ths.foldlM (fun g (th : Nat) =>
            (List.range xs).foldlM (fun g (i : Nat) =>
              (getI G ((th : Int) * sg + i)).bind fun v => addI g (i : Int) v) g) g
          = some g'
        ∧ g'.length = xs
        ∧ ∀ j : Int, 0 ≤ j → j < xs →
            getDI g' j = getDI g j
              + (ths.map (fun (th : Nat) => getDI G ((th : Int) * sg + j))).sum
  | [], g, hg, _ => ⟨g, rfl, hg, by simp⟩
  | th :: ths, g, hg, h => by
    obtain ⟨g1, e1, A1⟩ := add_row_loop G ((th : Int) * sg) (List.range xs) g
      (by
        intro i hi
        rw [List.mem_range] at hi
        exact ⟨by omega, h th (List.mem_cons_self th ths) i hi⟩)
    obtain ⟨g', e2, hl, hg'⟩ := merge_rows_loop G sg xs ths g1 (A1.1.trans hg)
      (fun t ht => h t (List.mem_cons_of_mem th ht))
    refine ⟨g', ?_, hl, ?_⟩
    · rw [List.foldlM_cons, e1]
      exact e2
    · intro j hj0 hj
      rw [hg' j hj0 hj, A1.2 j, sub_zero,
        colOf_range (fun i => getDI G ((th : Int) * sg + i)) xs j, if_pos ⟨hj0, hj⟩,
        List.map_cons, List.sum_cons, add_assoc]
      congr 3
      omega

theorem getDI_replicate_zero (n : Nat) (j : Int) :
    getDI (List.replicate n (0 : β)) j = 0 := by
  unfold getDI getI
  split
  · rfl
  · rw [List.getElem?_replicate]
    split <;> rfl

theorem mergeGrad_spec (G gradDest : List β) (sg : Int) (xs T : Nat)
    (hgd : gradDest.length = xs)
    (h : ∀ th : Nat, th < T → ∀ i : Nat, i < xs →
      0 ≤ (th : Int) * sg + i ∧ (th : Int) * sg + i < G.length) :
    ∃ gd, mergeGrad xs T sg G gradDest = some gd
      ∧ gd.length = xs
      ∧ ∀ j : Int, 0 ≤ j → j < xs →
          getDI gd j = ((List.range T).map
            (fun (th : Nat) => getDI G ((th : Int) * sg + j))).sum := by
  have hz := zero_loop_range gradDest
  rw [hgd] at hz
  obtain ⟨gd, e, hl, hg⟩ := merge_rows_loop G sg xs (List.range T)
    (List.replicate xs 0) (by simp)
    (by intro th hth; exact h th (List.mem_range.mp hth))
  refine ⟨gd, ?_, hl, ?_⟩
  · unfold mergeGrad
    simp only [Option.bind_eq_bind, hz, Option.some_bind]
    exact e
  · intro j hj0 hj
    rw [hg j hj0 hj, getDI_replicate_zero, zero_add]

theorem sum_range_ite (a : Nat) (v : β) :
    ∀ T : Nat, ((List.range T).map (fun th => if th = a then v else 0)).sum
      = if a < T then v else 0
  | 0 => by simp
  | T + 1 => by
    rw [List.range_succ, List.map_append, List.sum_append, sum_range_ite a v T,
      List.map_singleton, List.sum_singleton]
    by_cases h1 : a < T
    · rw [if_pos h1, if_neg (by omega), if_pos (by omega), add_zero]
    · rw [if_neg h1]
      by_cases h2 : T = a
      · rw [if_pos h2, if_pos (by omega), zero_add]
      · rw [if_neg h2, if_neg (by omega), add_zero]

theorem colOf_eq_zero (ws : List (Int × β)) (c : Int) (h : ∀ w ∈ ws, w.1 ≠ c) :
    colOf ws c = 0 := by
  induction ws with
  | nil => rfl
  | cons w ws ih =>
    obtain ⟨a, d⟩ := w
    rw [colOf_cons, if_neg (h (a, d) (List.mem_cons_self _ _)),
      ih (fun w hw => h w (List.mem_cons_of_mem _ hw)), add_zero]

/-- The sum over the rows of the per-thread vector collapses to the row on which
the particle ran: the writes of a particle lie in the columns `0 .. width-1` and
the rows are `sg > width` apart. -/
theorem sum_rows_collapse (W : Nat → List (Int × β)) (sg width : Int)
    (hsg : width ≤ sg) (T : Nat)
    (hW : ∀ p, ∀ w ∈ W p, 0 ≤ w.1 ∧ w.1 < width) (j : Int) (hj0 : 0 ≤ j)
    (hj : j < width) :
    ∀ sched : List (Nat × Nat), (∀ pt ∈ sched, pt.2 < T) →
      ((List.range T).map (fun (th : Nat) =>
          (sched.map (fun pt => colOf (W pt.1)
            ((th : Int) * sg + j - (pt.2 : Int) * sg))).sum)).sum
        = (sched.map (fun pt => colOf (W pt.1) j)).sum
  | [], _ => by simp
  | pt :: sched, h => by
    have ih := sum_rows_collapse W sg width hsg T hW j hj0 hj sched
      (fun q hq => h q (List.mem_cons_of_mem pt hq))
    have hpt := h pt (List.mem_cons_self pt sched)
    simp only [List.map_cons, List.sum_cons]
    rw [List.sum_map_add, ih]
    congr 1
    have e : ∀ th : Nat, colOf (W pt.1) ((th : Int) * sg + j - (pt.2 : Int) * sg)
        = if th = pt.2 then colOf (W pt.1) j else 0 := by
      intro th
      by_cases hth : th = pt.2
      · rw [if_pos hth, hth]
        congr 1
        ring
      · rw [if_neg hth]
        apply colOf_eq_zero
        intro w hw hc
        obtain ⟨hw0, hw1⟩ := hW pt.1 w hw
        rcases Nat.lt_or_gt_of_ne hth with hlt | hgt
        · have : ((th : Int) + 1) * sg ≤ (pt.2 : Int) * sg :=
            mul_le_mul_of_nonneg_right (by omega) (by omega)
          have e1 : ((th : Int) + 1) * sg = (th : Int) * sg + sg := by ring
          omega
        · have : ((pt.2 : Int) + 1) * sg ≤ (th : Int) * sg :=
            mul_le_mul_of_nonneg_right (by omega) (by omega)
          have e1 : ((pt.2 : Int) + 1) * sg = (pt.2 : Int) * sg + sg := by ring
          omega
    simp only [e]
    rw [sum_range_ite, if_pos hpt]

end Reduction

/-! ## The columns a particle writes -/

section Columns

variable [CommRing β]

omit [CommRing β] in
theorem window_cols :
    ∀ (ds : List β) (off : Int), ∀ w ∈ window off ds,
      off ≤ w.1 ∧ w.1 < off + ds.length
  | [], off, w, hw => by simp [window] at hw
  | d :: ds, off, w, hw => by
    simp only [window, List.mem_cons] at hw
    simp only [List.length_cons, Nat.cast_add, Nat.cast_one]
    rcases hw with rfl | hw
    · constructor <;> simp
    · have := window_cols ds (off + 1) w hw
      omega

theorem poseList_cols (M : ModularAlignment β) (f : Nat) (L : FrameLocals β) :
    ∀ w ∈ poseList M f L, 0 ≤ w.1 ∧ w.1 < getFrameStride M * f := by
  intro w hw
  unfold poseList at hw
  by_cases hf : f > 0
  · have hf1 : (1 : Int) ≤ f := by omega
    simp only [hf, if_true] at hw
    cases hA : M.settings.constAngles <;> cases hS : M.settings.constShifts <;>
      simp only [hA, hS, Bool.false_eq_true, if_false, if_true, Bool.not_true,
        Bool.not_false, List.mem_cons, List.mem_singleton, List.not_mem_nil,
        or_false] at hw
    · have hfs : getFrameStride M = 5 := by simp [getFrameStride, hA, hS]
      rw [hfs] at hw ⊢
      rcases hw with rfl | rfl | rfl | rfl | rfl <;> constructor <;> simp <;> omega
    · have hfs : getFrameStride M = 3 := by simp [getFrameStride, hA, hS]
      rw [hfs] at hw ⊢
      rcases hw with rfl | rfl | rfl <;> constructor <;> simp <;> omega
    · have hfs : getFrameStride M = 2 := by simp [getFrameStride, hA, hS]
      rw [hfs] at hw ⊢
      rcases hw with rfl | rfl <;> constructor <;> simp <;> omega
  · simp only [hf, if_false] at hw
    exact absurd hw (by simp)

theorem positionList_cols (M : ModularAlignment β) (p : Nat) (L : FrameLocals β) :
    ∀ w ∈ positionList M p L,
      getPositionsBlockOffset M (getFrameStride M) + 3 * p ≤ w.1
      ∧ w.1 < getPositionsBlockOffset M (getFrameStride M) + 3 * p + 3 := by
  intro w hw
  unfold positionList at hw
  cases hc : M.settings.constParticles
  · simp only [hc, Bool.not_false, if_true, List.mem_cons, List.mem_singleton,
      List.not_mem_nil, or_false] at hw
    rcases hw with rfl | rfl | rfl <;> constructor <;> simp
  · simp only [hc, Bool.not_true, Bool.false_eq_true, if_false] at hw
    exact absurd hw (by simp)

theorem frameWriteList_cols (E : Externals β) (M : ModularAlignment β) (x : List β)
    (Ps : List (FrameProjections β)) (p f : Nat) (s : V3 β) (L : FrameLocals β)
    (V : Fits M x) (hp : (p : Int) < M.pc) (hf : (f : Int) < M.fc)
    (hL : frameLocals E M x Ps p f s = some L) :
    ∀ w ∈ frameWriteList M x p f L, 0 ≤ w.1 ∧ w.1 < x.length := by
  obtain ⟨hfs, hpos, hmot, hdef, hlm, hdefx, hpose, hdefw⟩ := V.layout
  have hpc := V.pc_nonneg
  have hdb := frameLocals_def_block E M x Ps p f s L hL
  have hdw := hdefw f hf
  rw [← hdb] at hdw
  have hdl := V.def_len L.pl L.g0.xy (ptrI x L.def_block_f)
  have hdb0 : 0 ≤ L.def_block_f := by
    rw [hdb]
    have : 0 ≤ (if M.settings.perFrame2DDeformation then (f : Int) * M.dc else 0) := by
      split
      · exact mul_nonneg (by omega) V.dc_nonneg
      · exact le_refl 0
    omega
  intro w hw
  simp only [frameWriteList, List.mem_append] at hw
  rcases hw with (hw | hw) | hw
  · have := window_cols _ _ w hw
    omega
  · have := poseList_cols M f L w hw
    have := hpose f hf
    omega
  · have := positionList_cols M p L w hw
    omega

theorem framesWriteList_cols (E : Externals β) (M : ModularAlignment β) (x : List β)
    (Ps : List (FrameProjections β)) (p : Nat) (V : Fits M x)
    (hp : (p : Int) < M.pc) :
    ∀ (frames : List Nat) (s : V3 β) (Ls : List (FrameLocals β)),
      (∀ f ∈ frames, (f : Int) < M.fc) →
      localsFrom E M x Ps p s frames = some Ls →
      ∀ w ∈ framesWriteList M x p frames Ls, 0 ≤ w.1 ∧ w.1 < x.length
  | [], s, Ls, _, _, w, hw => by
    simp [framesWriteList] at hw
  | f :: frames, s, Ls, hfr, hLs, w, hw => by
    simp only [localsFrom, Option.bind_eq_bind, Option.bind_eq_some] at hLs
    obtain ⟨L, hL, rest, hrest, hLs⟩ := hLs
    have e := (Option.some.inj hLs).symm
    subst e
    simp only [framesWriteList, List.mem_append] at hw
    rcases hw with hw | hw
    · exact frameWriteList_cols E M x Ps p f s L V hp
        (hfr f (List.mem_cons_self f frames)) hL w hw
    · exact framesWriteList_cols E M x Ps p V hp frames _ rest
        (fun f' hf' => hfr f' (List.mem_cons_of_mem f hf')) hrest w hw

theorem particleWrites_cols (E : Externals β) (M : ModularAlignment β) (x : List β)
    (Ps : List (FrameProjections β)) (p : Nat) (V : Fits M x)
    (hp : (p : Int) < M.pc) :
    ∀ w ∈ particleWrites E M x Ps p, 0 ≤ w.1 ∧ w.1 < x.length := by
  obtain ⟨hfs, hpos, hmot, hdef, hlm, hdefx, hpose, hdefw⟩ := V.layout
  have hpc := V.pc_nonneg
  intro w hw
  unfold particleWrites at hw
  cases hLs : particleLocals E M x Ps p with
  | none => rw [hLs] at hw; simp at hw
  | some Ls =>
    rw [hLs] at hw
    simp only [particleLocals, Option.bind_eq_bind, Option.bind_eq_some] at hLs
    obtain ⟨s, -, hLs⟩ := hLs
    simp only [particleWriteList, List.mem_append] at hw
    rcases hw with hw | hw
    · exact framesWriteList_cols E M x Ps p V hp _ s Ls
        (by intro f hf; rw [List.mem_range] at hf; omega) hLs w hw
    · cases hc : M.settings.constParticles
      · simp only [hc, Bool.not_false, if_true] at hw
        have := window_cols _ _ w hw
        have := V.mot_len (Ls.map dC_dPos_f) p M.fc
        omega
      · simp only [hc, Bool.not_true, Bool.false_eq_true, if_false] at hw
        exact absurd hw (by simp)

theorem particleValues_cols (E : Externals β) (M : ModularAlignment β) (x : List β)
    (Ps : List (FrameProjections β)) (p : Nat) :
    ∀ w ∈ particleValues E M x Ps p, 0 ≤ w.1 ∧ w.1 < 1 := by
  intro w hw
  unfold particleValues at hw
  cases hLs : particleLocals E M x Ps p with
  | none => rw [hLs] at hw; simp at hw
  | some Ls =>
    rw [hLs] at hw
    simp only [List.mem_map] at hw
    obtain ⟨L, -, rfl⟩ := hw
    simp

end Columns

/-! ## gradAndValue without threads -/

section Characterisation

variable [CommRing β]

theorem ext_getDI (l1 l2 : List β) (hl : l1.length = l2.length)
    (h : ∀ j : Nat, j < l1.length → getDI l1 (j : Int) = getDI l2 (j : Int)) :
    l1 = l2 := by
  apply List.ext_getElem hl
  intro j h1 h2
  have e := h j h1
  unfold getDI at e
  rw [getI_natCast, getI_natCast, List.getElem?_eq_getElem h1,
    List.getElem?_eq_getElem h2] at e
  exact e

theorem getDI_map_range (F : Nat → β) (n j : Nat) (hj : j < n) :
    getDI ((List.range n).map F) (j : Int) = F j := by
  unfold getDI
  rw [getI_natCast, List.getElem?_map, List.getElem?_range hj]
  rfl

omit [CommRing β] in
theorem nanGuard_false [BEq β] [LawfulBEq β] (x : List β) : nanGuard x = false := by
  unfold nanGuard
  rw [List.any_eq_false]
  intro v _
  simp

omit [CommRing β] in
theorem rows_fit (th : Nat) (T s : Int) (hth : (th : Int) < T) (hs : 0 ≤ s) :
    0 ≤ (th : Int) * s ∧ (th : Int) * s + s ≤ ((s * T).toNat : Int) := by
  have h1 : ((th : Int) + 1) * s ≤ T * s := mul_le_mul_of_nonneg_right (by omega) hs
  have h2 : 0 ≤ (th : Int) * s := mul_nonneg (by omega) hs
  have h3 : 0 ≤ s * T := mul_nonneg hs (by omega)
  have e1 : ((th : Int) + 1) * s = (th : Int) * s + s := by ring
  have e2 : T * s = s * T := by ring
  omega

/-- On a NaN-free vector of the right length, `gradAndValue` returns, for every
execution of the parallel loop, the cost and the gradient of `gradAndValueSpec`,
in which neither the schedule nor the number of threads occurs. -/
theorem gradAndValue_eq_spec [BEq β] [LawfulBEq β] (E : Externals β)
    (M : ModularAlignment β) (sched : List (Nat × Nat)) (x gradDest : List β)
    (V : Fits M x) (hs : ValidSchedule M sched) (hgd : gradDest.length = x.length) :
    gradAndValue E M sched x gradDest = gradAndValueSpec E M x
    ∧ ∃ Ps, buildProjections E M x = some Ps ∧ Ps.length = M.fc.toNat
        ∧ gradAndValueSpec E M x = some (costOf E M x Ps, gradOf E M x Ps) := by
  obtain ⟨hfs, hpos, hmot, hdef, hlm, hdefx, hpose, hdefw⟩ := V.layout
  have hpc := V.pc_nonneg
  have hfc := V.fc_pos
  have hT := V.threads_pos
  obtain ⟨hperm, hth⟩ := hs
  obtain ⟨Ps, hPs, hF⟩ := buildProjections_isSome E M x hpc V.mpc_nonneg V.dc_nonneg
    V.x_len V.fc_eq
  have hPl : Ps.length = M.fc.toNat := by
    have := hF.length_eq
    rw [List.length_range] at this
    exact this.symm
  have hspec : gradAndValueSpec E M x = some (costOf E M x Ps, gradOf E M x Ps) := by
    simp only [gradAndValueSpec, hPs, Option.bind_eq_bind, Option.some_bind]
  refine ⟨?_, Ps, hPs, hPl, hspec⟩
  rw [hspec]
  -- the particle loop
  have hmem : ∀ pt ∈ sched, (pt.1 : Int) < M.pc ∧ (pt.2 : Int) < M.num_threads := by
    intro pt hpt
    refine ⟨?_, hth pt hpt⟩
    have : pt.1 ∈ sched.map Prod.fst := List.mem_map_of_mem _ hpt
    rw [hperm.mem_iff, List.mem_range] at this
    omega
  obtain ⟨B, eB, lG, lV, hg, hv⟩ := sched_loop E M x Ps V hPl sched
    ⟨List.replicate (((x.length : Int) + 512) * M.num_threads).toNat 0,
     List.replicate ((512 : Int) * M.num_threads).toNat 0,
     List.replicate ((M.fc + 512) * M.num_threads).toNat V3.zero⟩ hmem
    (by
      intro th h
      rw [List.length_replicate]
      exact (rows_fit th M.num_threads _ h (by omega)).2)
    (by
      intro th h
      rw [List.length_replicate]
      have := (rows_fit th M.num_threads 512 h (by omega)).2
      omega)
    (by
      intro th h
      rw [List.length_replicate]
      exact (rows_fit th M.num_threads _ h (by omega)).2)
  simp only [List.length_replicate] at lG lV
  simp only [getDI_replicate_zero, zero_add] at hg hv
  -- the reduction of the gradient
  have hTn : ∀ th : Nat, th < M.num_threads.toNat → (th : Int) < M.num_threads := by
    intro th h; omega
  obtain ⟨gd, egd, lgd, hgdv⟩ := mergeGrad_spec B.grad_par gradDest
    ((x.length : Int) + 512) x.length M.num_threads.toNat hgd
    (by
      intro th hth' i hi
      have := rows_fit th M.num_threads ((x.length : Int) + 512) (hTn th hth')
        (by omega)
      rw [lG]
      omega)
  -- the reduction of the cost
  have ecost := mergeCost_loop 512 B.val_par (List.range M.num_threads.toNat) 0
    (by
      intro th hth'
      rw [List.mem_range] at hth'
      have := rows_fit th M.num_threads 512 (hTn th hth') (by omega)
      rw [lV]
      omega)
  rw [zero_add] at ecost
  -- the sums over the threads collapse
  have hcostsum : ((List.range M.num_threads.toNat).map
      (fun (th : Nat) => getDI B.val_par ((th : Int) * 512))).sum
      = ((List.range M.pc.toNat).map
          (fun p => colOf (particleValues E M x Ps p) 0)).sum := by
    have e1 : ∀ th : Nat, getDI B.val_par ((th : Int) * 512)
        = (sched.map (fun pt => colOf (particleValues E M x Ps pt.1)
            ((th : Int) * 512 + 0 - (pt.2 : Int) * 512))).sum := by
      intro th
      rw [hv]
      simp only [add_zero]
    simp only [e1]
    rw [sum_rows_collapse (fun p => particleValues E M x Ps p) 512 1 (by omega)
      M.num_threads.toNat (fun p => particleValues_cols E M x Ps p) 0 (le_refl 0)
      (by omega) sched (by intro pt hpt; have := hth pt hpt; omega)]
    have e2 : sched.map (fun pt => colOf (particleValues E M x Ps pt.1) 0)
        = (sched.map Prod.fst).map (fun p => colOf (particleValues E M x Ps p) 0) := by
      rw [List.map_map]; rfl
    rw [e2]
    exact (hperm.map _).sum_eq
  have hgradsum : ∀ j : Int, 0 ≤ j → j < x.length →
      getDI gd j = ((List.range M.pc.toNat).map
          (fun p => colOf (particleWrites E M x Ps p) j)).sum := by
    intro j hj0 hj
    rw [hgdv j hj0 hj]
    simp only [hg]
    have hW : ∀ p : Nat, ∀ w ∈ (if (p : Int) < M.pc then particleWrites E M x Ps p else []),
        0 ≤ w.1 ∧ w.1 < (x.length : Int) := by
      intro p w hw
      by_cases hp : (p : Int) < M.pc
      · rw [if_pos hp] at hw
        exact particleWrites_cols E M x Ps p V hp w hw
      · rw [if_neg hp] at hw
        simp at hw
    have e0 : ∀ (th : Nat), (sched.map (fun pt => colOf (particleWrites E M x Ps pt.1)
          ((th : Int) * ((x.length : Int) + 512) + j
            - (pt.2 : Int) * ((x.length : Int) + 512)))).sum
        = (sched.map (fun pt =>
            colOf (if (pt.1 : Int) < M.pc then particleWrites E M x Ps pt.1 else [])
          ((th : Int) * ((x.length : Int) + 512) + j
            - (pt.2 : Int) * ((x.length : Int) + 512)))).sum := by
      intro th
      congr 1
      apply List.map_congr_left
      intro pt hpt
      rw [if_pos (hmem pt hpt).1]
    simp only [e0]
    rw [sum_rows_collapse
      (fun (p : Nat) => if (p : Int) < M.pc then particleWrites E M x Ps p else [])
      ((x.length : Int) + 512) (x.length : Int) (by omega)
      M.num_threads.toNat hW j hj0 hj sched
      (by intro pt hpt; have := hth pt hpt; omega)]
    have e2 : sched.map (fun pt =>
          colOf (if (pt.1 : Int) < M.pc then particleWrites E M x Ps pt.1 else []) j)
        = (sched.map Prod.fst).map (fun (p : Nat) =>
          colOf (if (p : Int) < M.pc then particleWrites E M x Ps p else []) j) := by
      rw [List.map_map]; rfl
    rw [e2, (hperm.map _).sum_eq]
    congr 1
    apply List.map_congr_left
    intro p hp
    rw [List.mem_range] at hp
    rw [if_pos (by omega)]
  -- assemble
  unfold gradAndValue
  simp only [nanGuard_false, Bool.false_eq_true, if_false, hPs, Option.bind_eq_bind,
    Option.some_bind, eB, egd]
  unfold mergeCost
  simp only [Option.bind_eq_bind, ecost, Option.some_bind, hcostsum]
  cases hc : M.settings.constParticles
  · have hpl := V.prior_len (ptrI x (getMotionBlockOffset M (getFrameStride M))) M.fc
    obtain ⟨gd2, e2, A2⟩ := addPtr_adds 0
      (M.motionModel.computePriorCostAndGradient
        (ptrI x (getMotionBlockOffset M (getFrameStride M))) M.fc).2
      gd (getMotionBlockOffset M (getFrameStride M)) (by omega)
      (by rw [lgd]; omega)
    rw [zero_add] at e2
    simp only [Bool.not_false, if_true, e2, Option.some_bind]
    congr 1
    refine Prod.ext ?_ ?_
    · simp only [costOf, hc, Bool.not_false, if_true]
    · apply ext_getDI
      · rw [A2.1, lgd, gradOf, List.length_map, List.length_range]
      · intro j hj
        rw [A2.1, lgd] at hj
        rw [A2.2 (j : Int), sub_zero, hgradsum (j : Int) (by omega) (by omega), gradOf,
          getDI_map_range _ _ _ hj]
        simp only [hc, Bool.not_false, if_true]
  · simp only [Bool.not_true, Bool.false_eq_true, if_false]
    congr 1
    refine Prod.ext ?_ ?_
    · simp only [costOf, hc, Bool.not_true, Bool.false_eq_true, if_false]
    · apply ext_getDI
      · rw [lgd, gradOf, List.length_map, List.length_range]
      · intro j hj
        rw [lgd] at hj
        rw [hgradsum (j : Int) (by omega) (by omega), gradOf,
          getDI_map_range _ _ _ hj]
        simp only [hc, Bool.not_true, Bool.false_eq_true, if_false, colOf_nil, add_zero]

end Characterisation

/-! ## Threads -/

section Threads

variable [CommRing β]

omit [CommRing β] in
theorem sequentialSchedule_valid (M : ModularAlignment β) (h : 1 ≤ M.num_threads) :
    ValidSchedule M (sequentialSchedule M) := by
  constructor
  · unfold sequentialSchedule
    rw [List.map_map]
    have : (Prod.fst ∘ fun p : Nat => (p, 0)) = id := rfl
    rw [this, List.map_id]
  · intro pt hpt
    unfold sequentialSchedule at hpt
    rw [List.mem_map] at hpt
    obtain ⟨p, -, rfl⟩ := hpt
    simpa using h

omit [CommRing β] in
theorem Valid.with_threads {M : ModularAlignment β} {x : List β} (V : Valid M x)
    (n : Int) (hn : 1 ≤ n) : Valid { M with num_threads := n } x :=
  ⟨V.fc_pos, V.mpc_nonneg, V.dc_nonneg, V.fc_eq, V.pc_eq, V.ccs_eq, hn,
    V.x_len, V.def_len, V.mot_len, V.prior_len⟩

/-! The functional description does not read `num_threads`. -/

theorem frameProjections_threads (E : Externals β) (M : ModularAlignment β) (n : Int)
    (x : List β) :
    frameProjections E { M with num_threads := n } x = frameProjections E M x := rfl

theorem buildProjections_threads (E : Externals β) (M : ModularAlignment β) (n : Int)
    (x : List β) :
    buildProjections E { M with num_threads := n } x = buildProjections E M x := by
  unfold buildProjections
  rw [frameProjections_threads]

theorem frameLocals_threads (E : Externals β) (M : ModularAlignment β) (n : Int)
    (x : List β) (Ps : List (FrameProjections β)) :
    frameLocals E { M with num_threads := n } x Ps = frameLocals E M x Ps := rfl

theorem localsFrom_threads (E : Externals β) (M : ModularAlignment β) (n : Int)
    (x : List β) (Ps : List (FrameProjections β)) (p : Nat) :
    ∀ (frames : List Nat) (s : V3 β),
      localsFrom E { M with num_threads := n } x Ps p s frames
        = localsFrom E M x Ps p s frames
  | [], _ => rfl
  | f :: frames, s => by
    simp only [localsFrom, frameLocals_threads]
    have : nextShift { M with num_threads := n } x p f s = nextShift M x p f s := rfl
    rw [this]
    simp only [localsFrom_threads E M n x Ps p frames]

theorem particleLocals_threads (E : Externals β) (M : ModularAlignment β) (n : Int)
    (x : List β) (Ps : List (FrameProjections β)) (p : Nat) :
    particleLocals E { M with num_threads := n } x Ps p = particleLocals E M x Ps p := by
  unfold particleLocals
  have : initialShift { M with num_threads := n } x p = initialShift M x p := rfl
  rw [this]
  simp only [localsFrom_threads]

theorem framesWriteList_threads (M : ModularAlignment β) (n : Int) (x : List β)
    (p : Nat) :
    ∀ (frames : List Nat) (Ls : List (FrameLocals β)),
      framesWriteList { M with num_threads := n } x p frames Ls
        = framesWriteList M x p frames Ls
  | [], _ => rfl
  | _ :: _, [] => rfl
  | f :: frames, L :: Ls => by
    simp only [framesWriteList, framesWriteList_threads M n x p frames Ls]
    rfl

theorem particleWrites_threads (E : Externals β) (M : ModularAlignment β) (n : Int)
    (x : List β) (Ps : List (FrameProjections β)) (p : Nat) :
    particleWrites E { M with num_threads := n } x Ps p = particleWrites E M x Ps p := by
  unfold particleWrites
  rw [particleLocals_threads]
  cases particleLocals E M x Ps p with
  | none => rfl
  | some Ls =>
    simp only [particleWriteList, framesWriteList_threads]
    rfl

theorem particleValues_threads (E : Externals β) (M : ModularAlignment β) (n : Int)
    (x : List β) (Ps : List (FrameProjections β)) (p : Nat) :
    particleValues E { M with num_threads := n } x Ps p = particleValues E M x Ps p := by
  unfold particleValues
  rw [particleLocals_threads]

theorem gradAndValueSpec_threads (E : Externals β) (M : ModularAlignment β) (n : Int)
    (x : List β) :
    gradAndValueSpec E { M with num_threads := n } x = gradAndValueSpec E M x := by
  unfold gradAndValueSpec
  rw [buildProjections_threads]
  simp only [costOf, gradOf, particleWrites_threads, particleValues_threads]
  rfl

/-- C10: for every NaN-free `x` (of length `getParamCount()`), every
`num_threads ≥ 1` and every assignment of the particles to the threads, in any
order, `gradAndValue` returns the cost and the gradient it returns with a
single thread, in exact arithmetic.  The scratch vectors do not carry a value
from one particle to the next: whatever `grad_par`, `val_par` and `dC_dPos` hold
when the body of the particle loop starts for particle `p` on thread `th`, the
increments it makes to row `th` of `grad_par` are the writes of particle `p`. -/
theorem gradAndValue_threads [BEq β] [LawfulBEq β] (E : Externals β)
    (M : ModularAlignment β) (sched : List (Nat × Nat)) (x gradDest : List β)
    (V : Valid M x) (hs : ValidSchedule M sched) (hgd : gradDest.length = x.length) :
    gradAndValue E M sched x gradDest
      = gradAndValue E { M with num_threads := 1 }
          (sequentialSchedule { M with num_threads := 1 }) x gradDest
    ∧ (∃ cost grad, gradAndValue E M sched x gradDest = some (cost, grad))
    ∧ ∀ Ps, buildProjections E M x = some Ps →
        ∀ (p th : Nat) (B : Buffers β), (p : Int) < M.pc →
          (th : Int) * ((x.length : Int) + 512) + ((x.length : Int) + 512)
            ≤ B.grad_par.length →
          (th : Int) * 512 < B.val_par.length →
          (th : Int) * (M.fc + 512) + (M.fc + 512) ≤ B.dC_dPos.length →
          ∃ B', particleBody E M x Ps B (p, th) = some B'
            ∧ Adds B.grad_par B'.grad_par ((th : Int) * ((x.length : Int) + 512))
                (particleWrites E M x Ps p) := by
  have V1 : Valid { M with num_threads := 1 } x := V.with_threads 1 (le_refl 1)
  obtain ⟨e, Ps, hPs, hPl, hspec⟩ := gradAndValue_eq_spec E M sched x gradDest V.fits hs hgd
  obtain ⟨e1, -⟩ := gradAndValue_eq_spec E { M with num_threads := 1 }
    (sequentialSchedule { M with num_threads := 1 }) x gradDest V1.fits
    (sequentialSchedule_valid _ (le_refl 1)) hgd
  refine ⟨?_, ⟨_, _, e.trans hspec⟩, ?_⟩
  · exact e.trans ((gradAndValueSpec_threads E M 1 x).symm.trans e1.symm)
  · intro Ps' hPs' p th B hp hG hV hD
    rw [hPs] at hPs'
    have ePs := Option.some.inj hPs'
    subst ePs
    obtain ⟨Ls, hLs⟩ := particleLocals_isSome E M x Ps p V.fits hPl hp
    obtain ⟨B', eB, AG, -, -⟩ := particleBody_step E M x Ps p th B Ls V.fits hp hLs
      hG hV hD
    refine ⟨B', eB, ?_⟩
    simp only [particleWrites, hLs]
    exact AG

omit [CommRing β] in
/-- The specification's scenario satisfies the contract. -/
theorem scenario_valid (x : List ℤ) (hx : x.length = 16) :
    Valid Scenario.threeFrames x :=
  ⟨by decide, by decide, by decide, by decide, by decide, by decide, by decide,
    by rw [hx]; decide, fun _ _ _ => le_refl (0 : Int), fun _ _ _ => le_refl (0 : Int),
    fun _ _ => le_refl (0 : Int)⟩

/-- Witness of C10: the specification's scenario on two threads, particle 1 run
first on thread 1 and particle 0 then on thread 0. -/
theorem gradAndValue_threads_witness :
    (ValidSchedule Scenario.twoThreads [(1, 1), (0, 0)]
      ∧ ([0, 0, 0, 0, 0, 0, 0, 0, 0, 0, 0, 0, 0, 0, 0, 0] : List ℤ).length
          = Scenario.x16.length)
    ∧ gradAndValue Scenario.externals Scenario.twoThreads [(1, 1), (0, 0)] Scenario.x16
        [0, 0, 0, 0, 0, 0, 0, 0, 0, 0, 0, 0, 0, 0, 0, 0]
      = gradAndValue Scenario.externals { Scenario.twoThreads with num_threads := 1 }
          (sequentialSchedule { Scenario.twoThreads with num_threads := 1 })
          Scenario.x16 [0, 0, 0, 0, 0, 0, 0, 0, 0, 0, 0, 0, 0, 0, 0, 0] :=
  ⟨⟨⟨by decide, by decide⟩, rfl⟩,
   (gradAndValue_threads Scenario.externals Scenario.twoThreads [(1, 1), (0, 0)]
      Scenario.x16 [0, 0, 0, 0, 0, 0, 0, 0, 0, 0, 0, 0, 0, 0, 0, 0]
      ((scenario_valid Scenario.x16 rfl).with_threads 2 (by decide))
      ⟨by decide, by decide⟩ rfl).1⟩

end Threads

/-! ## Evaluation at the zero vector -/

section ZeroVector

variable [CommRing β]

omit [CommRing β] in
theorem getI_mem {α : Type} (v : List α) (i : Int) (a : α) (h : getI v i = some a) :
    a ∈ v := by
  have hb := getI_some_bounds v i a h
  rw [getI_eq_getElem? _ _ hb.1] at h
  exact List.mem_iff_getElem?.mpr ⟨_, h⟩

theorem readViewParams_zero (M : ModularAlignment β) (x : List β) (f : Int)
    (hx0 : ∀ v ∈ x, v = 0) (v : ViewParams β) (h : readViewParams M x f = some v) :
    v = ⟨0, 0, 0, 0, 0⟩ := by
  unfold readViewParams at h
  cases hA : M.settings.constAngles <;> cases hS : M.settings.constShifts <;>
    simp only [hA, hS, Bool.false_eq_true, if_false, if_true, Option.bind_eq_bind,
      Option.bind_eq_some, Option.some_bind, Option.some.injEq] at h
  · obtain ⟨a, ha, b, hb, c, hc, d, hd, e, he, h⟩ := h
    rw [← h, hx0 _ (getI_mem _ _ _ ha), hx0 _ (getI_mem _ _ _ hb),
      hx0 _ (getI_mem _ _ _ hc), hx0 _ (getI_mem _ _ _ hd), hx0 _ (getI_mem _ _ _ he)]
  · obtain ⟨a, ha, b, hb, c, hc, h⟩ := h
    rw [← h, hx0 _ (getI_mem _ _ _ ha), hx0 _ (getI_mem _ _ _ hb),
      hx0 _ (getI_mem _ _ _ hc)]
  · obtain ⟨d, hd, e, he, h⟩ := h
    rw [← h, hx0 _ (getI_mem _ _ _ hd), hx0 _ (getI_mem _ _ _ he)]
  · exact h.symm

/-- At the zero vector every corrected projection is the initial one. -/
theorem frameProjections_zero_vector (E : Externals β) (M : ModularAlignment β)
    (x : List β) (c : V3 β) (f : Nat) (F : M4 β) (fp : FrameProjections β)
    (hx0 : ∀ v ∈ x, v = 0)
    (hQ : E.anglesToMatrix4 0 0 0 = M4.identity)
    (hplus : M.plusCentre = M4.translation c)
    (hminus : M.minusCentre = M4.translation ⟨-c.x, -c.y, -c.z⟩)
    (hF : getI M.frameProj (f : Int) = some F)
    (h : frameProjections E M x f = some fp) : fp.P = F := by
  have key : ∀ v : ViewParams β, v = ⟨0, 0, 0, 0, 0⟩ →
      (((M.plusCentre.mul (E.anglesToMatrix4 v.phi v.theta v.psi)).mul
          (M.minusCentre.mul F)).setEntry 0 3
        (((M.plusCentre.mul (E.anglesToMatrix4 v.phi v.theta v.psi)).mul
          (M.minusCentre.mul F)) 0 3 + v.dx)).setEntry 1 3
        ((((M.plusCentre.mul (E.anglesToMatrix4 v.phi v.theta v.psi)).mul
          (M.minusCentre.mul F)).setEntry 0 3
        (((M.plusCentre.mul (E.anglesToMatrix4 v.phi v.theta v.psi)).mul
          (M.minusCentre.mul F)) 0 3 + v.dx)) 1 3 + v.dy) = F := by
    intro v hv
    subst hv
    simp only [hQ, hplus, hminus]
    exact centred_identity_projection c F
  unfold frameProjections at h
  by_cases hf : f > 0
  · simp only [hf, if_true, hF, Option.bind_eq_bind, Option.bind_eq_some,
      Option.some_bind, Option.some.injEq] at h
    obtain ⟨v, hv, h⟩ := h
    rw [← h]
    exact key v (readViewParams_zero M x f hx0 v hv)
  · simp only [hf, if_false, hF, Option.bind_eq_bind, Option.some_bind,
      Option.some.injEq] at h
    rw [← h]
    exact key ⟨0, 0, 0, 0, 0⟩ rfl

/-- At the zero vector, with a deformation model that does not shift, the
sample of particle `p` in frame `f` is taken at the pixel
`(maxRange * paddingFactor, maxRange * paddingFactor, f)`. -/
theorem frameLocals_zero_vector (E : Externals β) (M : ModularAlignment β)
    (x : List β) (Ps : List (FrameProjections β)) (c : V3 β) (p f : Nat)
    (L : FrameLocals β) (cc : BufferedImage β)
    (hx0 : ∀ v ∈ x, v = 0)
    (hQ : E.anglesToMatrix4 0 0 0 = M4.identity)
    (hplus : M.plusCentre = M4.translation c)
    (hminus : M.minusCentre = M4.translation ⟨-c.x, -c.y, -c.z⟩)
    (hdef : ∀ pl co, (M.deformationModel2D.computeShiftAndGradient pl co).1 = ⟨0, 0⟩)
    (hPs : buildProjections E M x = some Ps) (hf : (f : Int) < M.fc)
    (hcc : getI M.CCs (p : Int) = some cc)
    (hL : frameLocals E M x Ps p f V3.zero = some L) :
    L.dx_img = (M.maxRange : β) * M.paddingFactor
    ∧ L.dy_img = (M.maxRange : β) * M.paddingFactor
    ∧ L.g0 = V3.smul (-M.paddingFactor)
        (E.cubicXYGradAndValue_clip cc ((M.maxRange : β) * M.paddingFactor)
          ((M.maxRange : β) * M.paddingFactor) (f : Int)) := by
  obtain ⟨-, Pf, hPf, hPf'⟩ := buildProjections_getI E M x Ps hPs f hf
  unfold frameLocals at hL
  simp only [hPf, hcc, hdef, Option.bind_eq_bind, Option.bind_eq_some, Option.some_bind,
    Option.some.injEq] at hL
  obtain ⟨ip, -, F, hF, hL⟩ := hL
  have hP := frameProjections_zero_vector E M x c f F Pf hx0 hQ hplus hminus hF hPf'
  have hdx : ((((Pf.P.mulVec (V4.ofV3 (ip.add V3.zero))).xy.add ⟨0, 0⟩).sub
      (F.mulVec (V4.ofV3 ip)).xy).x + (M.maxRange : β)) * M.paddingFactor
      = (M.maxRange : β) * M.paddingFactor := by
    rw [hP, V3.add_zero]
    simp [V2.add, V2.sub]
  have hdy : ((((Pf.P.mulVec (V4.ofV3 (ip.add V3.zero))).xy.add ⟨0, 0⟩).sub
      (F.mulVec (V4.ofV3 ip)).xy).y + (M.maxRange : β)) * M.paddingFactor
      = (M.maxRange : β) * M.paddingFactor := by
    rw [hP, V3.add_zero]
    simp [V2.add, V2.sub]
  rw [← hL]
  simp only [hdx, hdy]
  exact ⟨trivial, trivial, trivial⟩

theorem initialShift_zero_vector (M : ModularAlignment β) (x : List β) (p : Nat)
    (hx0 : ∀ v ∈ x, v = 0) (s : V3 β) (h : initialShift M x p = some s) :
    s = V3.zero := by
  unfold initialShift at h
  cases hc : M.settings.constParticles
  · simp only [hc, Bool.false_eq_true, if_false, Option.bind_eq_bind,
      Option.bind_eq_some, Option.some.injEq] at h
    obtain ⟨a, ha, b, hb, c, hc', h⟩ := h
    rw [← h, hx0 _ (getI_mem _ _ _ ha), hx0 _ (getI_mem _ _ _ hb),
      hx0 _ (getI_mem _ _ _ hc')]
    rfl
  · simp only [hc, if_true, Option.some.injEq] at h
    exact h.symm

omit [CommRing β] in
theorem nextShift_no_motion (M : ModularAlignment β) (x : List β) (p f : Nat)
    (s : V3 β) (hupd : ∀ co q s, M.motionModel.updatePosition co q s = s) :
    nextShift M x p f s = s := by
  unfold nextShift
  simp only [hupd, ite_self]

theorem localsFrom_no_motion (E : Externals β) (M : ModularAlignment β) (x : List β)
    (Ps : List (FrameProjections β)) (p : Nat)
    (hupd : ∀ co q s, M.motionModel.updatePosition co q s = s) (s : V3 β) :
    ∀ (frames : List Nat) (Ls : List (FrameLocals β)),
      localsFrom E M x Ps p s frames = some Ls →
      List.Forall₂ (fun f L => frameLocals E M x Ps p f s = some L) frames Ls
  | [], Ls, h => by
    simp only [localsFrom, Option.some.injEq] at h
    rw [← h]
    exact List.Forall₂.nil
  | f :: frames, Ls, h => by
    simp only [localsFrom, nextShift_no_motion M x p f s hupd, Option.bind_eq_bind,
      Option.bind_eq_some, Option.some.injEq] at h
    obtain ⟨L, hL, rest, hrest, h⟩ := h
    rw [← h]
    exact List.Forall₂.cons hL (localsFrom_no_motion E M x Ps p hupd s frames rest hrest)

theorem colOf_values (Ls : List (FrameLocals β)) :
    colOf (Ls.map (fun L => ((0 : Int), L.g0.z))) 0 = (Ls.map (fun L => L.g0.z)).sum := by
  induction Ls with
  | nil => rfl
  | cons L Ls ih =>
    rw [List.map_cons, colOf_cons, if_pos rfl, ih, List.map_cons, List.sum_cons]

theorem forall₂_sum {γ δ : Type} (R : γ → δ → Prop) (G : γ → β)
    (H : δ → β) (l : List γ) (r : List δ) (hlr : List.Forall₂ R l r)
    (h : ∀ a b, a ∈ l → R a b → H b = G a) : (r.map H).sum = (l.map G).sum := by
  induction hlr with
  | nil => rfl
  | cons hab _ ih =>
    rw [List.map_cons, List.map_cons, List.sum_cons, List.sum_cons,
      h _ _ (List.mem_cons_self _ _) hab,
      ih (fun a' b' ha' => h a' b' (List.mem_cons_of_mem _ ha'))]

/-- At the zero vector, with no motion and no deformation shift, the values
particle `p` adds to the cost are `-paddingFactor` times the correlation values
at the centre pixel of its frames. -/
theorem particleValues_zero_vector (E : Externals β) (M : ModularAlignment β)
    (x : List β) (Ps : List (FrameProjections β)) (c : V3 β) (p : Nat)
    (V : Fits M x) (hPl : Ps.length = M.fc.toNat)
    (hx0 : ∀ v ∈ x, v = 0)
    (hQ : E.anglesToMatrix4 0 0 0 = M4.identity)
    (hplus : M.plusCentre = M4.translation c)
    (hminus : M.minusCentre = M4.translation ⟨-c.x, -c.y, -c.z⟩)
    (hupd : ∀ co q s, M.motionModel.updatePosition co q s = s)
    (hdef : ∀ pl co, (M.deformationModel2D.computeShiftAndGradient pl co).1 = ⟨0, 0⟩)
    (hPs : buildProjections E M x = some Ps) (hp : (p : Int) < M.pc) :
    ∃ Ls, particleLocals E M x Ps p = some Ls
      ∧ List.Forall₂ (fun (f : Nat) L =>
          L.dx_img = (M.maxRange : β) * M.paddingFactor
          ∧ L.dy_img = (M.maxRange : β) * M.paddingFactor
          ∧ L.g0.z = -M.paddingFactor * centreValue E M p f)
          (List.range M.fc.toNat) Ls
      ∧ colOf (particleValues E M x Ps p) 0
        = ((List.range M.fc.toNat).map
            (fun f => -M.paddingFactor * centreValue E M p f)).sum := by
  obtain ⟨Ls, hLs⟩ := particleLocals_isSome E M x Ps p V hPl hp
  have hpc := V.ccs_eq
  obtain ⟨cc, hcc⟩ := getI_isSome M.CCs (p : Int) (by omega) (by omega)
  have hLs' := hLs
  simp only [particleLocals, Option.bind_eq_bind, Option.bind_eq_some] at hLs'
  obtain ⟨s, hs, hl⟩ := hLs'
  have hs0 := initialShift_zero_vector M x p hx0 s hs
  subst hs0
  have hF := localsFrom_no_motion E M x Ps p hupd V3.zero _ Ls hl
  have hF2 : List.Forall₂ (fun (f : Nat) L =>
      L.dx_img = (M.maxRange : β) * M.paddingFactor
      ∧ L.dy_img = (M.maxRange : β) * M.paddingFactor
      ∧ L.g0.z = -M.paddingFactor * centreValue E M p f) (List.range M.fc.toNat) Ls := by
    rw [List.forall₂_iff_get] at hF ⊢
    refine ⟨hF.1, ?_⟩
    intro i h1 h2
    have hi : ((List.range M.fc.toNat).get ⟨i, h1⟩ : Int) < M.fc := by
      have := List.mem_range.mp (List.get_mem _ i h1)
      omega
    obtain ⟨e1, e2, e3⟩ := frameLocals_zero_vector E M x Ps c p _ _ cc hx0 hQ hplus hminus
      hdef hPs hi hcc (hF.2 i h1 h2)
    refine ⟨e1, e2, ?_⟩
    rw [e3]
    simp only [centreValue, hcc, V3.smul]
  refine ⟨Ls, hLs, hF2, ?_⟩
  simp only [particleValues, hLs]
  rw [colOf_values]
  exact forall₂_sum _ _ _ _ _ hF2 (fun a b _ h => h.2.2)

/-- At the zero vector, with no motion, no prior and no deformation shift, the
cost is `-paddingFactor` times the sum of the correlation values at the centre
pixels. -/
theorem costOf_zero_vector (E : Externals β) (M : ModularAlignment β)
    (x : List β) (Ps : List (FrameProjections β)) (c : V3 β)
    (V : Fits M x) (hPl : Ps.length = M.fc.toNat)
    (hx0 : ∀ v ∈ x, v = 0)
    (hQ : E.anglesToMatrix4 0 0 0 = M4.identity)
    (hplus : M.plusCentre = M4.translation c)
    (hminus : M.minusCentre = M4.translation ⟨-c.x, -c.y, -c.z⟩)
    (hupd : ∀ co q s, M.motionModel.updatePosition co q s = s)
    (hprior : ∀ co n, (M.motionModel.computePriorCostAndGradient co n).1 = 0)
    (hdef : ∀ pl co, (M.deformationModel2D.computeShiftAndGradient pl co).1 = ⟨0, 0⟩)
    (hPs : buildProjections E M x = some Ps) :
    costOf E M x Ps = -M.paddingFactor * ((List.range M.pc.toNat).map (fun p =>
      ((List.range M.fc.toNat).map (fun f => centreValue E M p f)).sum)).sum := by
  have hv : ((List.range M.pc.toNat).map
        (fun p => colOf (particleValues E M x Ps p) 0)).sum
      = -M.paddingFactor * ((List.range M.pc.toNat).map (fun p =>
          ((List.range M.fc.toNat).map (fun f => centreValue E M p f)).sum)).sum := by
    rw [← List.sum_map_mul_left]
    congr 1
    apply List.map_congr_left
    intro p hp
    rw [List.mem_range] at hp
    obtain ⟨Ls, -, -, e⟩ := particleValues_zero_vector E M x Ps c p V hPl hx0 hQ hplus
      hminus hupd hdef hPs (by omega)
    rw [e, List.sum_map_mul_left]
  unfold costOf
  simp only [hv, hprior, add_zero, ite_self]

/-- C9 (as amended): with a motion model that does not move the shift and has
zero prior, a deformation model that does not shift, and any pose flags,
evaluating `gradAndValue` at the all-zero vector samples every particle `p` in
every frame `f` at the pixel `(maxRange*paddingFactor, maxRange*paddingFactor, f)`
of `CCs[p]`; with `paddingFactor = 1` the returned cost is the negated sum, over
all particles and frames, of the correlation value sampled there (exact
arithmetic, the rotation of zero angles being the identity). -/
theorem gradAndValue_zero_vector [BEq β] [LawfulBEq β] (E : Externals β)
    (M : ModularAlignment β) (sched : List (Nat × Nat)) (x gradDest : List β)
    (c : V3 β) (V : Valid M x) (hs : ValidSchedule M sched)
    (hgd : gradDest.length = x.length)
    (hx0 : ∀ v ∈ x, v = 0)
    (hQ : E.anglesToMatrix4 0 0 0 = M4.identity)
    (hplus : M.plusCentre = M4.translation c)
    (hminus : M.minusCentre = M4.translation ⟨-c.x, -c.y, -c.z⟩)
    (hupd : ∀ co q s, M.motionModel.updatePosition co q s = s)
    (hprior : ∀ co n, (M.motionModel.computePriorCostAndGradient co n).1 = 0)
    (hdef : ∀ pl co, (M.deformationModel2D.computeShiftAndGradient pl co).1 = ⟨0, 0⟩) :
    (∀ Ps, buildProjections E M x = some Ps → ∀ p : Nat, (p : Int) < M.pc →
      ∃ Ls, particleLocals E M x Ps p = some Ls
        ∧ List.Forall₂ (fun (_ : Nat) (L : FrameLocals β) =>
            L.dx_img = (M.maxRange : β) * M.paddingFactor
            ∧ L.dy_img = (M.maxRange : β) * M.paddingFactor)
          (List.range M.fc.toNat) Ls)
    ∧ (M.paddingFactor = 1 →
        ∃ grad, gradAndValue E M sched x gradDest
          = some (-((List.range M.pc.toNat).map (fun p =>
              ((List.range M.fc.toNat).map (fun f => centreValue E M p f)).sum)).sum,
            grad)) := by
  obtain ⟨e, Ps, hPs, hPl, hspec⟩ := gradAndValue_eq_spec E M sched x gradDest V.fits hs hgd
  constructor
  · intro Ps' hPs' p hp
    rw [hPs] at hPs'
    have ePs := Option.some.inj hPs'
    subst ePs
    obtain ⟨Ls, hLs, hF, -⟩ := particleValues_zero_vector E M x Ps c p V.fits hPl hx0 hQ hplus
      hminus hupd hdef hPs hp
    exact ⟨Ls, hLs, hF.imp (fun _ _ h => ⟨h.1, h.2.1⟩)⟩
  · intro hpf
    refine ⟨gradOf E M x Ps, ?_⟩
    rw [e, hspec, costOf_zero_vector E M x Ps c V.fits hPl hx0 hQ hplus hminus hupd hprior hdef
      hPs, hpf, neg_one_mul]

/-- Witness of C9 (as amended): the specification's scenario at the zero
vector. -/
theorem gradAndValue_zero_vector_witness :
    (ValidSchedule Scenario.threeFrames (sequentialSchedule Scenario.threeFrames)
      ∧ (∀ v ∈ Scenario.zero16, v = 0)
      ∧ Scenario.threeFrames.paddingFactor = 1)
    ∧ ∃ grad, gradAndValue Scenario.externals Scenario.threeFrames
          (sequentialSchedule Scenario.threeFrames) Scenario.zero16 Scenario.zero16
        = some (-((List.range Scenario.threeFrames.pc.toNat).map (fun p =>
            ((List.range Scenario.threeFrames.fc.toNat).map (fun f =>
              centreValue Scenario.externals Scenario.threeFrames p f)).sum)).sum,
          grad) :=
  ⟨⟨sequentialSchedule_valid _ (by decide), by decide, rfl⟩,
   (gradAndValue_zero_vector Scenario.externals Scenario.threeFrames
      (sequentialSchedule Scenario.threeFrames) Scenario.zero16 Scenario.zero16
      ⟨5, 5, 5⟩ (scenario_valid Scenario.zero16 rfl)
      (sequentialSchedule_valid _ (by decide)) rfl (by decide) rfl rfl rfl
      (fun _ _ _ => rfl) (fun _ _ => rfl) (fun _ _ => rfl)).2 rfl⟩

set_option maxRecDepth 100000 in
/-- Counterexample to C9 as stated: in the specification's scenario (padding
factor 1, correlation value `px` at pixel `(px, py, f)`, so 4 at the centre
pixel `(4, 4, f)`), the sum of the six sampled correlation values is 24, but the
cost `gradAndValue` returns at the zero vector is -24. -/
theorem gradAndValue_zero_vector_not_sum :
    ((List.range Scenario.threeFrames.pc.toNat).map (fun p =>
        ((List.range Scenario.threeFrames.fc.toNat).map (fun f =>
          centreValue Scenario.externals Scenario.threeFrames p f)).sum)).sum = 24
    ∧ (gradAndValue Scenario.externals Scenario.threeFrames
          (sequentialSchedule Scenario.threeFrames) Scenario.zero16 Scenario.zero16).map
        Prod.fst = some (-24) :=
  ⟨by decide, by decide⟩

end ZeroVector

/-! ## The gradient and the cost -/

set_option maxRecDepth 100000 in
/-- C1, evaluated at a failing input.  In the scenario `padded` (padding factor
2, correlation value `px` with image gradient `(1, 0)`, all other parameters
zero) the cost as a function of the translation `dx` of frame 1 takes the values
-20, -24, -28 at `dx = -1, 0, 1`: it is affine with slope -4, and its centred
difference quotient is -4.  The gradient entry `gradAndValue` writes for `dx` is
-2 at each of these points. -/
theorem gradient_differs_from_derivative :
    gradAndValue Scenario.externals Scenario.padded (sequentialSchedule Scenario.padded)
        [-1, 0, 0, 0, 0] [0, 0, 0, 0, 0] = some (-20, [-2, 0, 0, 0, 0])
    ∧ gradAndValue Scenario.externals Scenario.padded (sequentialSchedule Scenario.padded)
        [0, 0, 0, 0, 0] [0, 0, 0, 0, 0] = some (-24, [-2, 0, 0, 0, 0])
    ∧ gradAndValue Scenario.externals Scenario.padded (sequentialSchedule Scenario.padded)
        [1, 0, 0, 0, 0] [0, 0, 0, 0, 0] = some (-28, [-2, 0, 0, 0, 0])
    ∧ ((-28 : ℤ) - (-20)) / 2 = -4 :=
  ⟨by decide, by decide, by decide, by decide⟩

/-! ## The documented layout -/

/-- C15 (as amended): the accessors compute the layout of the header's
"Parameter Layout" comment with `fs*(fc-1)` in place of the comment's `fs*fc`,
frame 0 having no parameters: the static particle-shift block begins at
`fs*fc - fs`, the motion block at `fs*fc + 3*pc - fs`, and `getParamCount()` is
`fs*fc + 3*pc + mpc*(fc-1) + dc*(fc when per-frame, else 1) - fs`.  The
accessors agree with the comment exactly when `fs = 0`, that is when angles and
shifts are both constant. -/
theorem documented_layout (M : ModularAlignment β) :
    getPositionsBlockOffset M (getFrameStride M)
      = getFrameStride M * M.fc - getFrameStride M
    ∧ getMotionBlockOffset M (getFrameStride M)
      = getFrameStride M * M.fc + 3 * M.pc - getFrameStride M
    ∧ getParamCount M
      = getFrameStride M * M.fc + 3 * M.pc + M.mpc * (M.fc - 1)
        + M.dc * (if M.settings.perFrame2DDeformation then M.fc else 1)
        - getFrameStride M
    ∧ (getPositionsBlockOffset M (getFrameStride M) = getFrameStride M * M.fc
        ↔ getFrameStride M = 0)
    ∧ (getFrameStride M = 0
        ↔ M.settings.constAngles = true ∧ M.settings.constShifts = true) := by
  refine ⟨?_, ?_, ?_, ?_, ?_⟩
  · simp only [getPositionsBlockOffset]; ring
  · simp only [getMotionBlockOffset]; ring
  · unfold getParamCount
    cases M.settings.perFrame2DDeformation <;> simp <;> ring
  · simp only [getPositionsBlockOffset]
    constructor
    · intro h
      have : getFrameStride M * (M.fc - 1) = getFrameStride M * M.fc - getFrameStride M := by
        ring
      omega
    · intro h
      rw [h]; ring
  · rw [getFrameStride_cases]
    cases M.settings.constAngles <;> cases M.settings.constShifts <;> simp

/-- Counterexample to C15 as stated: in the specification's scenario (`fs = 5`,
`fc = 3`, `pc = 2`) the comment puts the particle-shift block at `fs*fc = 15`,
the motion block at 21 and the total at 21, while the accessors give 10, 16 and
16. -/
theorem documented_layout_differs :
    getFrameStride Scenario.threeFrames * Scenario.threeFrames.fc = 15
    ∧ getPositionsBlockOffset Scenario.threeFrames (getFrameStride Scenario.threeFrames)
        = 10
    ∧ getFrameStride Scenario.threeFrames * Scenario.threeFrames.fc
        + 3 * Scenario.threeFrames.pc = 21
    ∧ getMotionBlockOffset Scenario.threeFrames (getFrameStride Scenario.threeFrames)
        = 16
    ∧ getParamCount Scenario.threeFrames = 16 :=
  ⟨by decide, by decide, by decide, by decide, by decide⟩

/-! ## What the guard rejects -/

theorem beq_self_of_ne_nan (v : Dbl) (h : v ≠ Dbl.nan) : (v == v) = true := by
  cases v with
  | nan => exact absurd rfl h
  | posInf => rfl
  | negInf => rfl
  | fin q => exact decide_eq_true rfl

/-- C13 (as amended): for every parameter vector `x` in which at least one
coordinate is NaN, the guard of `gradAndValue` fires and `gradAndValue` returns
the sentinel `std::numeric_limits<double>::max()` from it, before any projection
is built (whatever the configuration is, `gradDest` left as it was); a vector
without NaN passes the guard, also when it has coordinates `+infinity` or
`-infinity`, since the guard is the test `!(x[i] == x[i])`. -/
theorem gradAndValue_guard (E : Externals Dbl) (M : ModularAlignment Dbl)
    (sched : List (Nat × Nat)) (x gradDest : List Dbl) :
    (Dbl.nan ∈ x →
      nanGuard x = true
      ∧ gradAndValue E M sched x gradDest
          = some (Dbl.fin ((2 ^ 53 - 1) * 2 ^ 971), gradDest))
    ∧ (Dbl.nan ∉ x → nanGuard x = false) := by
  constructor
  · intro h
    have hg : nanGuard x = true := by
      unfold nanGuard
      rw [List.any_eq_true]
      exact ⟨Dbl.nan, h, rfl⟩
    have hm : (dblMax : Dbl) = Dbl.fin ((2 ^ 53 - 1) * 2 ^ 971) := by
      show Dbl.fin _ = Dbl.fin _
      congr 1
      norm_num
    refine ⟨hg, ?_⟩
    unfold gradAndValue
    simp only [hg, if_true, hm]
  · intro h
    unfold nanGuard
    rw [List.any_eq_false]
    intro v hv
    have : v ≠ Dbl.nan := fun e => h (e ▸ hv)
    simp [beq_self_of_ne_nan v this]

/-- Witness of C13 (as amended): a vector with an infinity and a NaN is
rejected, a vector with the two infinities passes the guard. -/
theorem gradAndValue_guard_witness :
    (Dbl.nan ∈ [Dbl.posInf, Dbl.nan] ∧ Dbl.nan ∉ [Dbl.posInf, Dbl.negInf])
    ∧ gradAndValue Scenario.externalsDbl Scenario.oneFrame [] [Dbl.posInf, Dbl.nan]
        [Dbl.fin 7, Dbl.fin 8]
      = some (Dbl.fin ((2 ^ 53 - 1) * 2 ^ 971), [Dbl.fin 7, Dbl.fin 8])
    ∧ nanGuard [Dbl.posInf, Dbl.negInf] = false :=
  ⟨⟨by simp, by simp⟩,
   ((gradAndValue_guard Scenario.externalsDbl Scenario.oneFrame [] [Dbl.posInf, Dbl.nan]
      [Dbl.fin 7, Dbl.fin 8]).1 (by simp)).2,
   (gradAndValue_guard Scenario.externalsDbl Scenario.oneFrame [] [Dbl.posInf, Dbl.negInf]
      []).2 (by simp)⟩

set_option maxRecDepth 100000 in
/-- Counterexample to C13 as stated: with one frame, no particle and one
deformation coefficient (`getParamCount() = 1`), the vectors `x = (+infinity)`
and `x = (-infinity)` have a coordinate that is not finite, and `gradAndValue`
returns the cost `0` and the gradient `(0)`, not the sentinel. -/
theorem gradAndValue_infinite :
    getParamCount Scenario.oneFrame = 1
    ∧ gradAndValue Scenario.externalsDbl Scenario.oneFrame [] [Dbl.posInf] [Dbl.fin 7]
        = some (Dbl.fin 0, [Dbl.fin 0])
    ∧ gradAndValue Scenario.externalsDbl Scenario.oneFrame [] [Dbl.negInf] [Dbl.fin 7]
        = some (Dbl.fin 0, [Dbl.fin 0]) := by
  refine ⟨by decide, ?_, ?_⟩
  · have h : gradAndValue Scenario.externalsDbl Scenario.oneFrame [] [Dbl.posInf]
        [Dbl.fin 7] = some (Dbl.fin (0 + 0), [Dbl.fin (0 + 0)]) := by rfl
    rw [h, add_zero]
  · have h : gradAndValue Scenario.externalsDbl Scenario.oneFrame [] [Dbl.negInf]
        [Dbl.fin 7] = some (Dbl.fin (0 + 0), [Dbl.fin (0 + 0)]) := by rfl
    rw [h, add_zero]

/-! ## The length of the parameter vector -/

/-- The specification's scenario satisfies the contract with every vector of at
least 16 entries. -/
theorem scenario_fits (x : List ℤ) (hx : 16 ≤ x.length) :
    Fits Scenario.threeFrames x :=
  ⟨by decide, by decide, by decide, by decide, by decide, by decide, by decide,
    by
      have h : getParamCount Scenario.threeFrames = 16 := by decide
      rw [h]
      exact_mod_cast hx,
    fun _ _ _ => le_refl (0 : Int), fun _ _ _ => le_refl (0 : Int),
    fun _ _ => le_refl (0 : Int)⟩

/-- C14 (as amended): `gradAndValue` does not check the length of `x`.  For
every NaN-free `x` that has at least `getParamCount()` entries (exactly as many
or more), every execution of the parallel loop and models whose accumulators
stay inside their block, it returns a cost and writes a gradient with as many
entries as `x` has (exact arithmetic). -/
theorem gradAndValue_no_length_check [CommRing β] [BEq β] [LawfulBEq β]
    (E : Externals β) (M : ModularAlignment β) (sched : List (Nat × Nat))
    (x gradDest : List β) (V : Fits M x) (hs : ValidSchedule M sched)
    (hgd : gradDest.length = x.length) :
    ∃ cost grad, gradAndValue E M sched x gradDest = some (cost, grad)
      ∧ grad.length = x.length := by
  obtain ⟨h, Ps, -, -, hspec⟩ := gradAndValue_eq_spec E M sched x gradDest V hs hgd
  refine ⟨costOf E M x Ps, gradOf E M x Ps, h.trans hspec, ?_⟩
  simp [gradOf]

/-- Witness of C14 (as amended): the specification's scenario with a vector of
17 entries. -/
theorem gradAndValue_no_length_check_witness :
    (Fits Scenario.threeFrames (Scenario.x16 ++ [17])
      ∧ ValidSchedule Scenario.threeFrames [(0, 0), (1, 0)]
      ∧ (List.replicate 17 (0 : ℤ)).length = (Scenario.x16 ++ [17]).length)
    ∧ ∃ cost grad, gradAndValue Scenario.externals Scenario.threeFrames [(0, 0), (1, 0)]
          (Scenario.x16 ++ [17]) (List.replicate 17 0) = some (cost, grad)
        ∧ grad.length = (Scenario.x16 ++ [17]).length :=
  ⟨⟨scenario_fits _ (by decide), ⟨by decide, by decide⟩, rfl⟩,
   gradAndValue_no_length_check Scenario.externals Scenario.threeFrames [(0, 0), (1, 0)]
     (Scenario.x16 ++ [17]) (List.replicate 17 0) (scenario_fits _ (by decide))
     ⟨by decide, by decide⟩ rfl⟩

set_option maxRecDepth 100000 in
/-- Counterexample to C14 as stated: in the specification's scenario
(`getParamCount() = 16`) the vector `(1, ..., 17)` of 17 entries is accepted,
`gradAndValue` returns the cost `-125` and writes 17 gradient entries; in the
scenario `padded` (`getParamCount() = 5`, constant particles, so that only
`x[0]` and `x[1]` are read) the vector `(1, 2)` of 2 entries is accepted as
well. -/
theorem gradAndValue_wrong_length :
    getParamCount Scenario.threeFrames = 16
    ∧ gradAndValue Scenario.externals Scenario.threeFrames [(0, 0), (1, 0)]
        (Scenario.x16 ++ [17]) [9, 9, 9, 9, 9, 9, 9, 9, 9, 9, 9, 9, 9, 9, 9, 9, 9]
      = some (-125, [0, 0, 0, -2, 0, 0, 0, 0, -2, 0, -3, 0, 0, -3, 0, 0, 0])
    ∧ getParamCount Scenario.padded = 5
    ∧ gradAndValue Scenario.externals Scenario.padded [(0, 0)] [1, 2] [9, 9]
      = some (-28, [-2, 0]) := by
  decide

/-! ## The indices read and written -/

section Indices

variable [CommRing β]

/-- The writes of the pose block of frame `f > 0`, component by component. -/
theorem poseList_components (M : ModularAlignment β) (f : Nat) (L : FrameLocals β)
    (hf : 0 < f) :
    poseList M f L
      = (if M.settings.constAngles then []
          else [(getFrameStride M * ((f : Int) - 1),
                  L.pl_phi.x * L.g.x + L.pl_phi.y * L.g.y),
                (getFrameStride M * ((f : Int) - 1) + 1,
                  L.pl_theta.x * L.g.x + L.pl_theta.y * L.g.y),
                (getFrameStride M * ((f : Int) - 1) + 2,
                  L.pl_psi.x * L.g.x + L.pl_psi.y * L.g.y)])
        ++ (if M.settings.constShifts then []
            else [((if M.settings.constAngles then getFrameStride M * ((f : Int) - 1)
                      else getFrameStride M * ((f : Int) - 1) + 3), L.g.x),
                  ((if M.settings.constAngles then getFrameStride M * ((f : Int) - 1)
                      else getFrameStride M * ((f : Int) - 1) + 3) + 1, L.g.y)]) := by
  have hf' : f > 0 := hf
  unfold poseList
  cases hA : M.settings.constAngles <;> cases hS : M.settings.constShifts <;>
    simp [hf', add_assoc]

omit [CommRing β] in
/-- Two entries of the pose block that have the same index belong to the same
frame and are the same entry of it. -/
theorem pose_index_inj (fs a b i j : Int) (hi0 : 0 ≤ i) (hi : i < fs) (hj0 : 0 ≤ j)
    (hj : j < fs) (h : fs * a + i = fs * b + j) : a = b ∧ i = j := by
  have hd : fs ∣ (j - i) := ⟨a - b, by linear_combination -h⟩
  have habs : |j - i| < fs := by
    rw [abs_lt]
    constructor <;> omega
  have hz : j - i = 0 := Int.eq_zero_of_abs_lt_dvd hd habs
  have hij : i = j := by omega
  refine ⟨?_, hij⟩
  have hfs : fs ≠ 0 := by omega
  have h2 : fs * a = fs * b := by omega
  exact mul_left_cancel₀ hfs h2


/-- C11: for every combination of `constAngles` and `constShifts`, every frame
`f` with `1 ≤ f ≤ fc-1` and every particle `p < pc` (`x` of length
`getParamCount()`, scratch vectors with room for the row of thread `th`):
`readViewParams` reads `phi, theta, psi` of frame `f` from `x[o], x[o+1], x[o+2]`
and `dx, dy` from `x[o'], x[o'+1]`, where `o = fs*(f-1)` and `o'` is `o` with
constant angles and `o+3` otherwise, and the particle loop reads the offset of
particle `p` from `x[pos_block + 3*p + k]`; the iteration of the frame loop
returns and adds to the row of `grad_par` the derivative for each enabled pose
component at the column it is read from and the position derivative at the
columns `pos_block + 3*p + k`, besides the writes of the deformation model,
which are at columns from `pos_block + 3*pc` on.  The columns of the enabled
components are pairwise different, the pose columns of frame `f` are
`o .. o+fs-1`, inside `[0, pos_block)`, and no entry of another frame or of
another particle has one of these columns. -/
theorem gradient_indices_agree [BEq β] [LawfulBEq β] (E : Externals β)
    (M : ModularAlignment β) (x : List β) (Ps : List (FrameProjections β))
    (p th f : Nat) (s : V3 β) (B : Buffers β) (V : Valid M x)
    (hPs : Ps.length = M.fc.toNat)
    (hf1 : 1 ≤ f) (hf : (f : Int) ≤ M.fc - 1) (hp : (p : Int) < M.pc)
    (hG : (th : Int) * ((x.length : Int) + 512) + ((x.length : Int) + 512)
      ≤ B.grad_par.length)
    (hV : (th : Int) * 512 < B.val_par.length)
    (hD : (th : Int) * (M.fc + 512) + (M.fc + 512) ≤ B.dC_dPos.length) :
    let fs := getFrameStride M
    let o := fs * ((f : Int) - 1)
    let o' := if M.settings.constAngles then o else o + 3
    let pos_block := getPositionsBlockOffset M fs
    -- the reads of `readViewParams`
    (∃ v : ViewParams β, readViewParams M x f = some v
      ∧ (M.settings.constAngles = false →
          getI x o = some v.phi ∧ getI x (o + 1) = some v.theta
          ∧ getI x (o + 2) = some v.psi)
      ∧ (M.settings.constShifts = false →
          getI x o' = some v.dx ∧ getI x (o' + 1) = some v.dy))
    -- the reads of the particle's offset
    ∧ (M.settings.constParticles = false →
        ∃ sh : V3 β, initialShift M x p = some sh
          ∧ getI x (pos_block + 3 * p) = some sh.x
          ∧ getI x (pos_block + 3 * p + 1) = some sh.y
          ∧ getI x (pos_block + 3 * p + 2) = some sh.z)
    -- the writes of the frame loop
    ∧ (∃ L B', frameLocals E M x Ps p f s = some L
        ∧ frameBody E M x Ps p th (s, B) f = some (nextShift M x p f s, B')
        ∧ Adds B.grad_par B'.grad_par ((th : Int) * ((x.length : Int) + 512))
            (window L.def_block_f
                (M.deformationModel2D.updateCostGradient L.pl L.g0.xy
                  (ptrI x L.def_block_f))
              ++ ((if M.settings.constAngles then []
                    else [(o, L.pl_phi.x * L.g.x + L.pl_phi.y * L.g.y),
                          (o + 1, L.pl_theta.x * L.g.x + L.pl_theta.y * L.g.y),
                          (o + 2, L.pl_psi.x * L.g.x + L.pl_psi.y * L.g.y)])
                  ++ (if M.settings.constShifts then []
                      else [(o', L.g.x), (o' + 1, L.g.y)]))
              ++ (if M.settings.constParticles then []
                  else [(pos_block + 3 * p, (dC_dPos_f L).x),
                        (pos_block + 3 * p + 1, (dC_dPos_f L).y),
                        (pos_block + 3 * p + 2, (dC_dPos_f L).z)]))
        ∧ ∀ w ∈ window L.def_block_f
              (M.deformationModel2D.updateCostGradient L.pl L.g0.xy
                (ptrI x L.def_block_f)),
            pos_block + 3 * M.pc ≤ w.1)
    -- the indices are those of different entries
    ∧ (((if M.settings.constAngles then [] else [o, o + 1, o + 2])
          ++ (if M.settings.constShifts then [] else [o', o' + 1])
          ++ (if M.settings.constParticles then []
              else [pos_block + 3 * p, pos_block + 3 * p + 1, pos_block + 3 * p + 2])).Nodup
        ∧ (if M.settings.constShifts then o' else o' + 2) = o + fs
        ∧ 0 ≤ o ∧ o + fs ≤ pos_block
        ∧ pos_block + 3 * p + 3 ≤ pos_block + 3 * M.pc
        ∧ (∀ (f2 : Nat) (i j : Int), 0 ≤ i → i < fs → 0 ≤ j → j < fs →
            o + i = fs * ((f2 : Int) - 1) + j → f = f2 ∧ i = j)
        ∧ (∀ (p2 : Nat) (i j : Int), 0 ≤ i → i < 3 → 0 ≤ j → j < 3 →
            pos_block + 3 * p + i = pos_block + 3 * p2 + j → p = p2 ∧ i = j)) := by
  intro fs o o' pos_block
  have F := V.fits
  obtain ⟨hfs, hpos, hmot, hdef, hlm, hdefx, hpose, hdefw⟩ := F.layout
  have hflt : (f : Int) < M.fc := by omega
  have ho : o = fs * (f : Int) - fs := by
    show getFrameStride M * ((f : Int) - 1) = getFrameStride M * (f : Int) - getFrameStride M
    ring
  have hpf := hpose f hflt
  have hf0 : (0 : Int) ≤ fs * ((f : Int) - 1) :=
    mul_nonneg hfs (by omega)
  refine ⟨?_, ?_, ?_, ?_⟩
  · obtain ⟨v, hv, -, hA, -, hS, -⟩ := readViewParams_describe M x (f : Int)
      (by exact_mod_cast hf1) hf F.pc_nonneg F.mpc_nonneg F.dc_nonneg F.x_len
    simp only [mul_comm ((f : Int) - 1) (getFrameStride M)] at hA hS
    exact ⟨v, hv, hA, hS⟩
  · intro hc
    obtain ⟨-, -, a, b, c, ha, hb, hc'⟩ := position_reads M x p hp F.fc_pos F.mpc_nonneg
      F.dc_nonneg F.x_len
    refine ⟨⟨a, b, c⟩, ?_, ha, hb, hc'⟩
    simp only [initialShift, hc, Bool.false_eq_true, if_false, ha, hb, hc',
      Option.bind_eq_bind, Option.some_bind]
  · obtain ⟨L, hL⟩ := frameLocals_isSome E M x Ps p f s F hPs hp hflt
    obtain ⟨B', hB', hA, -⟩ := frameBody_step E M x Ps p th f s B L F hp hflt hL hG hV hD
    refine ⟨L, B', hL, hB', ?_, ?_⟩
    · have hpl := poseList_components M f L (by omega)
      have hposl : positionList M p L
          = (if M.settings.constParticles then []
              else [(pos_block + 3 * p, (dC_dPos_f L).x),
                    (pos_block + 3 * p + 1, (dC_dPos_f L).y),
                    (pos_block + 3 * p + 2, (dC_dPos_f L).z)]) := by
        unfold positionList
        cases M.settings.constParticles <;> simp [pos_block, fs]
      unfold frameWriteList at hA
      rw [hpl, hposl] at hA
      exact hA
    · intro w hw
      have h1 := (window_cols _ _ w hw).1
      have h2 := frameLocals_def_block E M x Ps p f s L hL
      have h3 : (0 : Int) ≤ (if M.settings.perFrame2DDeformation then (f : Int) * M.dc else 0) := by
        split
        · exact mul_nonneg (by omega) F.dc_nonneg
        · exact le_refl _
      show getPositionsBlockOffset M (getFrameStride M) + 3 * M.pc ≤ w.1
      omega
  · have hcases := getFrameStride_cases M
    have hfs' : fs = getFrameStride M := rfl
    have hpb : getFrameStride M * (f : Int) ≤ pos_block := hpf
    refine ⟨?_, ?_, hf0, ?_, by omega, ?_, ?_⟩
    · rw [← hfs'] at hcases hpb
      cases hA : M.settings.constAngles <;> cases hS : M.settings.constShifts <;>
        cases hC : M.settings.constParticles <;>
        simp [o', hA, hS, hC] at hcases ⊢ <;> omega
    · rw [← hfs'] at hcases
      cases hA : M.settings.constAngles <;> cases hS : M.settings.constShifts <;>
        simp [o', hA, hS] at hcases ⊢ <;> omega
    · rw [← hfs'] at hpb
      omega
    · intro f2 i j hi0 hi hj0 hj h
      have := pose_index_inj fs ((f : Int) - 1) ((f2 : Int) - 1) i j hi0 hi hj0 hj h
      constructor
      · have := this.1
        omega
      · exact this.2
    · intro p2 i j hi0 hi hj0 hj h
      constructor <;> omega

end Indices

set_option maxRecDepth 100000 in
/-- Witness of C11: frame 2 and particle 1 of the specification's scenario;
`phi` of frame 2 is entry 5 of `x`, `dx` of frame 2 is entry 8. -/
theorem gradient_indices_agree_witness :
    (Valid Scenario.threeFrames Scenario.x16
      ∧ (List.replicate 3 (⟨M4.identity, M4.identity, M4.identity, M4.identity⟩ :
            FrameProjections ℤ)).length = Scenario.threeFrames.fc.toNat
      ∧ 1 ≤ 2 ∧ ((2 : Nat) : Int) ≤ Scenario.threeFrames.fc - 1
      ∧ ((1 : Nat) : Int) < Scenario.threeFrames.pc)
    ∧ ∃ v : ViewParams ℤ, readViewParams Scenario.threeFrames Scenario.x16 2 = some v
        ∧ getI Scenario.x16 5 = some v.phi ∧ getI Scenario.x16 8 = some v.dx :=
  ⟨⟨scenario_valid Scenario.x16 rfl, rfl, by decide, by decide, by decide⟩,
   (gradient_indices_agree Scenario.externals Scenario.threeFrames Scenario.x16
      (List.replicate 3 ⟨M4.identity, M4.identity, M4.identity, M4.identity⟩) 1 0 2
      ⟨0, 0, 0⟩ ⟨List.replicate 528 0, List.replicate 512 0, List.replicate 515 ⟨0, 0, 0⟩⟩
      (scenario_valid Scenario.x16 rfl) rfl (by decide) (by decide) (by decide)
      (by rw [List.length_replicate]; decide) (by rw [List.length_replicate]; decide)
      (by rw [List.length_replicate]; decide)).1.imp
    (fun _ h => ⟨h.1, (h.2.1 rfl).1, (h.2.2 rfl).1⟩)⟩

/-! ## Constant particles -/

section ConstParticles

variable [CommRing β]

/-! With constant particles the motion model is not consulted. -/

theorem frameBody_motionModel (E : Externals β) (M : ModularAlignment β)
    (mm : MotionModel β) (x : List β) (Ps : List (FrameProjections β)) (p th : Nat)
    (hc : M.settings.constParticles = true) :
    frameBody E { M with motionModel := mm } x Ps p th = frameBody E M x Ps p th := by
  funext s f
  have e : frameLocals E { M with motionModel := mm } x Ps p f s.1
      = frameLocals E M x Ps p f s.1 := rfl
  have ep : ∀ (L : FrameLocals β) (g : List β) (row : Int),
      poseWrites { M with motionModel := mm } row f L g = poseWrites M row f L g :=
    fun _ _ _ => rfl
  simp only [frameBody, hc, e, ep, Bool.not_true, Bool.false_eq_true, if_false]

theorem particleBody_motionModel (E : Externals β) (M : ModularAlignment β)
    (mm : MotionModel β) (x : List β) (Ps : List (FrameProjections β))
    (hc : M.settings.constParticles = true) :
    particleBody E { M with motionModel := mm } x Ps = particleBody E M x Ps := by
  funext B pt
  have e : initialShift { M with motionModel := mm } x pt.1 = initialShift M x pt.1 := rfl
  simp only [particleBody, hc, e, frameBody_motionModel E M mm x Ps _ _ hc, Bool.not_true,
    Bool.false_eq_true, if_false]

theorem gradAndValue_motionModel [BEq β] (E : Externals β) (M : ModularAlignment β)
    (mm : MotionModel β) (sched : List (Nat × Nat)) (x gradDest : List β)
    (hc : M.settings.constParticles = true) :
    gradAndValue E { M with motionModel := mm } sched x gradDest
      = gradAndValue E M sched x gradDest := by
  have e : buildProjections E { M with motionModel := mm } x = buildProjections E M x := by
    unfold buildProjections
    rfl
  simp only [gradAndValue, hc, e, particleBody_motionModel E M mm x _ hc, Bool.not_true,
    Bool.false_eq_true, if_false]

theorem frameWriteList_cols_const (E : Externals β) (M : ModularAlignment β)
    (x : List β) (Ps : List (FrameProjections β)) (p f : Nat) (s : V3 β)
    (L : FrameLocals β) (V : Fits M x) (hc : M.settings.constParticles = true)
    (hf : (f : Int) < M.fc) (hL : frameLocals E M x Ps p f s = some L) :
    ∀ w ∈ frameWriteList M x p f L,
      w.1 < getPositionsBlockOffset M (getFrameStride M)
      ∨ get2DDeformationsBlockOffset M (getFrameStride M) ≤ w.1 := by
  obtain ⟨hfs, hpos, hmot, hdef, hlm, hdefx, hpose, hdefw⟩ := V.layout
  have hdb := frameLocals_def_block E M x Ps p f s L hL
  have h3 : (0 : Int) ≤ (if M.settings.perFrame2DDeformation then (f : Int) * M.dc else 0) := by
    split
    · exact mul_nonneg (by omega) V.dc_nonneg
    · exact le_refl _
  intro w hw
  simp only [frameWriteList, List.mem_append] at hw
  rcases hw with (hw | hw) | hw
  · have := (window_cols _ _ w hw).1
    right
    omega
  · have := (poseList_cols M f L w hw).2
    have := hpose f hf
    left
    omega
  · simp only [positionList, hc, Bool.not_true, Bool.false_eq_true, if_false] at hw
    exact absurd hw (by simp)

theorem framesWriteList_cols_const (E : Externals β) (M : ModularAlignment β)
    (x : List β) (Ps : List (FrameProjections β)) (p : Nat) (V : Fits M x)
    (hc : M.settings.constParticles = true) :
    ∀ (frames : List Nat) (s : V3 β) (Ls : List (FrameLocals β)),
      (∀ f ∈ frames, (f : Int) < M.fc) →
      localsFrom E M x Ps p s frames = some Ls →
      ∀ w ∈ framesWriteList M x p frames Ls,
        w.1 < getPositionsBlockOffset M (getFrameStride M)
        ∨ get2DDeformationsBlockOffset M (getFrameStride M) ≤ w.1
  | [], s, Ls, _, _, w, hw => by
    simp [framesWriteList] at hw
  | f :: frames, s, Ls, hfr, hLs, w, hw => by
    simp only [localsFrom, Option.bind_eq_bind, Option.bind_eq_some] at hLs
    obtain ⟨L, hL, rest, hrest, hLs⟩ := hLs
    have e := (Option.some.inj hLs).symm
    subst e
    simp only [framesWriteList, List.mem_append] at hw
    rcases hw with hw | hw
    · exact frameWriteList_cols_const E M x Ps p f s L V hc
        (hfr f (List.mem_cons_self f frames)) hL w hw
    · exact framesWriteList_cols_const E M x Ps p V hc frames _ rest
        (fun f' hf' => hfr f' (List.mem_cons_of_mem f hf')) hrest w hw

/-- With constant particles, no write of a particle goes to the position block
or to the motion block. -/
theorem particleWrites_cols_const (E : Externals β) (M : ModularAlignment β)
    (x : List β) (Ps : List (FrameProjections β)) (p : Nat) (V : Fits M x)
    (hc : M.settings.constParticles = true) :
    ∀ w ∈ particleWrites E M x Ps p,
      w.1 < getPositionsBlockOffset M (getFrameStride M)
      ∨ get2DDeformationsBlockOffset M (getFrameStride M) ≤ w.1 := by
  intro w hw
  unfold particleWrites at hw
  cases hLs : particleLocals E M x Ps p with
  | none => rw [hLs] at hw; simp at hw
  | some Ls =>
    rw [hLs] at hw
    simp only [particleLocals, Option.bind_eq_bind, Option.bind_eq_some] at hLs
    obtain ⟨s, -, hLs⟩ := hLs
    simp only [particleWriteList, hc, Bool.not_true, Bool.false_eq_true, if_false,
      List.append_nil] at hw
    exact framesWriteList_cols_const E M x Ps p V hc (List.range M.fc.toNat) s Ls
      (by intro f hf; rw [List.mem_range] at hf; omega) hLs w hw

/-- C16: when `constParticles` is set, for every NaN-free `x` of length
`getParamCount()`, every execution of the parallel loop and models whose
gradient accumulators write only inside their own block, `gradAndValue` returns
a cost and a gradient of the length of `x` in which every entry of the
particle-position block and of the motion block (indices
`getPositionsBlockOffset(fs)` up to, but not including,
`get2DDeformationsBlockOffset(fs)`) is exactly zero; the returned cost is the sum
of the values the particles add to `val_par`, without the prior of the motion
model, and the result is the same with any other motion model in its place
(exact arithmetic). -/
theorem gradAndValue_constParticles [BEq β] [LawfulBEq β] (E : Externals β)
    (M : ModularAlignment β) (sched : List (Nat × Nat)) (x gradDest : List β)
    (V : Valid M x) (hc : M.settings.constParticles = true)
    (hs : ValidSchedule M sched) (hgd : gradDest.length = x.length) :
    ∃ cost grad, gradAndValue E M sched x gradDest = some (cost, grad)
      ∧ grad.length = x.length
      ∧ (∀ j : Int, getPositionsBlockOffset M (getFrameStride M) ≤ j →
          j < get2DDeformationsBlockOffset M (getFrameStride M) →
          getI grad j = some 0)
      ∧ (∃ Ps, buildProjections E M x = some Ps
          ∧ cost = ((List.range M.pc.toNat).map
              (fun p => colOf (particleValues E M x Ps p) 0)).sum)
      ∧ ∀ mm : MotionModel β,
          gradAndValue E { M with motionModel := mm } sched x gradDest
            = some (cost, grad) := by
  have F := V.fits
  obtain ⟨hfs, hpos, hmot, hdef, hlm, hdefx, hpose, hdefw⟩ := F.layout
  obtain ⟨h, Ps, hPs, hPl, hspec⟩ := gradAndValue_eq_spec E M sched x gradDest F hs hgd
  have hres := h.trans hspec
  refine ⟨costOf E M x Ps, gradOf E M x Ps, hres, by simp [gradOf], ?_, ⟨Ps, hPs, ?_⟩, ?_⟩
  · intro j hj1 hj2
    obtain ⟨n, rfl⟩ := Int.eq_ofNat_of_zero_le (le_trans hpos hj1)
    have hn : n < x.length := by omega
    unfold gradOf
    rw [getI_natCast, List.getElem?_map, List.getElem?_range hn]
    simp only [Option.map_some', hc, Bool.not_true, Bool.false_eq_true, if_false, colOf_nil,
      add_zero]
    congr 1
    apply List.sum_eq_zero
    intro v hv
    rw [List.mem_map] at hv
    obtain ⟨p, hp, rfl⟩ := hv
    apply colOf_eq_zero
    intro w hw
    have := particleWrites_cols_const E M x Ps p F hc w hw
    omega
  · simp only [costOf, hc, Bool.not_true, Bool.false_eq_true, if_false]
  · intro mm
    rw [gradAndValue_motionModel E M mm sched x gradDest hc]
    exact hres

end ConstParticles

/-- The scenario `padded` satisfies the contract with every vector of 5
entries. -/
theorem padded_valid (x : List ℤ) (hx : x.length = 5) : Valid Scenario.padded x :=
  ⟨by decide, by decide, by decide, by decide, by decide, by decide, by decide,
    by rw [hx]; decide, fun _ _ _ => le_refl (0 : Int), fun _ _ _ => le_refl (0 : Int),
    fun _ _ => le_refl (0 : Int)⟩

/-- Witness of C16: the scenario `padded` (constant particles, position block
at the indices 2, 3, 4) at `x = (1, 2, 3, 4, 5)`; entry 3 of the gradient is
zero. -/
theorem gradAndValue_constParticles_witness :
    (Valid Scenario.padded [1, 2, 3, 4, 5]
      ∧ Scenario.padded.settings.constParticles = true
      ∧ ValidSchedule Scenario.padded [(0, 0)]
      ∧ ([9, 9, 9, 9, 9] : List ℤ).length = ([1, 2, 3, 4, 5] : List ℤ).length)
    ∧ ∃ cost grad, gradAndValue Scenario.externals Scenario.padded [(0, 0)]
          [1, 2, 3, 4, 5] [9, 9, 9, 9, 9] = some (cost, grad)
        ∧ getI grad 3 = some 0 :=
  ⟨⟨padded_valid _ rfl, rfl, ⟨by decide, by decide⟩, rfl⟩,
   (gradAndValue_constParticles Scenario.externals Scenario.padded [(0, 0)]
      [1, 2, 3, 4, 5] [9, 9, 9, 9, 9] (padded_valid _ rfl) rfl ⟨by decide, by decide⟩
      rfl).imp
    (fun _ h => h.imp (fun _ h => ⟨h.1, h.2.2.1 3 (by decide) (by decide)⟩))⟩

end ModularAlignment

/-! ## Rounding to double -/

namespace Dbl

theorem roundEven_floor_le (m : ℚ) : ⌊m⌋ ≤ roundEven m := by
  unfold roundEven
  simp only
  split_ifs <;> omega

theorem roundEven_le_ceil (m : ℚ) : roundEven m ≤ ⌈m⌉ := by
  have hfc := Int.floor_le_ceil m
  have hlt : (1 : ℚ) / 2 ≤ m - ⌊m⌋ → ⌊m⌋ + 1 ≤ ⌈m⌉ := by
    intro h
    have : ((⌊m⌋ : Int) : ℚ) < m := by linarith
    have := Int.lt_ceil.mpr this
    omega
  unfold roundEven
  simp only
  split_ifs with h1 h2 h3
  · exact hfc
  · exact hlt (not_lt.mp h1)
  · exact hfc
  · exact hlt (not_lt.mp h1)

/-- A value that is less than a half away from an integer is rounded to it. -/
theorem roundEven_of_near (m : ℚ) (N : Int) (h : |m - N| < 1 / 2) : roundEven m = N := by
  rw [abs_lt] at h
  obtain ⟨h1, h2⟩ := h
  unfold roundEven
  simp only
  by_cases hN : (N : ℚ) ≤ m
  · have hf : ⌊m⌋ = N := by
      rw [Int.floor_eq_iff]
      constructor
      · exact hN
      · linarith
    rw [hf, if_pos (by linarith)]
  · have hf : ⌊m⌋ = N - 1 := by
      rw [Int.floor_eq_iff]
      push_cast
      constructor <;> linarith
    rw [hf]
    push_cast
    rw [if_neg (by linarith), if_pos (by linarith)]
    ring

theorem log_of_binade (q : ℚ) (e : Int) (h1 : (2 : ℚ) ^ e ≤ q) (h2 : q < (2 : ℚ) ^ (e + 1)) :
    Int.log 2 q = e := by
  have hq : 0 < q := lt_of_lt_of_le (zpow_pos (by norm_num) e) h1
  have a := (Int.zpow_le_iff_le_log (by norm_num : 1 < 2) hq).mp
    (by simpa using h1 : ((2 : ℕ) : ℚ) ^ e ≤ q)
  have b := (Int.lt_zpow_iff_log_lt (by norm_num : 1 < 2) hq).mp
    (by simpa using h2 : q < ((2 : ℕ) : ℚ) ^ (e + 1))
  omega

/-- Below `2^53` the spacing of the doubles is `1 / 2^j`: every integer is a
multiple of it. -/
theorem ulp_inv_nat (a : ℚ) (ha : 0 < a) (h : a < 2 ^ (53 : Nat)) :
    ∃ j : Nat, ulp a = ((2 : ℚ) ^ j)⁻¹ := by
  have hl : Int.log 2 a < 53 :=
    (Int.lt_zpow_iff_log_lt (by norm_num : 1 < 2) ha).mp (by
      have : (((2 : ℕ) : ℚ) ^ (53 : Int)) = (2 : ℚ) ^ (53 : Nat) := by norm_num
      rw [this]
      exact h)
  have hk : max (Int.log 2 a) (-1022) - 52 ≤ 0 := by omega
  obtain ⟨j, hj⟩ := Int.exists_eq_neg_ofNat hk
  refine ⟨j, ?_⟩
  unfold ulp
  rw [hj, zpow_neg, zpow_natCast]

/-- Rounding does not cross an integer from above. -/
theorem nearest_ge_int (q : ℚ) (hq : 0 < q) (h : q < 2 ^ (53 : Nat)) (n : Int)
    (hn : (n : ℚ) ≤ q) : (n : ℚ) ≤ nearest q := by
  obtain ⟨j, hj⟩ := ulp_inv_nat q hq h
  have hp : (0 : ℚ) < (2 : ℚ) ^ j := pow_pos (by norm_num) j
  unfold nearest
  rw [hj, div_inv_eq_mul]
  have h1 : (((n * 2 ^ j : Int)) : ℚ) ≤ q * 2 ^ j := by
    push_cast
    exact mul_le_mul_of_nonneg_right hn hp.le
  have h2 : n * 2 ^ j ≤ roundEven (q * 2 ^ j) :=
    le_trans (Int.le_floor.mpr h1) (roundEven_floor_le _)
  have h3 : ((n * 2 ^ j : Int) : ℚ) ≤ (roundEven (q * 2 ^ j) : ℚ) := by exact_mod_cast h2
  rw [← div_eq_mul_inv, le_div_iff₀ hp]
  push_cast at h3
  exact h3

/-- Rounding does not cross an integer from below. -/
theorem nearest_le_int (q : ℚ) (hq : 0 < q) (h : q < 2 ^ (53 : Nat)) (n : Int)
    (hn : q ≤ (n : ℚ)) : nearest q ≤ (n : ℚ) := by
  obtain ⟨j, hj⟩ := ulp_inv_nat q hq h
  have hp : (0 : ℚ) < (2 : ℚ) ^ j := pow_pos (by norm_num) j
  unfold nearest
  rw [hj, div_inv_eq_mul]
  have h1 : q * 2 ^ j ≤ (((n * 2 ^ j : Int)) : ℚ) := by
    push_cast
    exact mul_le_mul_of_nonneg_right hn hp.le
  have h2 : roundEven (q * 2 ^ j) ≤ n * 2 ^ j :=
    le_trans (roundEven_le_ceil _) (Int.ceil_le.mpr h1)
  have h3 : (roundEven (q * 2 ^ j) : ℚ) ≤ ((n * 2 ^ j : Int) : ℚ) := by exact_mod_cast h2
  rw [← div_eq_mul_inv, div_le_iff₀ hp]
  push_cast at h3
  exact h3

/-- A positive result below `2^53` is rounded to a finite double. -/
theorem ofRat_of_small (q : ℚ) (hq : 0 < q) (h : q < 2 ^ (53 : Nat)) :
    ofRat q = fin (nearest q) := by
  have hle : nearest q ≤ (((2 ^ 53 : Int)) : ℚ) :=
    nearest_le_int q hq h (2 ^ 53) (by push_cast; exact h.le)
  have hlt : ¬ (2 : ℚ) ^ (1024 : Nat) ≤ nearest q := by
    push_cast at hle
    have : ((2 : ℚ) ^ 53) < (2 : ℚ) ^ (1024 : Nat) := by norm_num
    intro hc
    linarith
  unfold ofRat
  rw [if_neg hq.ne', if_pos hq, if_neg hlt]

/-- The conversion of an integer below `2^53` to double is exact. -/
theorem ofRat_intCast (n : Int) (h1 : 1 ≤ n) (h2 : n < 2 ^ 53) :
    ofRat (n : ℚ) = fin n := by
  have hq : (0 : ℚ) < (n : ℚ) := by exact_mod_cast (by omega : (0 : Int) < n)
  have hlt : (n : ℚ) < 2 ^ (53 : Nat) := by exact_mod_cast h2
  rw [ofRat_of_small _ hq hlt]
  congr 1
  exact le_antisymm (nearest_le_int _ hq hlt n le_rfl) (nearest_ge_int _ hq hlt n le_rfl)

/-- The value computed in a binade `2^e ≤ q < 2^(e+1)` of the normal range. -/
theorem nearest_of_binade (q : ℚ) (e : Int) (he : -1022 ≤ e) (h1 : (2 : ℚ) ^ e ≤ q)
    (h2 : q < (2 : ℚ) ^ (e + 1)) (N : Int)
    (hN : |q / (2 : ℚ) ^ (e - 52) - N| < 1 / 2) :
    nearest q = (N : ℚ) * (2 : ℚ) ^ (e - 52) := by
  have hu : ulp q = (2 : ℚ) ^ (e - 52) := by
    unfold ulp
    rw [log_of_binade q e h1 h2, max_eq_left he]
  unfold nearest
  rw [hu, roundEven_of_near _ N hN]

end Dbl

/-! ## The constructor -/

namespace ModularAlignment

/-- The double a positive value below `2^53` in the binade `2^e ≤ q < 2^(e+1)`
is rounded to. -/
theorem ofRat_of_binade (q : ℚ) (e : Int) (he : -1022 ≤ e) (h1 : (2 : ℚ) ^ e ≤ q)
    (h2 : q < (2 : ℚ) ^ (e + 1)) (hs : q < 2 ^ (53 : Nat)) (N : Int)
    (hN : |q / (2 : ℚ) ^ (e - 52) - N| < 1 / 2) :
    Dbl.ofRat q = Dbl.fin ((N : ℚ) * (2 : ℚ) ^ (e - 52)) := by
  have hq : 0 < q := lt_of_lt_of_le (zpow_pos (by norm_num) e) h1
  rw [Dbl.ofRat_of_small q hq hs, Dbl.nearest_of_binade q e he h1 h2 N hN]

theorem div_fin (a b : ℚ) (hb : b ≠ 0) :
    Dbl.div (Dbl.fin a) (Dbl.fin b) = Dbl.ofRat (a / b) := by
  show (if b = 0 then _ else Dbl.ofRat (a / b)) = _
  rw [if_neg hb]

theorem toInt_fin (q : ℚ) (n : Int) (h0 : 0 ≤ q) (hn : ⌊q⌋ = n) (h : n < 2 ^ 31) :
    Dbl.toInt (Dbl.fin q) = some n := by
  have hn0 : 0 ≤ n := hn ▸ Int.floor_nonneg.mpr h0
  show (if _ then _ else _) = _
  rw [if_pos h0, hn, if_pos (by constructor <;> omega)]

/-- The double quotient `21 / (2 * 1.05)` is exactly 10, although the exact
quotient of the two doubles is below 10. -/
theorem quotient_twentyone :
    Dbl.IsDouble Scenario.pf105
    ∧ ((21 : Int) : ℚ) / (2 * Scenario.pf105) < 10
    ∧ Dbl.toInt (Dbl.div (Dbl.ofRat ((21 : Int) : ℚ)) (Dbl.ofRat (2 * Scenario.pf105)))
        = some 10 := by
  have h21 : Dbl.ofRat ((21 : Int) : ℚ) = Dbl.fin 21 := by
    have := Dbl.ofRat_intCast 21 (by norm_num) (by norm_num)
    simpa using this
  have hpf : Dbl.ofRat Scenario.pf105 = Dbl.fin Scenario.pf105 := by
    unfold Scenario.pf105
    rw [ofRat_of_binade _ 0 (by norm_num) (by norm_num) (by norm_num) (by norm_num)
      4728779608739021 (by norm_num [zpow_neg])]
    congr 1
    norm_num [zpow_neg]
  have h2pf : Dbl.ofRat (2 * Scenario.pf105) = Dbl.fin (2 * Scenario.pf105) := by
    unfold Scenario.pf105
    rw [ofRat_of_binade _ 1 (by norm_num) (by norm_num) (by norm_num) (by norm_num)
      4728779608739021 (by norm_num [zpow_neg])]
    congr 1
    norm_num [zpow_neg]
  have hq : Dbl.ofRat ((21 : ℚ) / (2 * Scenario.pf105)) = Dbl.fin 10 := by
    unfold Scenario.pf105
    rw [ofRat_of_binade _ 3 (by norm_num) (by norm_num) (by norm_num) (by norm_num)
      (10 * 2 ^ 49) (by norm_num [zpow_neg, abs_lt])]
    congr 1
    norm_num [zpow_neg]
  refine ⟨hpf, ?_, ?_⟩
  · unfold Scenario.pf105
    norm_num
  · rw [h21, h2pf, div_fin 21 _ (by unfold Scenario.pf105; norm_num), hq]
    exact toInt_fin _ 10 (by norm_num) (by simp) (by norm_num)

/-- The double quotient can be rounded up to an integer: for the width
`xdim = 21` and the double nearest to `1.05` as padding factor the constructor
computes `maxRange = 10`, and `2 * maxRange * paddingFactor` exceeds `xdim`. -/
theorem construct_rounds_up :
    ∃ M, Scenario.built 21 Scenario.pf105 = some M
      ∧ M.maxRange = 10
      ∧ ((21 : Int) : ℚ) < 2 * (M.maxRange : ℚ) * M.paddingFactor := by
  have hM : ∃ M, Scenario.built 21 Scenario.pf105 = some M ∧ M.maxRange = 10
      ∧ M.paddingFactor = Scenario.pf105 := by
    have hcc : getI [(⟨21, 21, 1, []⟩ : BufferedImage ℚ)] 0 = some ⟨21, 21, 1, []⟩ := rfl
    simp only [Scenario.built, construct, hcc, quotient_twentyone.2.2, Option.bind_eq_bind,
      Option.some_bind]
    exact ⟨_, rfl, rfl, rfl⟩
  obtain ⟨M, hM, hr, hp⟩ := hM
  refine ⟨M, hM, hr, ?_⟩
  rw [hr, hp]
  unfold Scenario.pf105
  norm_num

end ModularAlignment

end Relion
